import Mathlib

/-!
Verification of the explicit-free-list allocator `mallocproj-handout/mm.c`.

The allocator is embedded shallowly.  The heap is a map from byte addresses to
machine words; every access of the program is a whole word at an address of the
shape `base + k * WSIZE`, so words never overlap.  Pointers are natural numbers
and `0` is the null pointer.  `W` is `WSIZE = sizeof(void *)` (4 on ILP32, 8 on
LP64); `size_t` and `uintptr_t` have `8 * W` bits, and `size_t` arithmetic is
reduced modulo `2 ^ (8 * W)` wherever the C code can overflow.
-/

namespace MM

/-! ## Program state -/

/-- The process-wide state of `mm.c` together with the state of the heap-growth
provider (`mem_brk`, `mem_max_addr`). -/
structure State where
  /-- Word stored at each byte address -/
  mem : Nat → Nat
  /-- Global `heap_listp` -/
  heap_listp : Nat
  /-- Global `free_listp` -/
  free_listp : Nat
  /-- Current break of the provider: first byte after the heap -/
  mem_brk : Nat
  /-- Address limit of the provider -/
  mem_max_addr : Nat

/-- Number of values of a `size_t` / `uintptr_t`: two to the power `8 * W`. -/
def WordMod (W : Nat) : Nat := 2 ^ (8 * W)

/-- The failure value `(void *)-1` returned by `mem_sbrk`. -/
def SBRK_FAIL (W : Nat) : Nat := WordMod W - 1

/-- Doubleword size: `#define DSIZE (2 * WSIZE)`. -/
def DSIZE (W : Nat) : Nat := 2 * W

/-- Heap extension amount: `#define CHUNKSIZE (1 << 12)`. -/
def CHUNKSIZE : Nat := 1 <<< 12

/-- Maximum: `#define MAX(x, y) ((x) > (y) ? (x) : (y))`. -/
def MAX (x y : Nat) : Nat := if x > y then x else y

/-- Pack a size and allocated bit: `#define PACK(size, alloc) ((size) | (alloc))`. -/
def PACK (size alloc : Nat) : Nat := size ||| alloc

/-- Read a word: `#define GET(p) (*(uintptr_t *)(p))`. -/
def GET (s : State) (p : Nat) : Nat := s.mem p

/-- Write a word: `#define PUT(p, val) (*(uintptr_t *)(p) = (val))`. -/
def PUT (s : State) (p val : Nat) : State :=
  { s with mem := fun a => if a = p then val else s.mem a }

/-- Size field: `#define GET_SIZE(p) (GET(p) & ~0x7)`; the mask `~0x7` as a
`uintptr_t` is `2 ^ (8 * W) - 8`. -/
def GET_SIZE (W : Nat) (s : State) (p : Nat) : Nat := GET s p &&& (WordMod W - 8)

/-- Allocated bit: `#define GET_ALLOC(p) (GET(p) & 0x1)`. -/
def GET_ALLOC (s : State) (p : Nat) : Nat := GET s p &&& 1

/-- Header address: `#define HDRP(bp) ((char *)(bp) - WSIZE)`. -/
def HDRP (W bp : Nat) : Nat := bp - W

/-- Footer address: `#define FTRP(bp) ((char *)(bp) + GET_SIZE(HDRP(bp)) - DSIZE)`. -/
def FTRP (W : Nat) (s : State) (bp : Nat) : Nat := bp + GET_SIZE W s (HDRP W bp) - DSIZE W

/-- Next block: `#define NEXT_BLKP(bp) ((void *)(bp) + GET_SIZE(HDRP(bp)))`. -/
def NEXT_BLKP (W : Nat) (s : State) (bp : Nat) : Nat := bp + GET_SIZE W s (HDRP W bp)

/-- Previous block: `#define PREV_BLKP(bp) ((void *)(bp) - GET_SIZE((void *)(bp) - DSIZE))`. -/
def PREV_BLKP (W : Nat) (s : State) (bp : Nat) : Nat := bp - GET_SIZE W s (bp - DSIZE W)

/-- Next link of a free-list node: `#define NEXT_PTR(p) (*(char **)(p + WSIZE))`. -/
def NEXT_PTR (W : Nat) (s : State) (p : Nat) : Nat := GET s (p + W)

/-- Previous link of a free-list node: `#define PREV_PTR(p) (*(char **)(p))`. -/
def PREV_PTR (s : State) (p : Nat) : Nat := GET s p

/-- Modelled from the spec: the heap-growth provider `mem_sbrk` of `memlib.c`, which
is not part of the sources.  It extends the managed region by `incr` bytes and
returns the base address of the new space (the old break), or the failure sentinel
`(void *)-1` when the region would pass the provider's limit; the regions it hands
out are contiguous and zero-initialised. -/
def mem_sbrk (W : Nat) (s : State) (incr : Nat) : Nat × State :=
  if s.mem_brk + incr ≤ s.mem_max_addr then
    (s.mem_brk, { s with mem_brk := s.mem_brk + incr })
  else
    (SBRK_FAIL W, s)

/-- The state of the process before any call: both globals are null, the provider's
region starts at `B`, may grow up to `mx`, and is zero-filled. -/
def boot (B mx : Nat) : State :=
  { mem := fun _ => 0, heap_listp := 0, free_listp := 0, mem_brk := B, mem_max_addr := mx }

/-! ## Free-list primitives -/

/-- Embedding of `freeList_push`. -/
def freeList_push (W : Nat) (s : State) (ptr : Nat) : State :=
  let s1 := PUT s (ptr + W) s.free_listp
  let s2 := PUT s1 s1.free_listp ptr
  let s3 := PUT s2 ptr 0
  { s3 with free_listp := ptr }

/-- Embedding of `freeList_pop`. -/
def freeList_pop (W : Nat) (s : State) (ptr : Nat) : State :=
  let s1 :=
    if PREV_PTR s ptr = 0 then
      { s with free_listp := NEXT_PTR W s ptr }
    else
      PUT s (PREV_PTR s ptr + W) (NEXT_PTR W s ptr)
  PUT s1 (NEXT_PTR W s1 ptr) (PREV_PTR s1 ptr)

/-! ## Coalescing, heap extension, placement, search -/

/-- Embedding of `coalesce`; returns the pointer to the coalesced block and the new
state. -/
def coalesce (W : Nat) (s : State) (bp : Nat) : Nat × State :=
  let prev_alloc : Bool :=
    GET_ALLOC s (FTRP W s (PREV_BLKP W s bp)) ≠ 0 || PREV_BLKP W s bp = bp
  let next_alloc : Bool := GET_ALLOC s (HDRP W (NEXT_BLKP W s bp)) ≠ 0
  let size := GET_SIZE W s (HDRP W bp)
  if prev_alloc && next_alloc then
    (bp, freeList_push W s bp)
  else if prev_alloc && !next_alloc then
    let s1 := freeList_pop W s (NEXT_BLKP W s bp)
    let size := (size + GET_SIZE W s1 (HDRP W (NEXT_BLKP W s1 bp))) % WordMod W
    let s2 := PUT s1 (HDRP W bp) (PACK size 0)
    let s3 := PUT s2 (FTRP W s2 bp) (PACK size 0)
    (bp, freeList_push W s3 bp)
  else if !prev_alloc && next_alloc then
    let size := (size + GET_SIZE W s (HDRP W (PREV_BLKP W s bp))) % WordMod W
    let s1 := PUT s (FTRP W s bp) (PACK size 0)
    let s2 := PUT s1 (HDRP W (PREV_BLKP W s1 bp)) (PACK size 0)
    let s3 := freeList_pop W s2 (PREV_BLKP W s2 bp)
    let bp := PREV_BLKP W s3 bp
    (bp, freeList_push W s3 bp)
  else
    let size := (size + (GET_SIZE W s (HDRP W (PREV_BLKP W s bp)) +
      GET_SIZE W s (FTRP W s (NEXT_BLKP W s bp))) % WordMod W) % WordMod W
    let s1 := PUT s (HDRP W (PREV_BLKP W s bp)) (PACK size 0)
    let s2 := PUT s1 (FTRP W s1 (NEXT_BLKP W s1 bp)) (PACK size 0)
    let s3 := freeList_pop W s2 (PREV_BLKP W s2 bp)
    let s4 := freeList_pop W s3 (NEXT_BLKP W s3 bp)
    let bp := PREV_BLKP W s4 bp
    (bp, freeList_push W s4 bp)

/-- Embedding of `extend_heap`; a null result is `0`. -/
def extend_heap (W : Nat) (s : State) (words : Nat) : Nat × State :=
  let size := if words % 2 ≠ 0 then ((words + 1) * W) % WordMod W else (words * W) % WordMod W
  let r := mem_sbrk W s size
  let bp := r.1
  let s1 := r.2
  if bp = SBRK_FAIL W then
    (0, s1)
  else
    let s2 := PUT s1 (HDRP W bp) (PACK size 0)
    let s3 := PUT s2 (FTRP W s2 bp) (PACK size 0)
    let s4 := PUT s3 (HDRP W (NEXT_BLKP W s3 bp)) (PACK 0 1)
    coalesce W s4 bp

/-- Embedding of `place`. -/
def place (W : Nat) (s : State) (bp asize : Nat) : State :=
  let csize := GET_SIZE W s (HDRP W bp)
  if (csize + WordMod W - asize) % WordMod W ≥ 2 * DSIZE W then
    let s1 := freeList_pop W s bp
    let s2 := PUT s1 (HDRP W bp) (PACK asize 1)
    let s3 := PUT s2 (FTRP W s2 bp) (PACK asize 1)
    let bp := NEXT_BLKP W s3 bp
    let s4 := PUT s3 (HDRP W bp) (PACK ((csize + WordMod W - asize) % WordMod W) 0)
    let s5 := PUT s4 (FTRP W s4 bp) (PACK ((csize + WordMod W - asize) % WordMod W) 0)
    (coalesce W s5 bp).2
  else
    let s1 := freeList_pop W s bp
    let s2 := PUT s1 (HDRP W bp) (PACK csize 1)
    PUT s2 (FTRP W s2 bp) (PACK csize 1)

/-- The loop of `find_fit`, started at `bp`.  Each unit of fuel pays for one
evaluation of the loop condition; `none` means the fuel ran out before the loop
ended, `some 0` is the `NULL` result. -/
def find_fit_loop (W : Nat) (s : State) (asize : Nat) : Nat → Nat → Option Nat
  | 0, _ => none
  | fuel + 1, bp =>
    if GET_ALLOC s (HDRP W bp) = 0 then
      if asize ≤ GET_SIZE W s (HDRP W bp) then some bp
      else find_fit_loop W s asize fuel (NEXT_PTR W s bp)
    else some 0

/-- Embedding of `find_fit`. -/
def find_fit (W : Nat) (fuel : Nat) (s : State) (asize : Nat) : Option Nat :=
  find_fit_loop W s asize fuel s.free_listp

/-! ## Public operations -/

/-- Embedding of `mm_init`; the result is the returned `int` and the new state. -/
def mm_init (W : Nat) (s : State) : Int × State :=
  let r := mem_sbrk W s (8 * W)
  let s0 := { r.2 with heap_listp := r.1 }
  if s0.heap_listp = SBRK_FAIL W then
    (-1, s0)
  else
    let s1 := PUT s0 s0.heap_listp 0
    let s2 := PUT s1 (s1.heap_listp + 1 * W) (PACK (DSIZE W) 1)
    let s3 := PUT s2 (s2.heap_listp + 2 * W) (PACK (DSIZE W) 1)
    let s4 := PUT s3 (s3.heap_listp + 3 * W) (PACK 0 1)
    let s5 := { s4 with heap_listp := s4.heap_listp + 2 * W }
    let s6 := { s5 with free_listp := s5.heap_listp }
    let e := extend_heap W s6 (CHUNKSIZE / W)
    if e.1 = 0 then (-1, e.2) else (0, e.2)

/-- The adjusted block size computed by `mm_malloc` for a request of `size` bytes
(`size > 0`), with the `size_t` wrap-around of the C expression. -/
def adjust (W size : Nat) : Nat :=
  if size ≤ DSIZE W then 2 * DSIZE W
  else (DSIZE W * (((size + DSIZE W + (DSIZE W - 1)) % WordMod W) / DSIZE W)) % WordMod W

/-- Embedding of `mm_malloc`.  The result is `none` when the search loop of
`find_fit` runs out of fuel, otherwise the returned pointer (`0` for `NULL`) and
the new state. -/
def mm_malloc (W : Nat) (fuel : Nat) (s : State) (size : Nat) : Option (Nat × State) :=
  let s := if s.heap_listp = 0 then (mm_init W s).2 else s
  if size = 0 then some (0, s)
  else
    let asize := adjust W size
    match find_fit W fuel s asize with
    | none => none
    | some bp =>
      if bp ≠ 0 then some (bp, place W s bp asize)
      else
        let extendsize := MAX asize CHUNKSIZE
        let e := extend_heap W s (extendsize / W)
        if e.1 = 0 then some (0, e.2)
        else some (e.1, place W e.2 e.1 asize)

/-- Embedding of `mm_free`. -/
def mm_free (W : Nat) (s : State) (bp : Nat) : State :=
  if bp = 0 then s
  else
    let size := GET_SIZE W s (HDRP W bp)
    let s := if s.heap_listp = 0 then (mm_init W s).2 else s
    let s1 := PUT s (HDRP W bp) (PACK size 0)
    let s2 := PUT s1 (FTRP W s1 bp) (PACK size 0)
    (coalesce W s2 bp).2

/-! ## Abstract view of the heap

The proofs relate a machine state to a list of blocks in address order and to the
sequence of free-list nodes in list order. -/

/-- A block of the chain: payload address, total size (header and footer included)
and whether it is free. -/
structure Blk where
  /-- Payload address -/
  addr : Nat
  /-- Total size in bytes -/
  size : Nat
  /-- Allocated bit is `0` -/
  free : Bool
deriving DecidableEq, Repr

/-- The word stored in the header and in the footer of a block. -/
def Blk.tag (b : Blk) : Nat := PACK b.size (if b.free then 0 else 1)

/-- The blocks `bs` tile the addresses from payload address `a` to `e`: each block
starts where the previous one ends, every size is a multiple of 8 and at least four
words. -/
def Shape (W : Nat) : Nat → List Blk → Nat → Prop
  | a, [], e => a = e
  | a, b :: bs, e => b.addr = a ∧ b.size % 8 = 0 ∧ 4 * W ≤ b.size ∧ Shape W (a + b.size) bs e

/-- Header and footer of every block of `bs` hold the block's tag. -/
def Tagged (W : Nat) (m : Nat → Nat) (bs : List Blk) : Prop :=
  ∀ b ∈ bs, m (b.addr - W) = b.tag ∧ m (b.addr + b.size - 2 * W) = b.tag

/-- No two neighbouring blocks are both free. -/
def NoAdj (bs : List Blk) : Prop :=
  List.Chain' (fun a b => ¬ (a.free = true ∧ b.free = true)) bs

/-- Payload addresses of the free blocks, in address order. -/
def frees (bs : List Blk) : List Nat := (bs.filter (fun b => b.free)).map (fun b => b.addr)

/-- Payload addresses of the allocated blocks, in address order. -/
def allocs (bs : List Blk) : List Nat :=
  (bs.filter (fun b => !b.free)).map (fun b => b.addr)

/-- A doubly linked segment: starting at pointer `c` whose predecessor is `p`, the
nodes `xs` are linked by their next fields (at `x + W`) and previous fields (at `x`),
and the next field of the last node is `e`. -/
def LSeg (W : Nat) (m : Nat → Nat) : Nat → Nat → List Nat → Nat → Prop
  | _, c, [], e => c = e
  | p, c, x :: xs, e => c = x ∧ m x = p ∧ LSeg W m x (m (x + W)) xs e

/-- Structural well-formedness of a state with respect to a block list `bs` and a
free-list sequence `fl`.  `B` is the first address handed out by the provider.  The free
list is only required to consist of separated nodes lying inside free blocks; that it
holds exactly the free blocks is added by `Inv`.  The previous field of the sentinel (the
prologue footer) points back to the last node. -/
structure Heap (W B : Nat) (s : State) (bs : List Blk) (fl : List Nat) : Prop where
  hW : W = 4 ∨ W = 8
  hB : B % 8 = 0
  lim : s.mem_max_addr < WordMod W
  brk_le : s.mem_brk ≤ s.mem_max_addr
  hlp : s.heap_listp = B + 2 * W
  prol : s.mem (B + W) = PACK (DSIZE W) 1
  gap : s.mem (B + 6 * W) = 0
  shape : Shape W (B + 8 * W) bs s.mem_brk
  tags : Tagged W s.mem bs
  epi : s.mem (s.mem_brk - W) = PACK 0 1
  links : LSeg W s.mem 0 s.free_listp fl (B + 2 * W)
  inside : ∀ x ∈ fl, ∃ b ∈ bs, b.free = true ∧ b.addr ≤ x ∧ x + 4 * W ≤ b.addr + b.size
  sep : ∀ x ∈ fl, ∀ y ∈ fl, x < y → x + 2 * W ≤ y
  nodup : fl.Nodup
  back : ∀ l x, fl = l ++ [x] → s.mem (B + 2 * W) = x

/-- The allocator invariant: a well-formed heap without two adjacent free blocks whose
free list holds exactly the free blocks, each once. -/
structure Inv (W B : Nat) (s : State) (bs : List Blk) (fl : List Nat) : Prop where
  heap : Heap W B s bs fl
  noadj : NoAdj bs
  perm : fl.Perm (frees bs)

/-- The request size does not wrap in the size adjustment of `mm_malloc`. -/
def NoWrap (W n : Nat) : Prop := n + DSIZE W + (DSIZE W - 1) < WordMod W

/-- States reached from a successful `mm_init` by calls of `mm_malloc` (with requests
whose size adjustment does not wrap) and calls of `mm_free` on live pointers.  The list
holds the live allocations: returned pointer and requested size. -/
inductive Reach (W B mx : Nat) : State → List (Nat × Nat) → Prop
  | init : (mm_init W (boot B mx)).1 = 0 → Reach W B mx (mm_init W (boot B mx)).2 []
  | malloc {s s' : State} {live : List (Nat × Nat)} {fuel n p : Nat} :
      Reach W B mx s live → NoWrap W n → mm_malloc W fuel s n = some (p, s') →
      Reach W B mx s' (if p = 0 then live else (p, n) :: live)
  | free {s : State} {live : List (Nat × Nat)} {p n : Nat} :
      Reach W B mx s live → (p, n) ∈ live →
      Reach W B mx (mm_free W s p) (live.erase (p, n))

/-- The situation in which `coalesce` is called on the block `b`: the heap is well
formed, the tags of `b` say free, `b` is not in the free list, which holds exactly the
other free blocks, and no two of the other blocks are adjacent and free. -/
structure CoPre (W B : Nat) (s : State) (pre : List Blk) (b : Blk) (post : List Blk)
    (fl : List Nat) : Prop where
  heap : Heap W B s (pre ++ b :: post) fl
  bfree : b.free = true
  perm : fl.Perm (frees pre ++ frees post)
  na1 : NoAdj pre
  na2 : NoAdj post

/-- The allocated blocks of a block list. -/
def allocBlks (bs : List Blk) : List Blk := bs.filter (fun k => !k.free)

/-- What a successful `mm_malloc` establishes. -/
structure MallocOk (W B : Nat) (s : State) (bs : List Blk) (n p : Nat) (s' : State) : Prop where
  ne : p ≠ 0
  post : ∃ pre post fl' sz, Inv W B s' (pre ++ ⟨p, sz, false⟩ :: post) fl' ∧
    (∀ q ∈ pre.getLast?, q.free = false) ∧ adjust W n ≤ sz ∧
    (∀ c, c ∈ allocBlks (pre ++ ⟨p, sz, false⟩ :: post) ↔
      c ∈ allocBlks bs ∨ c = ⟨p, sz, false⟩)
  fresh : ∀ c ∈ allocBlks bs, c.addr ≠ p
  hlp : s'.heap_listp = s.heap_listp
  max : s'.mem_max_addr = s.mem_max_addr

/-- The state in which `mm_init` calls `extend_heap`, when the provider grants the
first request. -/
def initMid (W : Nat) (s : State) : State :=
  { mem := (PUT (PUT (PUT (PUT s s.mem_brk 0) (s.mem_brk + 1 * W) (PACK (DSIZE W) 1))
      (s.mem_brk + 2 * W) (PACK (DSIZE W) 1)) (s.mem_brk + 3 * W) (PACK 0 1)).mem,
    heap_listp := s.mem_brk + 2 * W,
    free_listp := s.mem_brk + 2 * W,
    mem_brk := s.mem_brk + 8 * W,
    mem_max_addr := s.mem_max_addr }

/-! ## Observations on a machine state -/

/-- Assumptions on the platform and on the provider: a word has 4 or 8 bytes, the first
address handed out by the provider is 8-byte aligned, and every address of the provider's
region fits a pointer. -/
def Env (W B mx : Nat) : Prop := (W = 4 ∨ W = 8) ∧ B % 8 = 0 ∧ mx < WordMod W

/-- The free-list walk, as in the loop of `find_fit`: starting at `bp`, follow the next
links while the header of the current node has allocated bit `0`.  The result lists the
visited nodes; `none` means the fuel ran out before the sentinel was reached. -/
def freeListWalk (W : Nat) (s : State) : Nat → Nat → Option (List Nat)
  | 0, _ => none
  | fuel + 1, bp =>
    if GET_ALLOC s (HDRP W bp) = 0 then
      (freeListWalk W s fuel (NEXT_PTR W s bp)).map (fun l => bp :: l)
    else some []

/-- The block-chain walk, as in the loop of `checkheap`: starting at `bp`, step by header
sizes while the size is positive.  The result lists the visited blocks and the pointer at
which the walk stopped; `none` means the fuel ran out. -/
def chainWalk (W : Nat) (s : State) : Nat → Nat → Option (List Nat × Nat)
  | 0, _ => none
  | fuel + 1, bp =>
    if GET_SIZE W s (HDRP W bp) > 0 then
      (chainWalk W s fuel (NEXT_BLKP W s bp)).map (fun r => (bp :: r.1, r.2))
    else some ([], bp)

/-- The live allocations are allocated blocks of the chain that hold the requested
bytes, and no pointer is live twice. -/
def LiveOk (W : Nat) (bs : List Blk) (live : List (Nat × Nat)) : Prop :=
  (∀ pn ∈ live, ∃ k ∈ allocBlks bs, k.addr = pn.1 ∧ pn.2 + 2 * W ≤ k.size) ∧
    (live.map Prod.fst).Nodup

/-- The invariant of reachable states. -/
def RInv (W B mx : Nat) (s : State) (live : List (Nat × Nat)) : Prop :=
  ∃ bs fl, Inv W B s bs fl ∧ s.mem_max_addr = mx ∧ LiveOk W bs live

/-! ## A concrete run

A 32-bit platform whose provider hands out the addresses from 8 up to 100000. -/

/-- The state after `mm_init()`. -/
def demo0 : State := (mm_init 4 (boot 8 100000)).2

/-- The state after `mm_init(); a = mm_malloc(24)`. -/
def demo1 : State := ((mm_malloc 4 8 demo0 24).getD (0, demo0)).2

/-- The state after `mm_init(); a = mm_malloc(24); b = mm_malloc(24)`. -/
def demo2 : State := ((mm_malloc 4 8 demo1 24).getD (0, demo1)).2

/-! ## The consistency checker -/

/-- The error messages of `checkblock` and `checkheap`. -/
inductive Msg where
  /-- "Error: The header does not meet with the footer" -/
  | header_footer
  /-- "Error: %p is not doubleword aligned" -/
  | misaligned (bp : Nat)
  /-- "Come across an allocated block in the free list." -/
  | allocated_in_free_list
  /-- "Bad p-header" -/
  | bad_p_header
  /-- "Bad e-header" -/
  | bad_e_header
deriving DecidableEq, Repr

/-- Embedding of `checkblock`: the messages it prints for the block `bp`. -/
def checkblock (W : Nat) (s : State) (bp : Nat) : List Msg :=
  (if GET s (HDRP W bp) ≠ GET s (FTRP W s bp) then [Msg.header_footer] else []) ++
    (if bp % 8 ≠ 0 then [Msg.misaligned bp] else [])

/-- The first loop of `checkheap`, `while (NEXT_PTR(bp) != NULL)`: `some true` when it
meets a node with an allocated bit set in header or footer (the function then prints its
message and returns), `some false` when the loop ends, `none` when the fuel runs out. -/
def checkheap_free_loop (W : Nat) (s : State) : Nat → Nat → Option Bool
  | 0, _ => none
  | fuel + 1, bp =>
    if NEXT_PTR W s bp ≠ 0 then
      if GET_ALLOC s (HDRP W bp) = 1 ∨ GET_ALLOC s (FTRP W s bp) = 1 then some true
      else checkheap_free_loop W s fuel (NEXT_PTR W s bp)
    else some false

/-- The block loop of `checkheap`, `for (bp = heap_listp; GET_SIZE(HDRP(bp)) > 0;
bp = NEXT_BLKP(bp))`: the messages of `checkblock` on the visited blocks and the pointer
at which the loop ends. -/
def checkheap_block_loop (W : Nat) (s : State) : Nat → Nat → Option (List Msg × Nat)
  | 0, _ => none
  | fuel + 1, bp =>
    if GET_SIZE W s (HDRP W bp) > 0 then
      (checkheap_block_loop W s fuel (NEXT_BLKP W s bp)).map
        (fun r => (checkblock W s bp ++ r.1, r.2))
    else some ([], bp)

/-- Embedding of `checkheap(0)`: the list of error messages it prints, in order.  (With
`verbose` set the function prints the blocks in addition.) -/
def checkheap (W : Nat) (fuel : Nat) (s : State) : Option (List Msg) :=
  match checkheap_free_loop W s fuel s.free_listp with
  | none => none
  | some true => some [Msg.allocated_in_free_list]
  | some false =>
    match checkheap_block_loop W s fuel s.heap_listp with
    | none => none
    | some (ms, bp) =>
      some ((if GET_SIZE W s (HDRP W s.heap_listp) ≠ DSIZE W ∨
              GET_ALLOC s (HDRP W s.heap_listp) = 0 then [Msg.bad_p_header] else []) ++
        checkblock W s s.heap_listp ++ ms ++
        (if GET_SIZE W s (HDRP W bp) ≠ 0 ∨ GET_ALLOC s (HDRP W bp) = 0
          then [Msg.bad_e_header] else []))

/-- The pointer at which the loop of `find_fit` stops when no node is large enough: the
first pointer on the chain of next links whose header has its allocated bit set. -/
def freeListEnd (W : Nat) (s : State) : Nat → Nat → Option Nat
  | 0, _ => none
  | fuel + 1, bp =>
    if GET_ALLOC s (HDRP W bp) = 0 then freeListEnd W s fuel (NEXT_PTR W s bp)
    else some bp

/-- A well-formed free list in the sense of the list primitives: the nodes `L` are linked
from `free_listp` to the sentinel `H`, are distinct and non-null, and the two link words
of a node overlap neither those of another node nor the previous field of the sentinel. -/
def FreeListOk (W : Nat) (s : State) (L : List Nat) (H : Nat) : Prop :=
  LSeg W s.mem 0 s.free_listp L H ∧ L.Nodup ∧ (∀ y ∈ L, y ≠ 0 ∧ y ≠ H ∧ y + W ≠ H) ∧
    (∀ y ∈ L, ∀ z ∈ L, y + W ≠ z)

/-- The block `b` is not a node of the list `L` and its link words overlap none of the
list. -/
def FreshNode (W : Nat) (L : List Nat) (H b : Nat) : Prop :=
  b ≠ 0 ∧ b ≠ H ∧ b + W ≠ H ∧ ∀ y ∈ L, b ≠ y ∧ b ≠ y + W ∧ b + W ≠ y

/-! ## Further concrete runs -/

/-- The state after `mm_init(); a = mm_malloc(4000)` on the 32-bit platform. -/
def demoA : State := ((mm_malloc 4 8 demo0 4000).getD (0, demo0)).2

/-- The state after `mm_init(); a = mm_malloc(4000); b = mm_malloc(4000)`. -/
def demoB : State := ((mm_malloc 4 8 demoA 4000).getD (0, demoA)).2

/-- A 64-bit platform whose provider hands out the addresses from 16 up to 100000: the
state after `mm_init()`. -/
def demo64 : State := (mm_init 8 (boot 16 100000)).2

/-- The state after `a = mm_malloc(24)` on the 64-bit platform. -/
def demo64a : State := ((mm_malloc 8 8 demo64 24).getD (0, demo64)).2

/-- The state after `b = mm_malloc(1)` following `demo64a`. -/
def demo64b : State := ((mm_malloc 8 8 demo64a 1).getD (0, demo64a)).2

/-- The state in which `mm_free(40)` calls `coalesce`, after `mm_init()` and a placement
of 32 bytes at 40 on the 32-bit platform: header and footer of the block say free, and the
block after it is free. -/
def demoC : State := PUT (PUT (place 4 demo0 40 32) (40 - 4) 32) (40 + 32 - 2 * 4) 32

/-- The state after `mm_init()` on a 32-bit platform whose provider stops at 4200. -/
def demoS : State := (mm_init 4 (boot 8 4200)).2

/-! ## Runs with a request whose size adjustment wraps

All on the 32-bit platform with the provider region from 8 up to 100000, starting from
`demo0`, the state after `mm_init()`. -/

/-- The state after `mm_malloc(2^32 - 1)`, which returns 40. -/
def wrapA1 : State := ((mm_malloc 4 8 demo0 (2 ^ 32 - 1)).getD (0, demo0)).2

/-- The state after `wrapA1` and `mm_malloc(4088)`, which returns 48. -/
def wrapA2 : State := ((mm_malloc 4 8 wrapA1 4088).getD (0, wrapA1)).2

/-- The state after `wrapA2` and `mm_free(40)`. -/
def wrapA3 : State := mm_free 4 wrapA2 40

/-- The state after `wrapA3` and `mm_malloc(1)`, which returns 4144. -/
def wrapA4 : State := ((mm_malloc 4 8 wrapA3 1).getD (0, wrapA3)).2

/-- The state after `wrapA4` and `mm_free(4144)`. -/
def wrapA5 : State := mm_free 4 wrapA4 4144

/-- The state after `wrapA1` and `mm_malloc(24)`, which returns 48. -/
def wrapB2 : State := ((mm_malloc 4 8 wrapA1 24).getD (0, wrapA1)).2

/-- The state after `mm_malloc(2^32 - 8)`, which returns 40. -/
def wrapC1 : State := ((mm_malloc 4 8 demo0 (2 ^ 32 - 8)).getD (0, demo0)).2

/-- The state after `wrapC1` and `mm_free(40)`. -/
def wrapC2 : State := mm_free 4 wrapC1 40

/-- The state after `demo1` (`mm_malloc(24)` returned 40) and `mm_malloc(2^32 - 8)`, which
returns 72. -/
def wrapD2 : State := ((mm_malloc 4 8 demo1 (2 ^ 32 - 8)).getD (0, demo1)).2

/-- The state after `wrapD2` and `mm_free(40)`. -/
def wrapD3 : State := mm_free 4 wrapD2 40

/-- The state after `wrapD3` and `mm_malloc(4088)`, which returns 40. -/
def wrapD4 : State := ((mm_malloc 4 8 wrapD3 4088).getD (0, wrapD3)).2

theorem and_mask_eq (w x : Nat) (hx : x < 2 ^ w) : x &&& (2 ^ w - 8) = 8 * (x / 8) := by
  apply Nat.eq_of_testBit_eq
  intro i
  have h7 : (7 : Nat) < 2 ^ w ∨ w < 3 := by
    by_cases hw : w < 3
    · exact Or.inr hw
    · left
      have : 2 ^ 3 ≤ 2 ^ w := Nat.pow_le_pow_right (by norm_num) (by omega)
      omega
  rcases h7 with h7 | hw
  · have e1 : 2 ^ w - 8 = 2 ^ w - (7 + 1) := rfl
    have e2 : (8 : Nat) = 2 ^ 3 := rfl
    have e3 : (7 : Nat) = 2 ^ 3 - 1 := rfl
    rw [Nat.testBit_and, e1, Nat.testBit_two_pow_sub_succ h7]
    rw [e2, Nat.testBit_mul_pow_two, ← Nat.shiftRight_eq_div_pow, Nat.testBit_shiftRight]
    rw [e3, Nat.testBit_two_pow_sub_one]
    by_cases h3 : i < 3
    · simp [h3]
    · have h3' : 3 ≤ i := by omega
      have : 3 + (i - 3) = i := by omega
      simp [h3, h3', this]
      intro hb
      by_contra hcon
      have hle : 2 ^ w ≤ 2 ^ i := Nat.pow_le_pow_right (by norm_num) (by omega)
      have := Nat.testBit_lt_two_pow (lt_of_lt_of_le hx hle)
      simp [hb] at this
  · have : 2 ^ w ≤ 2 ^ 2 := Nat.pow_le_pow_right (by norm_num) (by omega)
    have h8 : 2 ^ w - 8 = 0 := by omega
    have hx' : x / 8 = 0 := by omega
    simp [h8, hx']

theorem PACK_eq_add (sz a : Nat) (hsz : sz % 8 = 0) (ha : a ≤ 1) : PACK sz a = sz + a := by
  unfold PACK
  obtain ⟨k, rfl⟩ : ∃ k, sz = 2 ^ 3 * k := ⟨sz / 8, by omega⟩
  exact (Nat.mul_add_lt_is_or (by omega) k).symm

theorem WordMod_cases {W : Nat} (hW : W = 4 ∨ W = 8) :
    WordMod W = 4294967296 ∨ WordMod W = 18446744073709551616 := by
  rcases hW with rfl | rfl
  · left; norm_num [WordMod]
  · right; norm_num [WordMod]

theorem word_and_mask {W : Nat} (hW : W = 4 ∨ W = 8) (sz a : Nat) (hsz : sz % 8 = 0)
    (ha : a ≤ 1) (hlt : sz < WordMod W) : (sz + a) &&& (WordMod W - 8) = sz := by
  have hlt' : sz + a < 2 ^ (8 * W) := by
    have := WordMod_cases hW
    unfold WordMod at this hlt
    omega
  unfold WordMod
  rw [and_mask_eq _ _ hlt']
  omega

theorem word_and_one (sz a : Nat) (hsz : sz % 8 = 0) (ha : a ≤ 1) : (sz + a) &&& 1 = a := by
  rw [Nat.and_one_is_mod]
  omega

theorem Blk.tag_eq (b : Blk) (h8 : b.size % 8 = 0) :
    b.tag = b.size + (if b.free then 0 else 1) := by
  unfold Blk.tag
  exact PACK_eq_add _ _ h8 (by split <;> omega)

theorem Blk.tag_size {W : Nat} (hW : W = 4 ∨ W = 8) (b : Blk) (h8 : b.size % 8 = 0)
    (hlt : b.size < WordMod W) : b.tag &&& (WordMod W - 8) = b.size := by
  rw [b.tag_eq h8]
  exact word_and_mask hW _ _ h8 (by split <;> omega) hlt

theorem Blk.tag_alloc (b : Blk) (h8 : b.size % 8 = 0) :
    b.tag &&& 1 = (if b.free then 0 else 1) := by
  rw [b.tag_eq h8]
  exact word_and_one _ _ h8 (by split <;> omega)

/-! ## State accessors -/

@[simp]
theorem PUT_mem (s : State) (p v a : Nat) :
    (PUT s p v).mem a = if a = p then v else s.mem a := rfl

@[simp]
theorem PUT_heap_listp (s : State) (p v : Nat) : (PUT s p v).heap_listp = s.heap_listp := rfl

@[simp]
theorem PUT_free_listp (s : State) (p v : Nat) : (PUT s p v).free_listp = s.free_listp := rfl

@[simp]
theorem PUT_mem_brk (s : State) (p v : Nat) : (PUT s p v).mem_brk = s.mem_brk := rfl

@[simp]
theorem PUT_mem_max_addr (s : State) (p v : Nat) :
    (PUT s p v).mem_max_addr = s.mem_max_addr := rfl

/-! ## Block tilings -/

theorem Shape_nil {W : Nat} (a e : Nat) : Shape W a [] e ↔ a = e := Iff.rfl

theorem Shape_cons {W : Nat} (a e : Nat) (b : Blk) (bs : List Blk) :
    Shape W a (b :: bs) e ↔
      b.addr = a ∧ b.size % 8 = 0 ∧ 4 * W ≤ b.size ∧ Shape W (a + b.size) bs e := Iff.rfl

theorem Shape_append {W : Nat} (l1 l2 : List Blk) (a e : Nat) :
    Shape W a (l1 ++ l2) e ↔ ∃ c, Shape W a l1 c ∧ Shape W c l2 e := by
  induction l1 generalizing a with
  | nil => simp [Shape_nil]
  | cons b l ih =>
    simp only [List.cons_append, Shape_cons, ih]
    constructor
    · rintro ⟨h1, h2, h3, c, h4, h5⟩
      exact ⟨c, ⟨h1, h2, h3, h4⟩, h5⟩
    · rintro ⟨c, ⟨h1, h2, h3, h4⟩, h5⟩
      exact ⟨h1, h2, h3, c, h4, h5⟩

theorem Shape_le {W : Nat} {l : List Blk} {a e : Nat} (h : Shape W a l e) : a ≤ e := by
  induction l generalizing a with
  | nil => simp [Shape] at h; omega
  | cons b l ih =>
    obtain ⟨_, _, _, h4⟩ := h
    have := ih h4
    omega

theorem Shape_mem {W : Nat} {l : List Blk} {a e : Nat} (h : Shape W a l e) {b : Blk}
    (hb : b ∈ l) : a ≤ b.addr ∧ b.addr + b.size ≤ e ∧ b.size % 8 = 0 ∧ 4 * W ≤ b.size := by
  induction l generalizing a with
  | nil => simp at hb
  | cons c l ih =>
    obtain ⟨h1, h2, h3, h4⟩ := h
    rcases List.mem_cons.1 hb with rfl | hb
    · have := Shape_le h4
      omega
    · have := ih h4 hb
      omega

theorem Shape_disj {W : Nat} {l : List Blk} {a e : Nat} (h : Shape W a l e) {b c : Blk}
    (hb : b ∈ l) (hc : c ∈ l) :
    b = c ∨ b.addr + b.size ≤ c.addr ∨ c.addr + c.size ≤ b.addr := by
  induction l generalizing a with
  | nil => simp at hb
  | cons d l ih =>
    obtain ⟨h1, h2, h3, h4⟩ := h
    rcases List.mem_cons.1 hb with rfl | hb' <;> rcases List.mem_cons.1 hc with rfl | hc'
    · exact Or.inl rfl
    · have := Shape_mem h4 hc'
      right; left; omega
    · have := Shape_mem h4 hb'
      right; right; omega
    · exact ih h4 hb' hc'

theorem Shape_aligned {W : Nat} {l : List Blk} {a e : Nat} (h : Shape W a l e)
    (ha : a % 8 = 0) {b : Blk} (hb : b ∈ l) : b.addr % 8 = 0 := by
  induction l generalizing a with
  | nil => simp at hb
  | cons c l ih =>
    obtain ⟨h1, h2, h3, h4⟩ := h
    rcases List.mem_cons.1 hb with rfl | hb
    · omega
    · exact ih h4 (by omega) hb

theorem Shape_end_aligned {W : Nat} {l : List Blk} {a e : Nat} (h : Shape W a l e)
    (ha : a % 8 = 0) : e % 8 = 0 := by
  induction l generalizing a with
  | nil => simp [Shape] at h; omega
  | cons c l ih =>
    obtain ⟨h1, h2, h3, h4⟩ := h
    exact ih h4 (by omega)

/-! ## Linked segments -/

theorem LSeg_congr {W : Nat} {m m' : Nat → Nat} {xs : List Nat} {p c e : Nat}
    (hm : ∀ x ∈ xs, m' x = m x ∧ m' (x + W) = m (x + W)) (h : LSeg W m p c xs e) :
    LSeg W m' p c xs e := by
  induction xs generalizing p c with
  | nil => exact h
  | cons x xs ih =>
    obtain ⟨h1, h2, h3⟩ := h
    have hx := hm x (List.mem_cons_self _ _)
    refine ⟨h1, by rw [hx.1]; exact h2, ?_⟩
    rw [hx.2]
    exact ih (fun y hy => hm y (List.mem_cons_of_mem _ hy)) h3

theorem LSeg_head {W : Nat} {m : Nat → Nat} {xs : List Nat} {p c e : Nat}
    (h : LSeg W m p c xs e) : c = xs.head?.getD e := by
  cases xs with
  | nil => exact h
  | cons x xs => exact h.1

theorem LSeg_nil {W : Nat} {m : Nat → Nat} (p c e : Nat) : LSeg W m p c [] e ↔ c = e := Iff.rfl

theorem LSeg_cons {W : Nat} {m : Nat → Nat} (p c e x : Nat) (xs : List Nat) :
    LSeg W m p c (x :: xs) e ↔ c = x ∧ m x = p ∧ LSeg W m x (m (x + W)) xs e := Iff.rfl

/-- Splitting a segment at a node `x`. -/
theorem LSeg_append_cons {W : Nat} {m : Nat → Nat} (l1 l2 : List Nat) (x p c e : Nat) :
    LSeg W m p c (l1 ++ x :: l2) e ↔
      LSeg W m p c l1 x ∧ m x = l1.getLast?.getD p ∧ LSeg W m x (m (x + W)) l2 e := by
  induction l1 generalizing p c with
  | nil =>
    simp only [List.nil_append, LSeg_cons, LSeg_nil, List.getLast?_nil, Option.getD_none]
  | cons y l ih =>
    have hl : (y :: l).getLast?.getD p = l.getLast?.getD y := by
      cases l with
      | nil => simp
      | cons z l =>
        rw [List.getLast?_cons_cons, List.getLast?_eq_getLast _ (List.cons_ne_nil _ _)]
        rfl
    simp only [List.cons_append, LSeg_cons, ih, hl]
    tauto

/-! ## The free-list primitives on linked segments -/

theorem freeList_pop_head_eq (W : Nat) (s : State) (x : Nat) (h : s.mem x = 0) :
    freeList_pop W s x = PUT { s with free_listp := s.mem (x + W) } (s.mem (x + W)) 0 := by
  simp [freeList_pop, PREV_PTR, NEXT_PTR, GET, h]

theorem freeList_pop_mid_eq (W : Nat) (s : State) (x q : Nat) (h : s.mem x = q) (hq : q ≠ 0)
    (h1 : x ≠ q) (h2 : x ≠ q + W) :
    freeList_pop W s x = PUT (PUT s (q + W) (s.mem (x + W))) (s.mem (x + W)) q := by
  have h3 : ¬ (x + W = q + W) := by omega
  simp [freeList_pop, PREV_PTR, NEXT_PTR, GET, h, hq, h2, h3]

theorem freeList_push_mem (W : Nat) (s : State) (x a : Nat) :
    (freeList_push W s x).mem a =
      if a = x then 0 else if a = s.free_listp then x else if a = x + W then s.free_listp
      else s.mem a := by
  simp [freeList_push]

@[simp]
theorem freeList_push_free_listp (W : Nat) (s : State) (x : Nat) :
    (freeList_push W s x).free_listp = x := rfl

@[simp]
theorem freeList_push_heap_listp (W : Nat) (s : State) (x : Nat) :
    (freeList_push W s x).heap_listp = s.heap_listp := rfl

@[simp]
theorem freeList_push_mem_brk (W : Nat) (s : State) (x : Nat) :
    (freeList_push W s x).mem_brk = s.mem_brk := rfl

@[simp]
theorem freeList_push_mem_max_addr (W : Nat) (s : State) (x : Nat) :
    (freeList_push W s x).mem_max_addr = s.mem_max_addr := rfl

@[simp]
theorem freeList_pop_heap_listp (W : Nat) (s : State) (x : Nat) :
    (freeList_pop W s x).heap_listp = s.heap_listp := by
  unfold freeList_pop; split <;> rfl

@[simp]
theorem freeList_pop_mem_brk (W : Nat) (s : State) (x : Nat) :
    (freeList_pop W s x).mem_brk = s.mem_brk := by
  unfold freeList_pop; split <;> rfl

@[simp]
theorem freeList_pop_mem_max_addr (W : Nat) (s : State) (x : Nat) :
    (freeList_pop W s x).mem_max_addr = s.mem_max_addr := by
  unfold freeList_pop; split <;> rfl

/-- Pushing a fresh node makes it the head of the list. -/
theorem push_LSeg {W : Nat} (hW : 0 < W) (s : State) (fl : List Nat) (H x : Nat)
    (hl : LSeg W s.mem 0 s.free_listp fl H) (hnd : fl.Nodup)
    (hxH : x ≠ H ∧ x + W ≠ H)
    (hx : ∀ y ∈ fl, x ≠ y ∧ x ≠ y + W ∧ x + W ≠ y)
    (hsep : ∀ y ∈ fl, ∀ z ∈ fl, y + W ≠ z) :
    LSeg W (freeList_push W s x).mem 0 (freeList_push W s x).free_listp (x :: fl) H := by
  have hflp := LSeg_head hl
  refine ⟨rfl, by simp [freeList_push_mem], ?_⟩
  cases fl with
  | nil =>
    have hH : s.free_listp = H := hl
    rw [LSeg_nil, freeList_push_mem]
    have h1 : x + W ≠ x := by omega
    simp [h1, hxH.2, hH]
  | cons y fl' =>
    obtain ⟨h1, h2, h3⟩ := hl
    have hy := hx y (List.mem_cons_self _ _)
    have hxW : (freeList_push W s x).mem (x + W) = y := by
      rw [freeList_push_mem, h1]
      have e1 : x + W ≠ x := by omega
      simp [e1, hy.2.2]
    rw [hxW]
    refine ⟨rfl, ?_, ?_⟩
    · rw [freeList_push_mem, h1]
      have e1 : y ≠ x := fun e => hy.1 e.symm
      simp [e1]
    · have hyW : (freeList_push W s x).mem (y + W) = s.mem (y + W) := by
        rw [freeList_push_mem, h1]
        have e1 : y + W ≠ x := fun e => hy.2.1 e.symm
        have e2 : y + W ≠ y := by omega
        have e3 : y + W ≠ x + W := by have := hy.1; omega
        simp [e1, e2, e3]
      rw [hyW]
      refine LSeg_congr ?_ h3
      intro z hz
      have hzm : z ∈ y :: fl' := List.mem_cons_of_mem _ hz
      have hxz := hx z hzm
      have hzy : z ≠ y := by
        rintro rfl
        exact (List.nodup_cons.1 hnd).1 hz
      have hzWy : z + W ≠ y := hsep z hzm y (List.mem_cons_self _ _)
      rw [freeList_push_mem, freeList_push_mem, h1]
      have e1 : z ≠ x := fun e => hxz.1 e.symm
      have e2 : z ≠ x + W := fun e => hxz.2.2 e.symm
      have e3 : z + W ≠ x := fun e => hxz.2.1 e.symm
      have e4 : z + W ≠ x + W := by omega
      simp [e1, e2, e3, e4, hzy, hzWy]

/-- After a push the previous field of the sentinel still points to the last node. -/
theorem push_back {W : Nat} (s : State) (fl : List Nat) (H x : Nat)
    (hl : LSeg W s.mem 0 s.free_listp fl H)
    (hxH : x ≠ H ∧ x + W ≠ H) (hH : ∀ y ∈ fl, y ≠ H)
    (hback : ∀ l z, fl = l ++ [z] → s.mem H = z) :
    ∀ l z, x :: fl = l ++ [z] → (freeList_push W s x).mem H = z := by
  intro l z e
  rw [freeList_push_mem, if_neg (Ne.symm hxH.1)]
  cases fl with
  | nil =>
    have hH' : s.free_listp = H := hl
    rw [if_pos hH'.symm]
    cases l with
    | nil => simpa using e
    | cons a l =>
      have := congrArg List.length e
      simp at this
  | cons y fl' =>
    have hy : s.free_listp = y := hl.1
    have hyH : y ≠ H := hH y (List.mem_cons_self _ _)
    rw [hy, if_neg (Ne.symm hyH), if_neg (Ne.symm hxH.2)]
    cases l with
    | nil =>
      have := congrArg List.length e
      simp at this
    | cons a l =>
      simp only [List.cons_append, List.cons.injEq] at e
      exact hback l z e.2

/-- After a pop the previous field of the sentinel points to the last remaining node. -/
theorem pop_back {W : Nat} (s : State) (fl : List Nat) (H x : Nat)
    (hl : LSeg W s.mem 0 s.free_listp fl H) (hx : x ∈ fl) (hnd : fl.Nodup)
    (h0 : ∀ y ∈ fl, y ≠ 0) (hH : ∀ y ∈ fl, y ≠ H ∧ y + W ≠ H)
    (hsep : ∀ y ∈ fl, ∀ z ∈ fl, y + W ≠ z)
    (hback : ∀ l z, fl = l ++ [z] → s.mem H = z) :
    ∀ l z, fl.erase x = l ++ [z] → (freeList_pop W s x).mem H = z := by
  obtain ⟨l1, l2, rfl⟩ := List.append_of_mem hx
  have hnd' := hnd
  rw [List.nodup_append] at hnd'
  obtain ⟨hnd1, hnd2, hdisj⟩ := hnd'
  have hx1 : x ∉ l1 := fun h => hdisj h (List.mem_cons_self _ _)
  have herase : (l1 ++ x :: l2).erase x = l1 ++ l2 := by
    rw [List.erase_append_right _ hx1, List.erase_cons_head]
  rw [herase]
  obtain ⟨hs1, hmx, hs2⟩ := (LSeg_append_cons l1 l2 x 0 s.free_listp H).1 hl
  intro l z e
  have memx : x ∈ l1 ++ x :: l2 := hx
  -- the value written to the sentinel when `x` is the last node
  rcases List.eq_nil_or_concat' l2 with rfl | ⟨l2', w, rfl⟩
  · -- `x` is the last node
    have hn : s.mem (x + W) = H := hs2
    rw [List.append_nil] at e
    subst e
    have hqm : z ∈ l ++ [z] ++ [x] := by simp
    have hmxq : s.mem x = z := by simpa using hmx
    have hq0 : z ≠ 0 := h0 z hqm
    have hxq : x ≠ z := by
      rintro rfl
      exact hx1 (by simp)
    have hxqW : x ≠ z + W := fun e' => hsep z hqm x memx e'.symm
    rw [freeList_pop_mid_eq W s x z hmxq hq0 hxq hxqW, hn]
    simp
  · -- the last node `w` stays
    have hwm : w ∈ l1 ++ x :: (l2' ++ [w]) := by simp
    have hwH := hH w hwm
    have hzw : z = w := by
      have e' : l1 ++ l2' ++ [w] = l ++ [z] := by rw [← e]; simp
      have e2 := (List.append_inj' e' rfl).2
      simpa using e2.symm
    subst hzw
    have hbk : s.mem H = z := hback (l1 ++ x :: l2') z (by simp)
    have hnextH : s.mem (x + W) ≠ H := by
      cases l2' with
      | nil =>
        have : s.mem (x + W) = z := hs2.1
        rw [this]; exact hwH.1
      | cons y l2'' =>
        have : s.mem (x + W) = y := hs2.1
        rw [this]
        exact (hH y (by simp)).1
    rcases List.eq_nil_or_concat' l1 with rfl | ⟨l1', q, rfl⟩
    · have hmx0 : s.mem x = 0 := by simpa using hmx
      rw [freeList_pop_head_eq W s x hmx0, PUT_mem, if_neg (Ne.symm hnextH)]
      exact hbk
    · have hqm : q ∈ l1' ++ [q] ++ x :: (l2' ++ [z]) := by simp
      have hmxq : s.mem x = q := by simpa using hmx
      have hq0 : q ≠ 0 := h0 q hqm
      have hxq : x ≠ q := by
        rintro rfl
        exact hx1 (by simp)
      have hxqW : x ≠ q + W := fun e' => hsep q hqm x memx e'.symm
      have hqH := hH q hqm
      rw [freeList_pop_mid_eq W s x q hmxq hq0 hxq hxqW, PUT_mem, if_neg (Ne.symm hnextH),
        PUT_mem, if_neg (Ne.symm hqH.2)]
      exact hbk

/-- Popping a node removes it from the list and keeps the order of the others; only the
link fields of other nodes and the previous field of the sentinel are written. -/
theorem pop_LSeg {W : Nat} (hW : 0 < W) (s : State) (fl : List Nat) (H x : Nat)
    (hl : LSeg W s.mem 0 s.free_listp fl H) (hx : x ∈ fl) (hnd : fl.Nodup)
    (h0 : ∀ y ∈ fl, y ≠ 0) (hH : ∀ y ∈ fl, y ≠ H ∧ y + W ≠ H)
    (hsep : ∀ y ∈ fl, ∀ z ∈ fl, y + W ≠ z) :
    LSeg W (freeList_pop W s x).mem 0 (freeList_pop W s x).free_listp (fl.erase x) H ∧
    (∀ a, a ≠ H → (∀ y ∈ fl, y ≠ x → a ≠ y ∧ a ≠ y + W) →
      (freeList_pop W s x).mem a = s.mem a) := by
  obtain ⟨l1, l2, rfl⟩ := List.append_of_mem hx
  have hnd' := hnd
  rw [List.nodup_append] at hnd'
  obtain ⟨hnd1, hnd2, hdisj⟩ := hnd'
  have hx1 : x ∉ l1 := fun h => hdisj h (List.mem_cons_self _ _)
  have hx2 : x ∉ l2 := (List.nodup_cons.1 hnd2).1
  have herase : (l1 ++ x :: l2).erase x = l1 ++ l2 := by
    rw [List.erase_append_right _ hx1, List.erase_cons_head]
  rw [herase]
  obtain ⟨hs1, hmx, hs2⟩ := (LSeg_append_cons l1 l2 x 0 s.free_listp H).1 hl
  -- facts about the successor
  have hnext : (s.mem (x + W) = H ∧ l2 = []) ∨
      (∃ y l2', l2 = y :: l2' ∧ s.mem (x + W) = y ∧ s.mem y = x ∧
        LSeg W s.mem y (s.mem (y + W)) l2' H) := by
    cases l2 with
    | nil => exact Or.inl ⟨hs2, rfl⟩
    | cons y l2' => exact Or.inr ⟨y, l2', rfl, hs2.1, hs2.2.1, hs2.2.2⟩
  have memx : x ∈ l1 ++ x :: l2 := hx
  rcases List.eq_nil_or_concat' l1 with rfl | ⟨l1', q, rfl⟩
  · -- `x` is the head
    have hmx0 : s.mem x = 0 := by simpa using hmx
    rw [freeList_pop_head_eq W s x hmx0]
    simp only [List.nil_append, PUT_mem, PUT_free_listp]
    constructor
    · rcases hnext with ⟨hn, rfl⟩ | ⟨y, l2', rfl, hn, hy, hrest⟩
      · rw [LSeg_nil]; exact hn
      · rw [hn]
        refine ⟨rfl, by simp, ?_⟩
        have e1 : y + W ≠ y := by omega
        rw [PUT_mem, if_neg e1]
        refine LSeg_congr ?_ hrest
        intro z hz
        have hzm : z ∈ [] ++ x :: y :: l2' := by simp [hz]
        have hym : y ∈ [] ++ x :: y :: l2' := by simp
        have hzy : z ≠ y := by
          rintro rfl
          exact (List.nodup_cons.1 (List.nodup_cons.1 hnd2).2).1 hz
        have hzWy : z + W ≠ y := hsep z hzm y hym
        simp [hzy, hzWy]
    · intro a haH ha
      rcases hnext with ⟨hn, rfl⟩ | ⟨y, l2', rfl, hn, hy, hrest⟩
      · rw [hn]; simp [haH]
      · rw [hn]
        have hyx : y ≠ x := by
          rintro rfl
          exact hx2 (List.mem_cons_self _ _)
        have := (ha y (by simp) hyx).1
        simp [this]
  · -- `x` has the predecessor `q`
    have hqm : q ∈ l1' ++ [q] ++ x :: l2 := by simp
    have hmxq : s.mem x = q := by simpa using hmx
    have hq0 : q ≠ 0 := h0 q hqm
    have hxq : x ≠ q := by
      rintro rfl
      exact hx1 (by simp)
    have hxqW : x ≠ q + W := fun e => hsep q hqm x memx e.symm
    rw [freeList_pop_mid_eq W s x q hmxq hq0 hxq hxqW]
    simp only [PUT_mem, PUT_free_listp]
    obtain ⟨hs1a, hmq, hs1b⟩ := (LSeg_append_cons l1' [] q 0 s.free_listp x).1 hs1
    have hnextne : ∀ z ∈ l1' ++ [q], z ≠ s.mem (x + W) ∧ z + W ≠ s.mem (x + W) := by
      intro z hz
      have hzm : z ∈ l1' ++ [q] ++ x :: l2 := List.mem_append_left _ hz
      rcases hnext with ⟨hn, rfl⟩ | ⟨y, l2', rfl, hn, hy, hrest⟩
      · rw [hn]; exact hH z hzm
      · rw [hn]
        have hym : y ∈ l1' ++ [q] ++ x :: y :: l2' := by simp
        refine ⟨?_, hsep z hzm y hym⟩
        intro e
        exact @hdisj z hz (by simp [e])
    have hqn := hnextne q (by simp)
    constructor
    · have e : l1' ++ [q] ++ l2 = l1' ++ q :: l2 := by simp
      rw [e, LSeg_append_cons]
      refine ⟨?_, ?_, ?_⟩
      · refine LSeg_congr ?_ hs1a
        intro z hz
        have hz' : z ∈ l1' ++ [q] := List.mem_append_left _ hz
        have hzm : z ∈ l1' ++ [q] ++ x :: l2 := List.mem_append_left _ hz'
        have hzn := hnextne z hz'
        have hzq : z ≠ q := by
          rintro rfl
          have := List.nodup_append.1 hnd1
          exact this.2.2 hz (by simp)
        have e1 : z ≠ q + W := fun e => hsep q hqm z hzm e.symm
        have e2 : z + W ≠ q + W := by omega
        simp [hzn.1, hzn.2, e1, e2]
      · have e1 : q ≠ q + W := by omega
        simp [hqn.1, e1, hmq]
      · have e1 : q + W ≠ s.mem (x + W) := hqn.2
        rw [PUT_mem, if_neg e1, PUT_mem, if_pos rfl]
        rcases hnext with ⟨hn, rfl⟩ | ⟨y, l2', rfl, hn, hy, hrest⟩
        · rw [LSeg_nil]; exact hn
        · rw [hn]
          have hym : y ∈ l1' ++ [q] ++ x :: y :: l2' := by simp
          have hyq : y ≠ q := by
            intro e
            exact @hdisj y (by simp [e]) (by simp)
          refine ⟨rfl, by simp, ?_⟩
          have e2 : y + W ≠ y := by omega
          have e3 : y + W ≠ q + W := by omega
          rw [PUT_mem, if_neg e2, PUT_mem, if_neg e3]
          refine LSeg_congr ?_ hrest
          intro z hz
          have hzm : z ∈ l1' ++ [q] ++ x :: y :: l2' := by simp [hz]
          have hzy : z ≠ y := by
            rintro rfl
            exact (List.nodup_cons.1 (List.nodup_cons.1 hnd2).2).1 hz
          have hzWy : z + W ≠ y := hsep z hzm y hym
          have hzq : z ≠ q := by
            intro e
            exact @hdisj z (by simp [e]) (by simp [hz])
          have e4 : z ≠ q + W := fun e => hsep q hqm z hzm e.symm
          have e5 : z + W ≠ q + W := by omega
          simp [hzy, hzWy, e4, e5]
    · intro a haH ha
      have hqx : q ≠ x := fun e => hxq e.symm
      have haq := (ha q hqm hqx).2
      rcases hnext with ⟨hn, rfl⟩ | ⟨y, l2', rfl, hn, hy, hrest⟩
      · rw [hn]; simp [haH, haq]
      · rw [hn]
        have hyx : y ≠ x := by
          rintro rfl
          exact hx2 (List.mem_cons_self _ _)
        have := (ha y (by simp) hyx).1
        simp [this, haq]

/-! ## Consequences of structural well-formedness -/

theorem Heap.Wpos {W B : Nat} {s : State} {bs : List Blk} {fl : List Nat}
    (h : Heap W B s bs fl) : 4 ≤ W ∧ W ≤ 8 := by
  rcases h.hW with rfl | rfl <;> omega

theorem Heap.blk {W B : Nat} {s : State} {bs : List Blk} {fl : List Nat}
    (h : Heap W B s bs fl) {b : Blk} (hb : b ∈ bs) :
    B + 8 * W ≤ b.addr ∧ b.addr + b.size ≤ s.mem_brk ∧ b.size % 8 = 0 ∧ 4 * W ≤ b.size ∧
      b.size < WordMod W ∧ b.addr % 8 = 0 := by
  have h1 := Shape_mem h.shape hb
  have h2 := h.lim
  have h3 := h.brk_le
  have h4 : (B + 8 * W) % 8 = 0 := by have := h.hB; omega
  have h5 := Shape_aligned h.shape h4 hb
  omega

theorem Heap.brk_ge {W B : Nat} {s : State} {bs : List Blk} {fl : List Nat}
    (h : Heap W B s bs fl) : B + 8 * W ≤ s.mem_brk := Shape_le h.shape

theorem Heap.node {W B : Nat} {s : State} {bs : List Blk} {fl : List Nat}
    (h : Heap W B s bs fl) {x : Nat} (hx : x ∈ fl) :
    B + 8 * W ≤ x ∧ x + 4 * W ≤ s.mem_brk := by
  obtain ⟨b, hb, _, h1, h2⟩ := h.inside x hx
  have := h.blk hb
  omega

theorem Heap.node_sep {W B : Nat} {s : State} {bs : List Blk} {fl : List Nat}
    (h : Heap W B s bs fl) {x y : Nat} (hx : x ∈ fl) (hy : y ∈ fl) :
    x = y ∨ x + 2 * W ≤ y ∨ y + 2 * W ≤ x := by
  rcases Nat.lt_trichotomy x y with hlt | heq | hgt
  · exact Or.inr (Or.inl (h.sep x hx y hy hlt))
  · exact Or.inl heq
  · exact Or.inr (Or.inr (h.sep y hy x hx hgt))

/-- A cell that is a tag of a block is not a link field of a node lying inside a free
block. -/
theorem Heap.tag_ne_cell {W B : Nat} {s : State} {bs : List Blk} {fl : List Nat}
    (h : Heap W B s bs fl) {b c : Blk} (hb : b ∈ bs) (hc : c ∈ bs) {y : Nat}
    (hy1 : c.addr ≤ y) (hy2 : y + 4 * W ≤ c.addr + c.size) :
    (b.addr - W ≠ y ∧ b.addr - W ≠ y + W) ∧
      (b.addr + b.size - 2 * W ≠ y ∧ b.addr + b.size - 2 * W ≠ y + W) := by
  have hW := h.Wpos
  have h1 := h.blk hb
  have h2 := h.blk hc
  rcases Shape_disj h.shape hb hc with rfl | hd | hd <;> omega

/-- Reading the size field of a word holding a tag. -/
theorem rd_size {W : Nat} (hW : W = 4 ∨ W = 8) (s : State) (p : Nat) (b : Blk)
    (hm : s.mem p = b.tag) (h8 : b.size % 8 = 0) (hlt : b.size < WordMod W) :
    GET_SIZE W s p = b.size := by
  unfold GET_SIZE GET
  rw [hm]
  exact b.tag_size hW h8 hlt

/-- Reading the allocated bit of a word holding a tag. -/
theorem rd_alloc (s : State) (p : Nat) (b : Blk) (hm : s.mem p = b.tag)
    (h8 : b.size % 8 = 0) : GET_ALLOC s p = (if b.free then 0 else 1) := by
  unfold GET_ALLOC GET
  rw [hm]
  exact b.tag_alloc h8

theorem rd_size_zero (W : Nat) (s : State) (p : Nat) (hm : s.mem p = 0) :
    GET_SIZE W s p = 0 := by
  unfold GET_SIZE GET
  rw [hm]
  exact Nat.zero_and _

theorem PACK_zero_one : PACK 0 1 = 1 := by decide

theorem rd_alloc_one (s : State) (p : Nat) (hm : s.mem p = PACK 0 1) : GET_ALLOC s p = 1 := by
  unfold GET_ALLOC GET
  rw [hm]
  decide

theorem rd_size_epi (W : Nat) (s : State) (p : Nat) (hm : s.mem p = PACK 0 1)
    (hW : W = 4 ∨ W = 8) : GET_SIZE W s p = 0 := by
  unfold GET_SIZE GET
  rw [hm]
  rcases hW with rfl | rfl <;> decide

/-- A state that differs from a well-formed one only in link fields of nodes lying
inside free blocks and in the previous field of the sentinel is well formed for any
list that is linked in the new memory. -/
theorem Heap.of_frame {W B : Nat} {s : State} {bs : List Blk} {fl : List Nat}
    (h : Heap W B s bs fl) (s' : State) (fl' cells : List Nat)
    (hcells : ∀ y ∈ cells, ∃ b ∈ bs, b.addr ≤ y ∧ y + 4 * W ≤ b.addr + b.size)
    (hframe : ∀ a, a ≠ B + 2 * W → (∀ y ∈ cells, a ≠ y ∧ a ≠ y + W) → s'.mem a = s.mem a)
    (hhl : s'.heap_listp = s.heap_listp) (hbrk : s'.mem_brk = s.mem_brk)
    (hmax : s'.mem_max_addr = s.mem_max_addr)
    (hlinks : LSeg W s'.mem 0 s'.free_listp fl' (B + 2 * W))
    (hin : ∀ x ∈ fl', ∃ b ∈ bs, b.free = true ∧ b.addr ≤ x ∧ x + 4 * W ≤ b.addr + b.size)
    (hsep : ∀ x ∈ fl', ∀ y ∈ fl', x < y → x + 2 * W ≤ y) (hnd : fl'.Nodup)
    (hback : ∀ l x, fl' = l ++ [x] → s'.mem (B + 2 * W) = x) :
    Heap W B s' bs fl' := by
  have hW := h.Wpos
  have hge := h.brk_ge
  have hcell : ∀ y ∈ cells, B + 8 * W ≤ y ∧ y + 4 * W ≤ s.mem_brk := by
    intro y hy
    obtain ⟨b, hb, h1, h2⟩ := hcells y hy
    have := h.blk hb
    omega
  refine
    { hW := h.hW, hB := h.hB, lim := by rw [hmax]; exact h.lim,
      brk_le := by rw [hmax, hbrk]; exact h.brk_le, hlp := by rw [hhl]; exact h.hlp,
      prol := ?_, gap := ?_, shape := by rw [hbrk]; exact h.shape, tags := ?_, epi := ?_,
      links := hlinks, inside := hin, sep := hsep, nodup := hnd, back := hback }
  · rw [hframe _ (by omega) (fun y hy => by have := hcell y hy; omega)]
    exact h.prol
  · rw [hframe _ (by omega) (fun y hy => by have := hcell y hy; omega)]
    exact h.gap
  · intro b hb
    have hbk := h.blk hb
    have hne : ∀ y ∈ cells, (b.addr - W ≠ y ∧ b.addr - W ≠ y + W) ∧
        (b.addr + b.size - 2 * W ≠ y ∧ b.addr + b.size - 2 * W ≠ y + W) := by
      intro y hy
      obtain ⟨c, hc, h1, h2⟩ := hcells y hy
      exact h.tag_ne_cell hb hc h1 h2
    rw [hframe _ (by omega) (fun y hy => (hne y hy).1),
      hframe _ (by omega) (fun y hy => (hne y hy).2)]
    exact h.tags b hb
  · rw [hbrk, hframe _ (by omega) (fun y hy => by have := hcell y hy; omega)]
    exact h.epi

/-- Rewriting the tags of a stretch of blocks `mid` into the tags of blocks `mid'` that
tile the same addresses keeps the heap well formed, as long as no link field of the
list is touched and every node still lies inside a free block. -/
theorem Heap.retag {W B : Nat} {s : State} {pre mid post : List Blk} {fl : List Nat}
    (h : Heap W B s (pre ++ mid ++ post) fl) (mid' : List Blk) (c d : Nat)
    (hpre : Shape W (B + 8 * W) pre c) (hmid' : Shape W c mid' d)
    (hpost : Shape W d post s.mem_brk) (s' : State)
    (hframe : ∀ a, a + W < c ∨ d ≤ a + W → s'.mem a = s.mem a)
    (htags : Tagged W s'.mem mid')
    (hcells : ∀ y ∈ fl, s'.mem y = s.mem y ∧ s'.mem (y + W) = s.mem (y + W))
    (hin : ∀ x ∈ fl, ∃ b ∈ pre ++ mid' ++ post,
      b.free = true ∧ b.addr ≤ x ∧ x + 4 * W ≤ b.addr + b.size)
    (hhl : s'.heap_listp = s.heap_listp) (hfl : s'.free_listp = s.free_listp)
    (hbrk : s'.mem_brk = s.mem_brk) (hmax : s'.mem_max_addr = s.mem_max_addr) :
    Heap W B s' (pre ++ mid' ++ post) fl := by
  have hW := h.Wpos
  have hcge := Shape_le hpre
  have hcd := Shape_le hmid'
  have hdb := Shape_le hpost
  have hshape : Shape W (B + 8 * W) (pre ++ mid' ++ post) s.mem_brk := by
    rw [List.append_assoc, Shape_append]
    exact ⟨c, hpre, (Shape_append _ _ _ _).2 ⟨d, hmid', hpost⟩⟩
  refine
    { hW := h.hW, hB := h.hB, lim := by rw [hmax]; exact h.lim,
      brk_le := by rw [hmax, hbrk]; exact h.brk_le, hlp := by rw [hhl]; exact h.hlp,
      prol := ?_, gap := ?_, shape := by rw [hbrk]; exact hshape, tags := ?_, epi := ?_,
      links := ?_, inside := hin, sep := h.sep, nodup := h.nodup, back := ?_ }
  · rw [hframe _ (by omega)]; exact h.prol
  · rw [hframe _ (by omega)]; exact h.gap
  · intro b hb
    rw [List.append_assoc] at hb
    rcases List.mem_append.1 hb with hb | hb
    · have h1 := Shape_mem hpre hb
      have hb' : b ∈ pre ++ mid ++ post := by simp [hb]
      rw [hframe _ (by omega), hframe _ (by omega)]
      exact h.tags b hb'
    · rcases List.mem_append.1 hb with hb | hb
      · exact htags b hb
      · have h1 := Shape_mem hpost hb
        have hb' : b ∈ pre ++ mid ++ post := by simp [hb]
        rw [hframe _ (by omega), hframe _ (by omega)]
        exact h.tags b hb'
  · rw [hbrk, hframe _ (by omega)]; exact h.epi
  · rw [hfl]
    exact LSeg_congr hcells h.links
  · intro l x e
    rw [hframe _ (Or.inl (by omega))]
    exact h.back l x e

/-! ## Free-list primitives on well-formed heaps -/

theorem mem_frees {bs : List Blk} {y : Nat} :
    y ∈ frees bs ↔ ∃ c ∈ bs, c.free = true ∧ c.addr = y := by
  simp [frees, and_assoc]

theorem frees_append (l1 l2 : List Blk) : frees (l1 ++ l2) = frees l1 ++ frees l2 := by
  simp [frees]

theorem frees_cons (b : Blk) (l : List Blk) :
    frees (b :: l) = if b.free then b.addr :: frees l else frees l := by
  cases hb : b.free <;> simp [frees, hb]

theorem allocs_append (l1 l2 : List Blk) : allocs (l1 ++ l2) = allocs l1 ++ allocs l2 := by
  simp [allocs]

theorem Heap.pop {W B : Nat} {s : State} {bs : List Blk} {fl : List Nat}
    (h : Heap W B s bs fl) {x : Nat} (hx : x ∈ fl) :
    Heap W B (freeList_pop W s x) bs (fl.erase x) ∧
    (∀ a, a ≠ B + 2 * W → (∀ y ∈ fl, y ≠ x → a ≠ y ∧ a ≠ y + W) →
      (freeList_pop W s x).mem a = s.mem a) := by
  have hW := h.Wpos
  have hp := pop_LSeg (by omega : 0 < W) s fl (B + 2 * W) x h.links hx h.nodup
    (fun y hy => by have := h.node hy; omega)
    (fun y hy => by have := h.node hy; omega)
    (fun y hy z hz => by
      have := h.node_sep hy hz
      omega)
  refine ⟨?_, hp.2⟩
  have hb := pop_back s fl (B + 2 * W) x h.links hx h.nodup
    (fun y hy => by have := h.node hy; omega)
    (fun y hy => by have := h.node hy; omega)
    (fun y hy z hz => by
      have := h.node_sep hy hz
      omega) h.back
  refine h.of_frame _ (fl.erase x) fl ?_ ?_ (by simp) (by simp) (by simp) hp.1 ?_ ?_ ?_ hb
  · intro y hy
    obtain ⟨b, hb, _, h1, h2⟩ := h.inside y hy
    exact ⟨b, hb, h1, h2⟩
  · intro a ha hc
    exact hp.2 a ha (fun y hy _ => hc y hy)
  · intro y hy
    exact h.inside y (List.mem_of_mem_erase hy)
  · intro y hy z hz
    exact h.sep y (List.mem_of_mem_erase hy) z (List.mem_of_mem_erase hz)
  · exact h.nodup.erase x

theorem Heap.push {W B : Nat} {s : State} {bs : List Blk} {fl : List Nat}
    (h : Heap W B s bs fl) {x : Nat}
    (hin : ∃ b ∈ bs, b.free = true ∧ b.addr ≤ x ∧ x + 4 * W ≤ b.addr + b.size)
    (hsep : ∀ y ∈ fl, x + 2 * W ≤ y ∨ y + 2 * W ≤ x) :
    Heap W B (freeList_push W s x) bs (x :: fl) := by
  have hW := h.Wpos
  obtain ⟨b, hb, hbf, hb1, hb2⟩ := hin
  have hbk := h.blk hb
  have hxfl : x ∉ fl := fun hx => by
    have := hsep x hx
    omega
  have hl := push_LSeg (by omega : 0 < W) s fl (B + 2 * W) x h.links h.nodup
    (by omega)
    (fun y hy => by have := hsep y hy; omega)
    (fun y hy z hz => by
      have := h.node_sep hy hz
      omega)
  have hflp := LSeg_head h.links
  have hbk := push_back s fl (B + 2 * W) x h.links (by omega)
    (fun y hy => by have := h.node hy; omega) h.back
  refine h.of_frame _ (x :: fl) (x :: fl) ?_ ?_ (by simp) (by simp) (by simp) hl ?_ ?_ ?_ hbk
  · intro y hy
    rcases List.mem_cons.1 hy with rfl | hy
    · exact ⟨b, hb, hb1, hb2⟩
    · obtain ⟨c, hc, _, h1, h2⟩ := h.inside y hy
      exact ⟨c, hc, h1, h2⟩
  · intro a ha hc
    rw [freeList_push_mem]
    have h1 := hc x (List.mem_cons_self _ _)
    have h2 : a ≠ s.free_listp := by
      rw [hflp]
      cases fl with
      | nil => simpa using ha
      | cons y fl' =>
        have := (hc y (by simp)).1
        simpa using this
    simp [h1.1, h1.2, h2]
  · intro y hy
    rcases List.mem_cons.1 hy with rfl | hy
    · exact ⟨b, hb, hbf, hb1, hb2⟩
    · exact h.inside y hy
  · intro y hy z hz hlt
    rcases List.mem_cons.1 hy with rfl | hy' <;> rcases List.mem_cons.1 hz with rfl | hz'
    · omega
    · have := hsep z hz'
      omega
    · have := hsep y hy'
      omega
    · exact h.sep y hy' z hz' hlt
  · exact List.nodup_cons.2 ⟨hxfl, h.nodup⟩

/-! ## Reading the macros from tags -/

theorem FTRP_eq {W : Nat} (hW : W = 4 ∨ W = 8) (s : State) (x : Nat) (c : Blk)
    (hm : s.mem (x - W) = c.tag) (h8 : c.size % 8 = 0) (hlt : c.size < WordMod W) :
    FTRP W s x = x + c.size - 2 * W := by
  unfold FTRP HDRP DSIZE
  rw [rd_size hW s _ c hm h8 hlt]

theorem NEXT_BLKP_eq {W : Nat} (hW : W = 4 ∨ W = 8) (s : State) (x : Nat) (c : Blk)
    (hm : s.mem (x - W) = c.tag) (h8 : c.size % 8 = 0) (hlt : c.size < WordMod W) :
    NEXT_BLKP W s x = x + c.size := by
  unfold NEXT_BLKP HDRP
  rw [rd_size hW s _ c hm h8 hlt]

theorem PREV_BLKP_eq {W : Nat} (hW : W = 4 ∨ W = 8) (s : State) (x : Nat) (c : Blk)
    (hm : s.mem (x - 2 * W) = c.tag) (h8 : c.size % 8 = 0) (hlt : c.size < WordMod W) :
    PREV_BLKP W s x = x - c.size := by
  unfold PREV_BLKP DSIZE
  rw [rd_size hW s _ c hm h8 hlt]

theorem coalesce_case1 (W : Nat) (s : State) (bp : Nat)
    (hP : GET_ALLOC s (FTRP W s (PREV_BLKP W s bp)) ≠ 0 ∨ PREV_BLKP W s bp = bp)
    (hN : GET_ALLOC s (HDRP W (NEXT_BLKP W s bp)) ≠ 0) :
    coalesce W s bp = (bp, freeList_push W s bp) := by
  unfold coalesce
  simp [hP, hN]

theorem CoPre.geom {W B : Nat} {s : State} {pre post : List Blk} {b : Blk} {fl : List Nat}
    (h : CoPre W B s pre b post fl) :
    Shape W (B + 8 * W) pre b.addr ∧ Shape W (b.addr + b.size) post s.mem_brk ∧
      b.size % 8 = 0 ∧ 4 * W ≤ b.size := by
  obtain ⟨c, h1, h2⟩ := (Shape_append _ _ _ _).1 h.heap.shape
  obtain ⟨h3, h4, h5, h6⟩ := h2
  subst h3
  exact ⟨h1, h6, h4, h5⟩

theorem CoPre.free_node {W B : Nat} {s : State} {pre post : List Blk} {b : Blk} {fl : List Nat}
    (h : CoPre W B s pre b post fl) {y : Nat} (hy : y ∈ fl) :
    ∃ c, (c ∈ pre ∨ c ∈ post) ∧ c.free = true ∧ c.addr = y := by
  have := (h.perm.mem_iff).1 hy
  rcases List.mem_append.1 this with h1 | h1
  · obtain ⟨c, hc, hf, ha⟩ := mem_frees.1 h1
    exact ⟨c, Or.inl hc, hf, ha⟩
  · obtain ⟨c, hc, hf, ha⟩ := mem_frees.1 h1
    exact ⟨c, Or.inr hc, hf, ha⟩

/-- Every node of the list is the address of a block that lies entirely before `b` or
entirely after it. -/
theorem CoPre.node_far {W B : Nat} {s : State} {pre post : List Blk} {b : Blk}
    {fl : List Nat} (h : CoPre W B s pre b post fl) {y : Nat} (hy : y ∈ fl) :
    ∃ c, c ∈ pre ++ b :: post ∧ c.free = true ∧ c.addr = y ∧ 4 * W ≤ c.size ∧
      (y + c.size ≤ b.addr ∨ b.addr + b.size ≤ y) := by
  obtain ⟨c, hc, hf, ha⟩ := h.free_node hy
  obtain ⟨g1, g2, g3, g4⟩ := h.geom
  rcases hc with hc | hc
  · have := Shape_mem g1 hc
    exact ⟨c, by simp [hc], hf, ha, by omega, by omega⟩
  · have := Shape_mem g2 hc
    exact ⟨c, by simp [hc], hf, ha, by omega, by omega⟩

theorem CoPre.b_mem {W B : Nat} {s : State} {pre post : List Blk} {b : Blk} {fl : List Nat}
    (_h : CoPre W B s pre b post fl) : b ∈ pre ++ b :: post := by simp

/-- The predecessor test of `coalesce` succeeds when `b` is the first block or its
predecessor is allocated. -/
theorem CoPre.prev_alloc {W B : Nat} {s : State} {pre post : List Blk} {b : Blk}
    {fl : List Nat} (h : CoPre W B s pre b post fl)
    (hq : ∀ q ∈ pre.getLast?, q.free = false) :
    GET_ALLOC s (FTRP W s (PREV_BLKP W s b.addr)) ≠ 0 ∨ PREV_BLKP W s b.addr = b.addr := by
  have hW := h.heap.Wpos
  obtain ⟨g1, g2, g3, g4⟩ := h.geom
  rcases List.eq_nil_or_concat' pre with rfl | ⟨pre', q, rfl⟩
  · right
    have hb : B + 8 * W = b.addr := g1
    have hg : s.mem (b.addr - DSIZE W) = 0 := by
      have : b.addr - DSIZE W = B + 6 * W := by unfold DSIZE; omega
      rw [this]; exact h.heap.gap
    unfold PREV_BLKP
    rw [rd_size_zero W s _ hg]
    rfl
  · left
    have hqm : q ∈ pre' ++ [q] ++ b :: post := by simp
    have hqf : q.free = false := hq q (by simp)
    obtain ⟨c, hs1, hs2⟩ := (Shape_append _ _ _ _).1 g1
    obtain ⟨hs3, hs4, hs5, hs6⟩ := hs2
    have hs7 : c + q.size = b.addr := hs6
    have hqk := h.heap.blk hqm
    have hqt := h.heap.tags q hqm
    have e1 : b.addr - 2 * W = q.addr + q.size - 2 * W := by omega
    have hp : PREV_BLKP W s b.addr = q.addr := by
      rw [PREV_BLKP_eq h.heap.hW s _ q (by rw [e1]; exact hqt.2) hqk.2.2.1 hqk.2.2.2.2.1]
      omega
    rw [hp, FTRP_eq h.heap.hW s _ q hqt.1 hqk.2.2.1 hqk.2.2.2.2.1,
      rd_alloc s _ q hqt.2 hqk.2.2.1, hqf]
    simp

/-- The successor test of `coalesce` succeeds when `b` is the last block or its
successor is allocated. -/
theorem CoPre.next_alloc {W B : Nat} {s : State} {pre post : List Blk} {b : Blk}
    {fl : List Nat} (h : CoPre W B s pre b post fl)
    (hn : ∀ n ∈ post.head?, n.free = false) :
    GET_ALLOC s (HDRP W (NEXT_BLKP W s b.addr)) ≠ 0 := by
  have hW := h.heap.Wpos
  obtain ⟨g1, g2, g3, g4⟩ := h.geom
  have hbk := h.heap.blk h.b_mem
  have hbt := h.heap.tags b h.b_mem
  rw [NEXT_BLKP_eq h.heap.hW s _ b hbt.1 hbk.2.2.1 hbk.2.2.2.2.1]
  unfold HDRP
  cases post with
  | nil =>
    have : b.addr + b.size = s.mem_brk := g2
    rw [this, rd_alloc_one s _ h.heap.epi]
    simp
  | cons n post' =>
    have hnm : n ∈ pre ++ b :: n :: post' := by simp
    have hnf : n.free = false := hn n (by simp)
    have hnk := h.heap.blk hnm
    have hnt := h.heap.tags n hnm
    have : n.addr = b.addr + b.size := g2.1
    rw [← this, rd_alloc s _ n hnt.1 hnk.2.2.1, hnf]
    simp

theorem NoAdj_join {pre post : List Blk} {b : Blk} (h1 : NoAdj pre) (h2 : NoAdj post)
    (hq : ∀ q ∈ pre.getLast?, q.free = false) (hn : ∀ n ∈ post.head?, n.free = false) :
    NoAdj (pre ++ b :: post) := by
  unfold NoAdj at *
  rw [List.chain'_append]
  refine ⟨h1, ?_, ?_⟩
  · rw [List.chain'_cons']
    refine ⟨?_, h2⟩
    intro n hn'
    have := hn n hn'
    simp [this]
  · intro q hq' y hy
    have := hq q hq'
    simp [this]

/-- Case 1 of `coalesce`: both neighbours allocated. -/
theorem CoPre.case1 {W B : Nat} {s : State} {pre post : List Blk} {b : Blk}
    {fl : List Nat} (h : CoPre W B s pre b post fl)
    (hq : ∀ q ∈ pre.getLast?, q.free = false) (hn : ∀ n ∈ post.head?, n.free = false) :
    coalesce W s b.addr = (b.addr, freeList_push W s b.addr) ∧
      Inv W B (freeList_push W s b.addr) (pre ++ b :: post) (b.addr :: fl) := by
  have hW := h.heap.Wpos
  refine ⟨coalesce_case1 W s b.addr (h.prev_alloc hq) (h.next_alloc hn), ?_, ?_, ?_⟩
  · have hbk := h.heap.blk h.b_mem
    refine h.heap.push ⟨b, h.b_mem, h.bfree, le_refl _, by omega⟩ ?_
    intro y hy
    obtain ⟨c, _, _, hc, h4, hd⟩ := h.node_far hy
    omega
  · exact NoAdj_join h.na1 h.na2 hq hn
  · rw [frees_append, frees_cons, h.bfree]
    simp only [if_true]
    exact (List.Perm.cons _ h.perm).trans List.perm_middle.symm

theorem coalesce_case2 (W : Nat) (s : State) (bp : Nat)
    (hP : GET_ALLOC s (FTRP W s (PREV_BLKP W s bp)) ≠ 0 ∨ PREV_BLKP W s bp = bp)
    (hN : GET_ALLOC s (HDRP W (NEXT_BLKP W s bp)) = 0) :
    coalesce W s bp =
      (let s1 := freeList_pop W s (NEXT_BLKP W s bp)
       let size := (GET_SIZE W s (HDRP W bp) +
         GET_SIZE W s1 (HDRP W (NEXT_BLKP W s1 bp))) % WordMod W
       let s2 := PUT s1 (HDRP W bp) (PACK size 0)
       let s3 := PUT s2 (FTRP W s2 bp) (PACK size 0)
       (bp, freeList_push W s3 bp)) := by
  unfold coalesce
  simp [hP, hN]

theorem coalesce_case3 (W : Nat) (s : State) (bp : Nat)
    (hP : GET_ALLOC s (FTRP W s (PREV_BLKP W s bp)) = 0 ∧ PREV_BLKP W s bp ≠ bp)
    (hN : GET_ALLOC s (HDRP W (NEXT_BLKP W s bp)) ≠ 0) :
    coalesce W s bp =
      (let size := (GET_SIZE W s (HDRP W bp) +
         GET_SIZE W s (HDRP W (PREV_BLKP W s bp))) % WordMod W
       let s1 := PUT s (FTRP W s bp) (PACK size 0)
       let s2 := PUT s1 (HDRP W (PREV_BLKP W s1 bp)) (PACK size 0)
       let s3 := freeList_pop W s2 (PREV_BLKP W s2 bp)
       (PREV_BLKP W s3 bp, freeList_push W s3 (PREV_BLKP W s3 bp))) := by
  unfold coalesce
  simp [hP, hN]

theorem coalesce_case4 (W : Nat) (s : State) (bp : Nat)
    (hP : GET_ALLOC s (FTRP W s (PREV_BLKP W s bp)) = 0 ∧ PREV_BLKP W s bp ≠ bp)
    (hN : GET_ALLOC s (HDRP W (NEXT_BLKP W s bp)) = 0) :
    coalesce W s bp =
      (let size := (GET_SIZE W s (HDRP W bp) + (GET_SIZE W s (HDRP W (PREV_BLKP W s bp)) +
         GET_SIZE W s (FTRP W s (NEXT_BLKP W s bp))) % WordMod W) % WordMod W
       let s1 := PUT s (HDRP W (PREV_BLKP W s bp)) (PACK size 0)
       let s2 := PUT s1 (FTRP W s1 (NEXT_BLKP W s1 bp)) (PACK size 0)
       let s3 := freeList_pop W s2 (PREV_BLKP W s2 bp)
       let s4 := freeList_pop W s3 (NEXT_BLKP W s3 bp)
       (PREV_BLKP W s4 bp, freeList_push W s4 (PREV_BLKP W s4 bp))) := by
  unfold coalesce
  simp [hP, hN]

theorem PACK_zero (x : Nat) : PACK x 0 = x := Nat.or_zero x

theorem Blk.tag_free (a sz : Nat) : (Blk.mk a sz true).tag = sz := by
  simp [Blk.tag, PACK_zero]

theorem perm_erase_middle (fl l1 l2 : List Nat) (a : Nat) (h : fl.Perm (l1 ++ a :: l2)) :
    (fl.erase a).Perm (l1 ++ l2) := by
  have h1 := (h.trans List.perm_middle).erase a
  rwa [List.erase_cons_head] at h1

theorem NoAdj_tail_head {n : Blk} {post : List Blk} (h : NoAdj (n :: post))
    (hn : n.free = true) : ∀ m ∈ post.head?, m.free = false := by
  intro m hm
  cases post with
  | nil => simp at hm
  | cons c post' =>
    simp at hm
    subst hm
    have := (List.chain'_cons.1 h).1
    simpa [hn] using this

theorem NoAdj_tail {n : Blk} {post : List Blk} (h : NoAdj (n :: post)) : NoAdj post :=
  List.Chain'.tail h

theorem NoAdj_init_last {q : Blk} {pre : List Blk} (h : NoAdj (pre ++ [q]))
    (hq : q.free = true) : NoAdj pre ∧ ∀ p ∈ pre.getLast?, p.free = false := by
  unfold NoAdj at h
  rw [List.chain'_append] at h
  refine ⟨h.1, ?_⟩
  intro p hp
  have := h.2.2 p hp q (by simp)
  simpa [hq] using this

theorem Shape_span {W : Nat} {l : List Blk} {a e : Nat} (h : Shape W a l e) :
    (e - a) % 8 = 0 ∧ (l ≠ [] → a + 4 * W ≤ e) := by
  induction l generalizing a with
  | nil =>
    have : a = e := h
    subst this
    simp
  | cons b l ih =>
    obtain ⟨h1, h2, h3, h4⟩ := h
    have := ih h4
    have := Shape_le h4
    refine ⟨by omega, fun _ => by omega⟩

/-- The tag cells of a block are not the sentinel's previous field and not a link field of a
node. -/
theorem Heap.tag_cells {W B : Nat} {s : State} {bs : List Blk} {fl : List Nat}
    (h : Heap W B s bs fl) {k : Blk} (hk : k ∈ bs) :
    (k.addr - W ≠ B + 2 * W ∧ ∀ y ∈ fl, k.addr - W ≠ y ∧ k.addr - W ≠ y + W) ∧
    (k.addr + k.size - 2 * W ≠ B + 2 * W ∧
      ∀ y ∈ fl, k.addr + k.size - 2 * W ≠ y ∧ k.addr + k.size - 2 * W ≠ y + W) := by
  have hW := h.Wpos
  have hkk := h.blk hk
  refine ⟨⟨by omega, ?_⟩, ⟨by omega, ?_⟩⟩
  · intro y hy
    obtain ⟨c, hc, _, h1, h2⟩ := h.inside y hy
    exact (h.tag_ne_cell hk hc h1 h2).1
  · intro y hy
    obtain ⟨c, hc, _, h1, h2⟩ := h.inside y hy
    exact (h.tag_ne_cell hk hc h1 h2).2

/-- Writing the tag of one free block over a stretch `mid` of blocks (header of the first,
footer of the last) keeps the heap well formed when every node of the list is the address
of a block. -/
theorem Heap.merge {W B : Nat} {s : State} {pre mid post : List Blk} {fl : List Nat}
    (h : Heap W B s (pre ++ mid ++ post) fl) (c d T : Nat) (hT : c + T = d)
    (hpre : Shape W (B + 8 * W) pre c) (hmid : Shape W c mid d)
    (hpost : Shape W d post s.mem_brk) (hne : mid ≠ [])
    (hnodes : ∀ y ∈ fl, ∃ k ∈ pre ++ mid ++ post, k.free = true ∧ k.addr = y)
    (s' : State) (hm1 : s'.mem (c - W) = T) (hm2 : s'.mem (c + T - 2 * W) = T)
    (hm3 : ∀ a, a ≠ c - W → a ≠ c + T - 2 * W → s'.mem a = s.mem a)
    (hhl : s'.heap_listp = s.heap_listp) (hfl : s'.free_listp = s.free_listp)
    (hbrk : s'.mem_brk = s.mem_brk) (hmax : s'.mem_max_addr = s.mem_max_addr) :
    Heap W B s' (pre ++ [⟨c, T, true⟩] ++ post) fl := by
  have hW := h.Wpos
  have hsp := Shape_span hmid
  have hsp2 := hsp.2 hne
  have hcge := Shape_le hpre
  have hpos : ∀ y ∈ fl, y + 4 * W ≤ c ∨ (c ≤ y ∧ y + 4 * W ≤ d) ∨ d ≤ y := by
    intro y hy
    obtain ⟨k, hk, _, rfl⟩ := hnodes y hy
    rw [List.append_assoc] at hk
    rcases List.mem_append.1 hk with hk | hk
    · have := Shape_mem hpre hk
      left; omega
    · rcases List.mem_append.1 hk with hk | hk
      · have := Shape_mem hmid hk
        right; left; omega
      · have := Shape_mem hpost hk
        right; right; omega
  refine h.retag [⟨c, T, true⟩] c d hpre
    ⟨rfl, (by omega : T % 8 = 0), (by omega : 4 * W ≤ T), hT⟩
    hpost s' ?_ ?_ ?_ ?_ hhl hfl hbrk hmax
  · intro a ha
    exact hm3 a (by omega) (by omega)
  · intro k hk
    simp only [List.mem_singleton] at hk
    subst hk
    simp only [Blk.tag_free]
    exact ⟨hm1, hm2⟩
  · intro y hy
    have := hpos y hy
    exact ⟨hm3 y (by omega) (by omega), hm3 (y + W) (by omega) (by omega)⟩
  · intro y hy
    have hp := hpos y hy
    obtain ⟨k, hk, hkf, hka⟩ := hnodes y hy
    rw [List.append_assoc] at hk
    rcases List.mem_append.1 hk with hk | hk
    · have := Shape_mem hpre hk
      exact ⟨k, by simp [hk], hkf, by omega, by omega⟩
    · rcases List.mem_append.1 hk with hk | hk
      · have := Shape_mem hmid hk
        exact ⟨⟨c, T, true⟩, by simp, rfl, by simp; omega, by simp; omega⟩
      · have := Shape_mem hpost hk
        exact ⟨k, by simp [hk], hkf, by omega, by omega⟩

/-- Pushing the merged block `⟨c, T, free⟩` onto a list holding exactly the other free
blocks establishes the allocator invariant. -/
theorem merge_finish {W B : Nat} {s : State} {pre post : List Blk} {fl : List Nat}
    {c T : Nat} (h : Heap W B s (pre ++ [⟨c, T, true⟩] ++ post) fl)
    (hperm : fl.Perm (frees pre ++ frees post)) (hna1 : NoAdj pre) (hna2 : NoAdj post)
    (hq : ∀ q ∈ pre.getLast?, q.free = false) (hn : ∀ n ∈ post.head?, n.free = false) :
    Inv W B (freeList_push W s c) (pre ++ ⟨c, T, true⟩ :: post) (c :: fl) := by
  have hW := h.Wpos
  obtain ⟨c', g1, g2⟩ := (Shape_append _ _ _ _).1 h.shape
  obtain ⟨c'', g3, g4⟩ := (Shape_append _ _ _ _).1 g1
  obtain ⟨g5, g6, g7, g8⟩ := g4
  have g9 : c'' + T = c' := g8
  have g10 : c = c'' := g5
  have e : pre ++ [(⟨c, T, true⟩ : Blk)] ++ post = pre ++ ⟨c, T, true⟩ :: post := by simp
  refine ⟨?_, ?_, ?_⟩
  · rw [← e]
    refine h.push ⟨⟨c, T, true⟩, by simp, rfl, le_refl _, by simpa using g7⟩ ?_
    intro y hy
    have hy' := hperm.mem_iff.1 hy
    rcases List.mem_append.1 hy' with hy' | hy'
    · obtain ⟨k, hk, _, rfl⟩ := mem_frees.1 hy'
      have := Shape_mem g3 hk
      have : 4 * W ≤ T := g7
      right; omega
    · obtain ⟨k, hk, _, rfl⟩ := mem_frees.1 hy'
      have := Shape_mem g2 hk
      have : 4 * W ≤ T := g7
      left; omega
  · exact NoAdj_join hna1 hna2 hq hn
  · rw [frees_append, frees_cons]
    simp only [if_true]
    exact (List.Perm.cons _ hperm).trans List.perm_middle.symm

/-! ### Reading the macros on a well-formed heap -/

theorem Heap.rd_hdr_size {W B : Nat} {s : State} {bs : List Blk} {fl : List Nat}
    (h : Heap W B s bs fl) {k : Blk} (hk : k ∈ bs) : GET_SIZE W s (HDRP W k.addr) = k.size :=
  rd_size h.hW s _ k (h.tags k hk).1 (h.blk hk).2.2.1 (h.blk hk).2.2.2.2.1

theorem Heap.rd_hdr_alloc {W B : Nat} {s : State} {bs : List Blk} {fl : List Nat}
    (h : Heap W B s bs fl) {k : Blk} (hk : k ∈ bs) :
    GET_ALLOC s (HDRP W k.addr) = (if k.free then 0 else 1) :=
  rd_alloc s _ k (h.tags k hk).1 (h.blk hk).2.2.1

theorem Heap.rd_next {W B : Nat} {s : State} {bs : List Blk} {fl : List Nat}
    (h : Heap W B s bs fl) {k : Blk} (hk : k ∈ bs) : NEXT_BLKP W s k.addr = k.addr + k.size :=
  NEXT_BLKP_eq h.hW s _ k (h.tags k hk).1 (h.blk hk).2.2.1 (h.blk hk).2.2.2.2.1

theorem Heap.rd_ftr {W B : Nat} {s : State} {bs : List Blk} {fl : List Nat}
    (h : Heap W B s bs fl) {k : Blk} (hk : k ∈ bs) :
    FTRP W s k.addr = k.addr + k.size - 2 * W :=
  FTRP_eq h.hW s _ k (h.tags k hk).1 (h.blk hk).2.2.1 (h.blk hk).2.2.2.2.1

theorem Heap.rd_ftr_size {W B : Nat} {s : State} {bs : List Blk} {fl : List Nat}
    (h : Heap W B s bs fl) {k : Blk} (hk : k ∈ bs) :
    GET_SIZE W s (k.addr + k.size - 2 * W) = k.size :=
  rd_size h.hW s _ k (h.tags k hk).2 (h.blk hk).2.2.1 (h.blk hk).2.2.2.2.1

/-- Reading the predecessor through a cell that holds the footer tag of `k`. -/
theorem rd_prev_cell {W : Nat} (hW : W = 4 ∨ W = 8) (s : State) (x : Nat) (k : Blk)
    (hx : k.addr + k.size = x) (hcell : s.mem (x - 2 * W) = k.tag) (h8 : k.size % 8 = 0)
    (hlt : k.size < WordMod W) : PREV_BLKP W s x = k.addr := by
  rw [PREV_BLKP_eq hW s x k hcell h8 hlt]
  omega

theorem Heap.ftr_cell {W B : Nat} {s : State} {bs : List Blk} {fl : List Nat}
    (h : Heap W B s bs fl) {k : Blk} (hk : k ∈ bs) {x : Nat} (hx : k.addr + k.size = x) :
    s.mem (x - 2 * W) = k.tag := by
  rw [← hx]; exact (h.tags k hk).2

theorem mod_small (x brk mx M : Nat) (h1 : x ≤ brk) (h2 : brk ≤ mx) (h3 : mx < M) :
    x % M = x := Nat.mod_eq_of_lt (by omega)

/-- Two writes of the same value to distinct cells. -/
theorem PUT2_mem (s : State) (x y T : Nat) (hxy : x ≠ y) :
    (PUT (PUT s x T) y T).mem x = T ∧ (PUT (PUT s x T) y T).mem y = T ∧
      ∀ a, a ≠ x → a ≠ y → (PUT (PUT s x T) y T).mem a = s.mem a := by
  refine ⟨by simp [hxy], by simp, ?_⟩
  intro a h1 h2
  simp [h1, h2]

theorem CoPre.free_nodes {W B : Nat} {s : State} {pre post : List Blk} {b : Blk} {fl : List Nat}
    (h : CoPre W B s pre b post fl) :
    ∀ y ∈ fl, ∃ k ∈ pre ++ b :: post, k.free = true ∧ k.addr = y := by
  intro y hy
  obtain ⟨c, hc, hf, ha⟩ := h.free_node hy
  rcases hc with hc | hc
  · exact ⟨c, by simp [hc], hf, ha⟩
  · exact ⟨c, by simp [hc], hf, ha⟩

/-- The memory written by a push lies in the link fields of the pushed node, in the
previous field of the old head, or in the previous field of the sentinel. -/
theorem push_frame {W : Nat} (s : State) (fl : List Nat) (H x a : Nat)
    (hl : LSeg W s.mem 0 s.free_listp fl H) (haH : a ≠ H) (h1 : a ≠ x) (h2 : a ≠ x + W)
    (hcell : ∀ y ∈ fl, a ≠ y) : (freeList_push W s x).mem a = s.mem a := by
  rw [freeList_push_mem]
  have hflp := LSeg_head hl
  have h3 : a ≠ s.free_listp := by
    rw [hflp]
    cases fl with
    | nil => simpa using haH
    | cons y fl' =>
      have := hcell y (by simp)
      simpa using this
  rw [if_neg h1, if_neg h3, if_neg h2]

/-- Frame of case 1 of `coalesce`. -/
theorem CoPre.case1_frame {W B : Nat} {s : State} {pre post : List Blk} {b : Blk}
    {fl : List Nat} (h : CoPre W B s pre b post fl) :
    ∀ a, a ≠ B + 2 * W → (a + W < b.addr ∨ b.addr + b.size ≤ a + W) →
      (∀ y ∈ fl, a ≠ y ∧ a ≠ y + W) → (freeList_push W s b.addr).mem a = s.mem a := by
  intro a haH ha hcell
  have hW := h.heap.Wpos
  obtain ⟨g1, g2, g3, g4⟩ := h.geom
  exact push_frame s fl _ _ a h.heap.links haH (by omega) (by omega) (fun y hy => (hcell y hy).1)

/-- The predecessor test of `coalesce` fails when the predecessor `q` is free. -/
theorem CoPre.prev_free {W B : Nat} {s : State} {pre post : List Blk} {b q : Blk}
    {fl : List Nat} (h : CoPre W B s (pre ++ [q]) b post fl) (hqf : q.free = true) :
    PREV_BLKP W s b.addr = q.addr ∧
      (GET_ALLOC s (FTRP W s (PREV_BLKP W s b.addr)) = 0 ∧ PREV_BLKP W s b.addr ≠ b.addr) ∧
      q.addr + q.size = b.addr ∧ Shape W (B + 8 * W) pre q.addr ∧ q.addr ∈ fl ∧
      q.size % 8 = 0 ∧ 4 * W ≤ q.size := by
  have hW := h.heap.Wpos
  obtain ⟨g1, g2, g3, g4⟩ := h.geom
  have hqm : q ∈ pre ++ [q] ++ b :: post := by simp
  obtain ⟨c, hs1, hs2⟩ := (Shape_append _ _ _ _).1 g1
  obtain ⟨hs3, hs4, hs5, hs6⟩ := hs2
  have hs7 : c + q.size = b.addr := hs6
  have hqa : q.addr + q.size = b.addr := by omega
  have hp : PREV_BLKP W s b.addr = q.addr :=
    rd_prev_cell h.heap.hW s _ q hqa (h.heap.ftr_cell hqm hqa) hs4 (h.heap.blk hqm).2.2.2.2.1
  refine ⟨hp, ⟨?_, ?_⟩, hqa, by rw [hs3]; exact hs1, ?_, hs4, hs5⟩
  · rw [hp, h.heap.rd_ftr hqm, rd_alloc s _ q (h.heap.tags q hqm).2 hs4, hqf]
    rfl
  · rw [hp]; omega
  · refine h.perm.mem_iff.2 (List.mem_append_left _ (mem_frees.2 ⟨q, by simp, hqf, rfl⟩))

/-- Frame of a merge: two tag writes inside the merged block followed by a push of the
merged block. -/
theorem merge_frame {W : Nat} (s s' : State) (fl : List Nat) (H c T a : Nat) (hW : 4 ≤ W)
    (hl : LSeg W s'.mem 0 s'.free_listp fl H)
    (hm3 : ∀ a, a ≠ c - W → a ≠ c + T - 2 * W → s'.mem a = s.mem a)
    (hT : 4 * W ≤ T) (hc : W ≤ c)
    (haH : a ≠ H) (ha : a + W < c ∨ c + T ≤ a + W) (hcell : ∀ y ∈ fl, a ≠ y) :
    (freeList_push W s' c).mem a = s.mem a := by
  rw [push_frame s' fl H c a hl haH (by omega) (by omega) hcell]
  exact hm3 a (by omega) (by omega)

/-- Case 2 of `coalesce`: predecessor allocated, successor `n` free. -/
theorem CoPre.case2 {W B : Nat} {s : State} {pre post : List Blk} {b n : Blk}
    {fl : List Nat} (h : CoPre W B s pre b (n :: post) fl)
    (hq : ∀ q ∈ pre.getLast?, q.free = false) (hnf : n.free = true) :
    ∃ s', coalesce W s b.addr = (b.addr, s') ∧
      Inv W B s' (pre ++ ⟨b.addr, b.size + n.size, true⟩ :: post)
        (b.addr :: fl.erase n.addr) ∧
      (∀ a, a ≠ B + 2 * W → (a + W < b.addr ∨ b.addr + (b.size + n.size) ≤ a + W) →
        (∀ y ∈ fl, a ≠ y ∧ a ≠ y + W) → s'.mem a = s.mem a) ∧
      s'.heap_listp = s.heap_listp ∧ s'.mem_brk = s.mem_brk ∧
      s'.mem_max_addr = s.mem_max_addr := by
  have hW := h.heap.Wpos
  obtain ⟨g1, g2, g3, g4⟩ := h.geom
  obtain ⟨hn1, hn2, hn3, g5⟩ := g2
  have hge := Shape_le g1
  have hle := Shape_le g5
  have hbm : b ∈ pre ++ b :: n :: post := by simp
  have hnm : n ∈ pre ++ b :: n :: post := by simp
  have hnfl : n.addr ∈ fl :=
    h.perm.mem_iff.2 (List.mem_append_right _ (mem_frees.2 ⟨n, by simp, hnf, rfl⟩))
  have e1 : NEXT_BLKP W s b.addr = n.addr := by rw [h.heap.rd_next hbm, hn1]
  have hN : GET_ALLOC s (HDRP W (NEXT_BLKP W s b.addr)) = 0 := by
    rw [e1, h.heap.rd_hdr_alloc hnm, hnf]; rfl
  have e2 := h.heap.rd_hdr_size hbm
  obtain ⟨hp, hpf⟩ := h.heap.pop hnfl
  obtain ⟨s1, hs1⟩ : ∃ s1, s1 = freeList_pop W s n.addr := ⟨_, rfl⟩
  rw [← hs1] at hp hpf
  have e3 : NEXT_BLKP W s1 b.addr = n.addr := by rw [hp.rd_next hbm, hn1]
  have e4 := hp.rd_hdr_size hnm
  obtain ⟨T, hT⟩ : ∃ T, T = b.size + n.size := ⟨_, rfl⟩
  have hTle : T ≤ s.mem_brk := by omega
  have e5 : (b.size + n.size) % WordMod W = T := by
    rw [← hT]; exact mod_small _ _ _ _ hTle h.heap.brk_le h.heap.lim
  have hT8 : T % 8 = 0 := by omega
  have hTlt : T < WordMod W := by have := h.heap.brk_le; have := h.heap.lim; omega
  have hd : b.addr + T = n.addr + n.size := by omega
  have hmid5 : b.addr + b.size + n.size = n.addr + n.size := by omega
  have hT4 : 4 * W ≤ T := by omega
  have hcW : W ≤ b.addr := by omega
  have hxy : b.addr - W ≠ b.addr + T - 2 * W := by omega
  have e6 : FTRP W (PUT s1 (HDRP W b.addr) T) b.addr = b.addr + T - 2 * W :=
    FTRP_eq h.heap.hW _ _ ⟨b.addr, T, true⟩ (by simp [HDRP, Blk.tag_free]) hT8 hTlt
  obtain ⟨s3, hs3⟩ : ∃ s3, s3 = PUT (PUT s1 (b.addr - W) T) (b.addr + T - 2 * W) T := ⟨_, rfl⟩
  obtain ⟨m1, m2, m3⟩ := PUT2_mem s1 (b.addr - W) (b.addr + T - 2 * W) T hxy
  rw [← hs3] at m1 m2 m3
  have hcoal : coalesce W s b.addr = (b.addr, freeList_push W s3 b.addr) := by
    rw [coalesce_case2 W s b.addr (h.prev_alloc hq) hN]
    simp only [e1, ← hs1, e2, e3, e4, e5, PACK_zero, e6]
    rw [hs3]; rfl
  have hp' : Heap W B s1 (pre ++ [b, n] ++ post) (fl.erase n.addr) := by
    have e : pre ++ [b, n] ++ post = pre ++ b :: n :: post := by simp
    rw [e]; exact hp
  have hnodes : ∀ y ∈ fl.erase n.addr, ∃ k ∈ pre ++ [b, n] ++ post,
      k.free = true ∧ k.addr = y := by
    intro y hy
    obtain ⟨k, hk, hkf, hka⟩ := h.free_nodes y (List.mem_of_mem_erase hy)
    exact ⟨k, by simpa using hk, hkf, hka⟩
  have hmid : Shape W b.addr [b, n] (n.addr + n.size) :=
    ⟨rfl, g3, g4, hn1, hn2, hn3, hmid5⟩
  have hpost : Shape W (n.addr + n.size) post s1.mem_brk := by
    rw [hs1, freeList_pop_mem_brk, hn1]; exact g5
  have hm := hp'.merge b.addr (n.addr + n.size) T hd g1 hmid hpost (by simp) hnodes s3 m1 m2 m3
    (by rw [hs3]; rfl) (by rw [hs3]; rfl) (by rw [hs3]; rfl) (by rw [hs3]; rfl)
  have hperm : (fl.erase n.addr).Perm (frees pre ++ frees post) := by
    have := h.perm
    rw [frees_cons, hnf, if_pos rfl] at this
    exact perm_erase_middle _ _ _ _ this
  have hinv := merge_finish hm hperm h.na1 (NoAdj_tail h.na2) hq (NoAdj_tail_head h.na2 hnf)
  refine ⟨freeList_push W s3 b.addr, hcoal, by rw [← hT]; exact hinv, ?_, ?_, ?_, ?_⟩
  · intro a haH ha hcell
    rw [← hT] at ha
    rw [merge_frame s1 s3 (fl.erase n.addr) (B + 2 * W) b.addr T a hW.1 hm.links m3 hT4 hcW haH ha
      (fun y hy => (hcell y (List.mem_of_mem_erase hy)).1)]
    exact hpf a haH (fun y hy _ => hcell y hy)
  · rw [freeList_push_heap_listp, hs3, PUT_heap_listp, PUT_heap_listp, hs1,
      freeList_pop_heap_listp]
  · rw [freeList_push_mem_brk, hs3, PUT_mem_brk, PUT_mem_brk, hs1, freeList_pop_mem_brk]
  · rw [freeList_push_mem_max_addr, hs3, PUT_mem_max_addr, PUT_mem_max_addr, hs1,
      freeList_pop_mem_max_addr]

theorem frame_arith (W c T a : Nat) (hW : 4 ≤ W) (hT : 4 * W ≤ T) (hc : W ≤ c)
    (ha : a + W < c ∨ c + T ≤ a + W) :
    a ≠ c ∧ a ≠ c + W ∧ a ≠ c - W ∧ a ≠ c + T - 2 * W := by
  omega

theorem cells_arith3 (W qa qs ba bs T : Nat) (hW : 4 ≤ W) (h1 : qa + qs = ba)
    (hT : T = qs + bs) (hq : 4 * W ≤ qs) (hb : 4 * W ≤ bs) (hge : W ≤ qa) :
    (qa + T - 2 * W ≠ qa - W ∧ ba - 2 * W ≠ qa + T - 2 * W ∧ ba - 2 * W ≠ qa - W) ∧
    ba + bs - 2 * W = qa + T - 2 * W ∧ qa + T = ba + bs ∧ qa + qs + bs = ba + bs := by
  omega

theorem cells_arith4 (W qa qs ba bs na ns T : Nat) (hW : 4 ≤ W) (h1 : qa + qs = ba)
    (h2 : na = ba + bs) (hT : T = qs + bs + ns) (hq : 4 * W ≤ qs) (hb : 4 * W ≤ bs)
    (hn : 4 * W ≤ ns) (hge : W ≤ qa) :
    (qa - W ≠ qa + T - 2 * W ∧ ba - 2 * W ≠ qa + T - 2 * W ∧
      ba - 2 * W ≠ qa - W ∧ ba - W ≠ qa + T - 2 * W ∧
      ba - W ≠ qa - W ∧ na - W ≠ qa - W) ∧
    na + ns - 2 * W = qa + T - 2 * W ∧ qa + T = na + ns ∧ qa + qs + bs + ns = na + ns ∧
    na ≠ qa := by
  omega

/-- Case 3 of `coalesce`: predecessor `q` free, successor allocated. -/
theorem CoPre.case3 {W B : Nat} {s : State} {pre post : List Blk} {b q : Blk}
    {fl : List Nat} (h : CoPre W B s (pre ++ [q]) b post fl) (hqf : q.free = true)
    (hn : ∀ n ∈ post.head?, n.free = false) :
    ∃ s', coalesce W s b.addr = (q.addr, s') ∧
      Inv W B s' (pre ++ ⟨q.addr, q.size + b.size, true⟩ :: post)
        (q.addr :: fl.erase q.addr) ∧
      (∀ a, a ≠ B + 2 * W → (a + W < q.addr ∨ q.addr + (q.size + b.size) ≤ a + W) →
        (∀ y ∈ fl, a ≠ y ∧ a ≠ y + W) → s'.mem a = s.mem a) ∧
      s'.heap_listp = s.heap_listp ∧ s'.mem_brk = s.mem_brk ∧
      s'.mem_max_addr = s.mem_max_addr := by
  have hW := h.heap.Wpos
  obtain ⟨g1, g2, g3, g4⟩ := h.geom
  obtain ⟨hprev, hP, hqa, gq, hqfl, hq8, hq4⟩ := h.prev_free hqf
  have hge := Shape_le gq
  have hle := Shape_le g2
  have hbm : b ∈ pre ++ [q] ++ b :: post := by simp
  have hqm : q ∈ pre ++ [q] ++ b :: post := by simp
  have hqlt := (h.heap.blk hqm).2.2.2.2.1
  have e2 := h.heap.rd_hdr_size hbm
  have e3 := h.heap.rd_hdr_size hqm
  have e5 := h.heap.rd_ftr hbm
  obtain ⟨T, hT⟩ : ∃ T, T = q.size + b.size := ⟨_, rfl⟩
  have hTle : T ≤ s.mem_brk := by omega
  have e4 : (b.size + q.size) % WordMod W = T := by
    rw [Nat.add_comm, ← hT]; exact mod_small _ _ _ _ hTle h.heap.brk_le h.heap.lim
  have hqW : W ≤ q.addr := by omega
  have hT4 : 4 * W ≤ T := by omega
  have hfr := fun a => frame_arith W q.addr T a hW.1 hT4 hqW
  obtain ⟨⟨hxy, hc1, hc2⟩, hfx, hd, hmid5⟩ :=
    cells_arith3 W q.addr q.size b.addr b.size T hW.1 hqa hT hq4 g4 hqW
  have hqftr : s.mem (b.addr - 2 * W) = q.tag := h.heap.ftr_cell hqm hqa
  obtain ⟨s1, hs1⟩ : ∃ s1, s1 = PUT s (q.addr + T - 2 * W) T := ⟨_, rfl⟩
  obtain ⟨s2, hs2⟩ : ∃ s2, s2 = PUT s1 (q.addr - W) T := ⟨_, rfl⟩
  obtain ⟨m1, m2, m3⟩ := PUT2_mem s (q.addr + T - 2 * W) (q.addr - W) T hxy
  rw [← hs1, ← hs2] at m1 m2 m3
  have e6 : PREV_BLKP W s1 b.addr = q.addr :=
    rd_prev_cell h.heap.hW s1 _ q hqa (by rw [hs1, PUT_mem, if_neg hc1]; exact hqftr) hq8 hqlt
  have e7 : PREV_BLKP W s2 b.addr = q.addr :=
    rd_prev_cell h.heap.hW s2 _ q hqa (by rw [m3 _ hc1 hc2]; exact hqftr) hq8 hqlt
  have hh' : Heap W B s (pre ++ [q, b] ++ post) fl := by
    have e : pre ++ [q, b] ++ post = pre ++ [q] ++ b :: post := by simp
    rw [e]; exact h.heap
  have hnodes : ∀ y ∈ fl, ∃ k ∈ pre ++ [q, b] ++ post, k.free = true ∧ k.addr = y := by
    intro y hy
    obtain ⟨k, hk, hkf, hka⟩ := h.free_nodes y hy
    exact ⟨k, by simpa using hk, hkf, hka⟩
  have hmid : Shape W q.addr [q, b] (b.addr + b.size) :=
    ⟨rfl, hq8, hq4, hqa.symm, g3, g4, hmid5⟩
  have hm := hh'.merge q.addr (b.addr + b.size) T hd gq hmid g2 (by simp) hnodes s2 m2 m1
    (fun a h1 h2 => m3 a h2 h1)
    (by rw [hs2, hs1]; rfl) (by rw [hs2, hs1]; rfl) (by rw [hs2, hs1]; rfl)
    (by rw [hs2, hs1]; rfl)
  obtain ⟨hp, hpf⟩ := hm.pop hqfl
  obtain ⟨s3, hs3⟩ : ∃ s3, s3 = freeList_pop W s2 q.addr := ⟨_, rfl⟩
  rw [← hs3] at hp hpf
  have hstale := (h.heap.tag_cells hqm).2
  rw [hqa] at hstale
  have e8 : PREV_BLKP W s3 b.addr = q.addr := by
    refine rd_prev_cell h.heap.hW s3 _ q hqa ?_ hq8 hqlt
    rw [hpf _ hstale.1 (fun y hy _ => hstale.2 y hy), m3 _ hc1 hc2]; exact hqftr
  have hcoal : coalesce W s b.addr = (q.addr, freeList_push W s3 q.addr) := by
    rw [coalesce_case3 W s b.addr hP (h.next_alloc hn)]
    have hH : HDRP W q.addr = q.addr - W := rfl
    have e3' : GET_SIZE W s (q.addr - W) = q.size := e3
    simp only [hprev, hH, e2, e3', e4, e5, hfx, PACK_zero, ← hs1, e6, ← hs2, e7, ← hs3, e8]
  have hperm : (fl.erase q.addr).Perm (frees pre ++ frees post) := by
    have := h.perm
    rw [frees_append, frees_cons, hqf, if_pos rfl, List.append_assoc] at this
    exact perm_erase_middle _ _ _ _ this
  have hna := NoAdj_init_last h.na1 hqf
  have hinv := merge_finish hp hperm hna.1 h.na2 hna.2 hn
  refine ⟨freeList_push W s3 q.addr, hcoal, by rw [← hT]; exact hinv, ?_, ?_, ?_, ?_⟩
  · intro a haH ha hcell
    rw [← hT] at ha
    obtain ⟨f1, f2, f3, f4⟩ := hfr a ha
    rw [push_frame s3 (fl.erase q.addr) (B + 2 * W) q.addr a hp.links haH f1 f2
      (fun y hy => (hcell y (List.mem_of_mem_erase hy)).1)]
    rw [hpf a haH (fun y hy _ => hcell y hy)]
    exact m3 a f4 f3
  · rw [freeList_push_heap_listp, hs3, freeList_pop_heap_listp, hs2, hs1]; rfl
  · rw [freeList_push_mem_brk, hs3, freeList_pop_mem_brk, hs2, hs1]; rfl
  · rw [freeList_push_mem_max_addr, hs3, freeList_pop_mem_max_addr, hs2, hs1]; rfl

/-- Case 4 of `coalesce`: predecessor `q` and successor `n` both free. -/
theorem CoPre.case4 {W B : Nat} {s : State} {pre post : List Blk} {b q n : Blk}
    {fl : List Nat} (h : CoPre W B s (pre ++ [q]) b (n :: post) fl) (hqf : q.free = true)
    (hnf : n.free = true) :
    ∃ s', coalesce W s b.addr = (q.addr, s') ∧
      Inv W B s' (pre ++ ⟨q.addr, q.size + b.size + n.size, true⟩ :: post)
        (q.addr :: (fl.erase q.addr).erase n.addr) ∧
      (∀ a, a ≠ B + 2 * W →
        (a + W < q.addr ∨ q.addr + (q.size + b.size + n.size) ≤ a + W) →
        (∀ y ∈ fl, a ≠ y ∧ a ≠ y + W) → s'.mem a = s.mem a) ∧
      s'.heap_listp = s.heap_listp ∧ s'.mem_brk = s.mem_brk ∧
      s'.mem_max_addr = s.mem_max_addr := by
  have hW := h.heap.Wpos
  obtain ⟨g1, g2, g3, g4⟩ := h.geom
  obtain ⟨hn1, hn2, hn3, g5⟩ := g2
  obtain ⟨hprev, hP, hqa, gq, hqfl, hq8, hq4⟩ := h.prev_free hqf
  have hge := Shape_le gq
  have hle := Shape_le g5
  have hbm : b ∈ pre ++ [q] ++ b :: n :: post := by simp
  have hqm : q ∈ pre ++ [q] ++ b :: n :: post := by simp
  have hnm : n ∈ pre ++ [q] ++ b :: n :: post := by simp
  have hqlt := (h.heap.blk hqm).2.2.2.2.1
  have hblt := (h.heap.blk hbm).2.2.2.2.1
  have hnlt := (h.heap.blk hnm).2.2.2.2.1
  have hnfl : n.addr ∈ fl :=
    h.perm.mem_iff.2 (List.mem_append_right _ (mem_frees.2 ⟨n, by simp, hnf, rfl⟩))
  have e1 : NEXT_BLKP W s b.addr = n.addr := by rw [h.heap.rd_next hbm, hn1]
  have hN : GET_ALLOC s (HDRP W (NEXT_BLKP W s b.addr)) = 0 := by
    rw [e1, h.heap.rd_hdr_alloc hnm, hnf]; rfl
  have e2 := h.heap.rd_hdr_size hbm
  have e3 := h.heap.rd_hdr_size hqm
  have e3a := h.heap.rd_ftr hnm
  have e3b := h.heap.rd_ftr_size hnm
  obtain ⟨T, hT⟩ : ∃ T, T = q.size + b.size + n.size := ⟨_, rfl⟩
  have hTle : T ≤ s.mem_brk := by omega
  have e4 : (b.size + (q.size + n.size) % WordMod W) % WordMod W = T := by
    rw [mod_small (q.size + n.size) _ _ _ (by omega) h.heap.brk_le h.heap.lim]
    have : b.size + (q.size + n.size) = T := by omega
    rw [this]; exact mod_small _ _ _ _ hTle h.heap.brk_le h.heap.lim
  have hqW : W ≤ q.addr := by omega
  have hT4 : 4 * W ≤ T := by omega
  have hfr := fun a => frame_arith W q.addr T a hW.1 hT4 hqW
  obtain ⟨⟨hxy, hc1, hc2, hc3, hc4, hc5⟩, hfx, hd, hmid5, hqn⟩ :=
    cells_arith4 W q.addr q.size b.addr b.size n.addr n.size T hW.1 hqa hn1 hT hq4 g4 hn3 hqW
  have hqftr : s.mem (b.addr - 2 * W) = q.tag := h.heap.ftr_cell hqm hqa
  have hbhdr : s.mem (b.addr - W) = b.tag := (h.heap.tags b hbm).1
  have hnhdr : s.mem (n.addr - W) = n.tag := (h.heap.tags n hnm).1
  obtain ⟨s1, hs1⟩ : ∃ s1, s1 = PUT s (q.addr - W) T := ⟨_, rfl⟩
  obtain ⟨s2, hs2⟩ : ∃ s2, s2 = PUT s1 (q.addr + T - 2 * W) T := ⟨_, rfl⟩
  obtain ⟨m1, m2, m3⟩ := PUT2_mem s (q.addr - W) (q.addr + T - 2 * W) T hxy
  rw [← hs1, ← hs2] at m1 m2 m3
  have e5 : NEXT_BLKP W s1 b.addr = n.addr := by
    rw [NEXT_BLKP_eq h.heap.hW s1 _ b (by rw [hs1, PUT_mem, if_neg hc4]; exact hbhdr) g3 hblt,
      hn1]
  have e6 : FTRP W s1 n.addr = q.addr + T - 2 * W := by
    rw [FTRP_eq h.heap.hW s1 _ n (by rw [hs1, PUT_mem, if_neg hc5]; exact hnhdr) hn2 hnlt, hfx]
  have e7 : PREV_BLKP W s2 b.addr = q.addr :=
    rd_prev_cell h.heap.hW s2 _ q hqa (by rw [m3 _ hc2 hc1]; exact hqftr) hq8 hqlt
  have hh' : Heap W B s (pre ++ [q, b, n] ++ post) fl := by
    have e : pre ++ [q, b, n] ++ post = pre ++ [q] ++ b :: n :: post := by simp
    rw [e]; exact h.heap
  have hnodes : ∀ y ∈ fl, ∃ k ∈ pre ++ [q, b, n] ++ post, k.free = true ∧ k.addr = y := by
    intro y hy
    obtain ⟨k, hk, hkf, hka⟩ := h.free_nodes y hy
    exact ⟨k, by simpa using hk, hkf, hka⟩
  have hmid : Shape W q.addr [q, b, n] (n.addr + n.size) :=
    ⟨rfl, hq8, hq4, hqa.symm, g3, g4, (by rw [hn1, hqa]), hn2, hn3, hmid5⟩
  have hpost : Shape W (n.addr + n.size) post s.mem_brk := by rw [hn1]; exact g5
  have hm := hh'.merge q.addr (n.addr + n.size) T hd gq hmid hpost (by simp) hnodes s2 m1 m2 m3
    (by rw [hs2, hs1]; rfl) (by rw [hs2, hs1]; rfl) (by rw [hs2, hs1]; rfl)
    (by rw [hs2, hs1]; rfl)
  obtain ⟨hp, hpf⟩ := hm.pop hqfl
  obtain ⟨s3, hs3⟩ : ∃ s3, s3 = freeList_pop W s2 q.addr := ⟨_, rfl⟩
  rw [← hs3] at hp hpf
  have hstq := (h.heap.tag_cells hqm).2
  rw [hqa] at hstq
  have hstb := (h.heap.tag_cells hbm).1
  have hbhdr3 : s3.mem (b.addr - W) = b.tag := by
    rw [hpf _ hstb.1 (fun y hy _ => hstb.2 y hy), m3 _ hc4 hc3]; exact hbhdr
  have hqftr3 : s3.mem (b.addr - 2 * W) = q.tag := by
    rw [hpf _ hstq.1 (fun y hy _ => hstq.2 y hy), m3 _ hc2 hc1]; exact hqftr
  have e8 : NEXT_BLKP W s3 b.addr = n.addr := by
    rw [NEXT_BLKP_eq h.heap.hW s3 _ b hbhdr3 g3 hblt, hn1]
  have hnfl' : n.addr ∈ fl.erase q.addr := (h.heap.nodup.mem_erase_iff).2 ⟨hqn, hnfl⟩
  obtain ⟨hp2, hpf2⟩ := hp.pop hnfl'
  obtain ⟨s4, hs4⟩ : ∃ s4, s4 = freeList_pop W s3 n.addr := ⟨_, rfl⟩
  rw [← hs4] at hp2 hpf2
  have e9 : PREV_BLKP W s4 b.addr = q.addr := by
    refine rd_prev_cell h.heap.hW s4 _ q hqa ?_ hq8 hqlt
    rw [hpf2 _ hstq.1 (fun y hy _ => hstq.2 y (List.mem_of_mem_erase hy))]
    exact hqftr3
  have hcoal : coalesce W s b.addr = (q.addr, freeList_push W s4 q.addr) := by
    rw [coalesce_case4 W s b.addr hP hN]
    have hH : HDRP W q.addr = q.addr - W := rfl
    have e3' : GET_SIZE W s (q.addr - W) = q.size := e3
    simp only [hprev, hH, e1, e2, e3', e3a, e3b, e4, PACK_zero, ← hs1, e5, e6, ← hs2, e7,
      ← hs3, e8, ← hs4, e9]
  have hperm : ((fl.erase q.addr).erase n.addr).Perm (frees pre ++ frees post) := by
    have := h.perm
    rw [frees_append, frees_cons, hqf, if_pos rfl, frees_cons, hnf, if_pos rfl,
      List.append_assoc] at this
    exact perm_erase_middle _ _ _ _ (perm_erase_middle _ _ _ _ this)
  have hna := NoAdj_init_last h.na1 hqf
  have hinv := merge_finish hp2 hperm hna.1 (NoAdj_tail h.na2) hna.2
    (NoAdj_tail_head h.na2 hnf)
  refine ⟨freeList_push W s4 q.addr, hcoal, by rw [← hT]; exact hinv, ?_, ?_, ?_, ?_⟩
  · intro a haH ha hcell
    rw [← hT] at ha
    obtain ⟨f1, f2, f3, f4⟩ := hfr a ha
    rw [push_frame s4 ((fl.erase q.addr).erase n.addr) (B + 2 * W) q.addr a hp2.links haH
      f1 f2 (fun y hy => (hcell y (List.mem_of_mem_erase (List.mem_of_mem_erase hy))).1)]
    rw [hpf2 a haH (fun y hy _ => hcell y (List.mem_of_mem_erase hy))]
    rw [hpf a haH (fun y hy _ => hcell y hy)]
    exact m3 a f3 f4
  · rw [freeList_push_heap_listp, hs4, freeList_pop_heap_listp, hs3, freeList_pop_heap_listp,
      hs2, hs1]; rfl
  · rw [freeList_push_mem_brk, hs4, freeList_pop_mem_brk, hs3, freeList_pop_mem_brk,
      hs2, hs1]; rfl
  · rw [freeList_push_mem_max_addr, hs4, freeList_pop_mem_max_addr, hs3,
      freeList_pop_mem_max_addr, hs2, hs1]; rfl

theorem allocBlks_append (l1 l2 : List Blk) :
    allocBlks (l1 ++ l2) = allocBlks l1 ++ allocBlks l2 := by
  simp [allocBlks]

theorem allocBlks_cons_free (k : Blk) (l : List Blk) (hk : k.free = true) :
    allocBlks (k :: l) = allocBlks l := by
  simp [allocBlks, hk]

theorem allocBlks_cons_alloc (k : Blk) (l : List Blk) (hk : k.free = false) :
    allocBlks (k :: l) = k :: allocBlks l := by
  simp [allocBlks, hk]

theorem mem_allocBlks {bs : List Blk} {k : Blk} :
    k ∈ allocBlks bs ↔ k ∈ bs ∧ k.free = false := by
  simp [allocBlks]

theorem exists_last_free {pre : List Blk} (h : ¬ ∀ q ∈ pre.getLast?, q.free = false) :
    ∃ pre' q, pre = pre' ++ [q] ∧ q.free = true := by
  rcases List.eq_nil_or_concat' pre with rfl | ⟨pre', q, rfl⟩
  · exact absurd (fun q hq => by simp at hq) h
  · refine ⟨pre', q, rfl, ?_⟩
    by_contra hq
    apply h
    intro q' hq'
    simp at hq'
    subst hq'
    simpa using hq

theorem exists_head_free {post : List Blk} (h : ¬ ∀ n ∈ post.head?, n.free = false) :
    ∃ n post', post = n :: post' ∧ n.free = true := by
  cases post with
  | nil => exact absurd (fun q hq => by simp at hq) h
  | cons n post' =>
    refine ⟨n, post', rfl, ?_⟩
    by_contra hn
    apply h
    intro n' hn'
    simp at hn'
    subst hn'
    simpa using hn

/-- What `coalesce` achieves on a block `b` whose tags say free: the invariant holds
afterwards for the block list in which `b` is merged with its free neighbours; the returned
block `r` is the head of the free list, is free, and covers `b`; the allocated blocks are
untouched; `r` is `b` itself when the predecessor is allocated; memory outside the merged
block, the link fields of the list nodes and the sentinel's previous field is unchanged. -/
theorem CoPre.coalesce_spec {W B : Nat} {s : State} {pre post : List Blk} {b : Blk}
    {fl : List Nat} (h : CoPre W B s pre b post fl) :
    ∃ r s' pre' post' T fl', coalesce W s b.addr = (r, s') ∧
      Inv W B s' (pre' ++ ⟨r, T, true⟩ :: post') (r :: fl') ∧
      r ≤ b.addr ∧ b.addr + b.size ≤ r + T ∧
      allocBlks pre' = allocBlks pre ∧ allocBlks post' = allocBlks post ∧
      pre' <+: pre ∧ post' <:+ post ∧
      ((∀ q ∈ pre.getLast?, q.free = false) → r = b.addr ∧ pre' = pre) ∧
      (∀ y ∈ fl', y ∈ fl) ∧
      (∀ a, a ≠ B + 2 * W → (a + W < r ∨ r + T ≤ a + W) →
        (∀ y ∈ fl, a ≠ y ∧ a ≠ y + W) → s'.mem a = s.mem a) ∧
      s'.heap_listp = s.heap_listp ∧ s'.mem_brk = s.mem_brk ∧
      s'.mem_max_addr = s.mem_max_addr := by
  by_cases hq : ∀ q ∈ pre.getLast?, q.free = false
  · by_cases hn : ∀ n ∈ post.head?, n.free = false
    · obtain ⟨h1, h2⟩ := h.case1 hq hn
      have hb : b = ⟨b.addr, b.size, true⟩ := by
        cases b with
        | mk a sz f =>
          have : f = true := h.bfree
          subst this; rfl
      refine ⟨b.addr, _, pre, post, b.size, fl, h1, by rw [← hb]; exact h2, le_refl _,
        le_refl _, rfl, rfl, List.prefix_refl _, List.suffix_refl _, fun _ => ⟨rfl, rfl⟩,
        fun y hy => hy, h.case1_frame, rfl, rfl, rfl⟩
    · obtain ⟨n, post', rfl, hnf⟩ := exists_head_free hn
      obtain ⟨s', h1, h2, h3, h4, h5, h6⟩ := h.case2 hq hnf
      refine ⟨b.addr, s', pre, post', b.size + n.size, fl.erase n.addr, h1, h2, le_refl _,
        by omega, rfl, (allocBlks_cons_free n post' hnf).symm, List.prefix_refl _,
        List.suffix_cons _ _, fun _ => ⟨rfl, rfl⟩,
        fun y hy => List.mem_of_mem_erase hy, h3, h4, h5, h6⟩
  · obtain ⟨pre', q, rfl, hqf⟩ := exists_last_free hq
    have hqa := (h.prev_free hqf).2.2.1
    have hpre : allocBlks pre' = allocBlks (pre' ++ [q]) := by
      rw [allocBlks_append, allocBlks_cons_free q [] hqf]
      simp [allocBlks]
    by_cases hn : ∀ n ∈ post.head?, n.free = false
    · obtain ⟨s', h1, h2, h3, h4, h5, h6⟩ := h.case3 hqf hn
      refine ⟨q.addr, s', pre', post, q.size + b.size, fl.erase q.addr, h1, h2, by omega,
        by omega, hpre, rfl, List.prefix_append _ _, List.suffix_refl _,
        fun hq' => absurd hq' hq,
        fun y hy => List.mem_of_mem_erase hy, h3, h4, h5, h6⟩
    · obtain ⟨n, post', rfl, hnf⟩ := exists_head_free hn
      obtain ⟨s', h1, h2, h3, h4, h5, h6⟩ := h.case4 hqf hnf
      refine ⟨q.addr, s', pre', post', q.size + b.size + n.size,
        (fl.erase q.addr).erase n.addr, h1, h2, by omega, by omega, hpre,
        (allocBlks_cons_free n post' hnf).symm, List.prefix_append _ _,
        List.suffix_cons _ _, fun hq' => absurd hq' hq,
        fun y hy => List.mem_of_mem_erase (List.mem_of_mem_erase hy), h3, h4, h5, h6⟩

theorem NoAdj_split {pre post : List Blk} {k : Blk} (h : NoAdj (pre ++ k :: post)) :
    NoAdj pre ∧ NoAdj post := by
  unfold NoAdj at *
  rw [List.chain'_append] at h
  exact ⟨h.1, h.2.1.tail⟩

theorem NoAdj_mid_alloc {pre post : List Blk} {k : Blk} (h1 : NoAdj pre) (h2 : NoAdj post)
    (hk : k.free = false) : NoAdj (pre ++ k :: post) := by
  unfold NoAdj at *
  rw [List.chain'_append]
  refine ⟨h1, ?_, ?_⟩
  · rw [List.chain'_cons']
    refine ⟨?_, h2⟩
    intro n _
    simp [hk]
  · intro q _ y hy
    simp at hy
    subst hy
    simp [hk]

/-- In a state satisfying the invariant the neighbours of a free block are allocated. -/
theorem NoAdj_around_free {pre post : List Blk} {k : Blk} (h : NoAdj (pre ++ k :: post))
    (hk : k.free = true) :
    (∀ q ∈ pre.getLast?, q.free = false) ∧ (∀ n ∈ post.head?, n.free = false) := by
  unfold NoAdj at h
  rw [List.chain'_append] at h
  constructor
  · intro q hq
    have := h.2.2 q hq k (by simp)
    simpa [hk] using this
  · exact NoAdj_tail_head h.2.1 hk

theorem Inv.nodes {W B : Nat} {s : State} {bs : List Blk} {fl : List Nat}
    (h : Inv W B s bs fl) : ∀ y ∈ fl, ∃ k ∈ bs, k.free = true ∧ k.addr = y := by
  intro y hy
  exact mem_frees.1 (h.perm.mem_iff.1 hy)

theorem Inv.mem_fl {W B : Nat} {s : State} {bs : List Blk} {fl : List Nat}
    (h : Inv W B s bs fl) {k : Blk} (hk : k ∈ bs) (hkf : k.free = true) : k.addr ∈ fl :=
  h.perm.mem_iff.2 (mem_frees.2 ⟨k, hk, hkf, rfl⟩)

theorem hdr_ne_ftr (W a sz : Nat) (hW : 4 ≤ W) (ha : W ≤ a) (hsz : 4 * W ≤ sz) :
    a - W ≠ a + sz - 2 * W := by omega

/-- Clearing the allocated bit in header and footer of an allocated block `k` leads to
the situation `coalesce` expects. -/
theorem Inv.mark_free {W B : Nat} {s : State} {pre post : List Blk} {k : Blk}
    {fl : List Nat} (h : Inv W B s (pre ++ k :: post) fl) (hkf : k.free = false) :
    CoPre W B (PUT (PUT s (k.addr - W) k.size) (k.addr + k.size - 2 * W) k.size)
      pre ⟨k.addr, k.size, true⟩ post fl := by
  have hW := h.heap.Wpos
  have hkm : k ∈ pre ++ k :: post := by simp
  have hkk := h.heap.blk hkm
  obtain ⟨c, g1, g2⟩ := (Shape_append _ _ _ _).1 h.heap.shape
  obtain ⟨g3, g4, g5, g6⟩ := g2
  subst g3
  have hxy := hdr_ne_ftr W k.addr k.size hW.1 (by omega) g5
  obtain ⟨m1, m2, m3⟩ := PUT2_mem s (k.addr - W) (k.addr + k.size - 2 * W) k.size hxy
  have hh' : Heap W B s (pre ++ [k] ++ post) fl := by
    have e : pre ++ [k] ++ post = pre ++ k :: post := by simp
    rw [e]; exact h.heap
  have hnodes : ∀ y ∈ fl, ∃ c ∈ pre ++ [k] ++ post, c.free = true ∧ c.addr = y := by
    intro y hy
    obtain ⟨c, hc, hcf, hca⟩ := h.nodes y hy
    exact ⟨c, by simpa using hc, hcf, hca⟩
  have hm := hh'.merge k.addr (k.addr + k.size) k.size rfl g1 ⟨rfl, g4, g5, rfl⟩ g6 (by simp)
    hnodes _ m1 m2 m3 rfl rfl rfl rfl
  have hna := NoAdj_split h.noadj
  refine ⟨?_, rfl, ?_, hna.1, hna.2⟩
  · have e : pre ++ [(⟨k.addr, k.size, true⟩ : Blk)] ++ post =
        pre ++ ⟨k.addr, k.size, true⟩ :: post := by simp
    rw [← e]; exact hm
  · have := h.perm
    rwa [frees_append, frees_cons, hkf] at this

theorem mm_free_eq {W B : Nat} {s : State} {bs : List Blk} {fl : List Nat}
    (h : Inv W B s bs fl) {k : Blk} (hk : k ∈ bs) :
    mm_free W s k.addr =
      (coalesce W (PUT (PUT s (k.addr - W) k.size) (k.addr + k.size - 2 * W) k.size)
        k.addr).2 := by
  have hW := h.heap.Wpos
  have hkk := h.heap.blk hk
  have h0 : k.addr ≠ 0 := by omega
  have hl : s.heap_listp ≠ 0 := by rw [h.heap.hlp]; omega
  have e1 := h.heap.rd_hdr_size hk
  have e2 : FTRP W (PUT s (HDRP W k.addr) k.size) k.addr = k.addr + k.size - 2 * W :=
    FTRP_eq h.heap.hW _ _ ⟨k.addr, k.size, true⟩ (by simp [HDRP, Blk.tag_free]) hkk.2.2.1
      hkk.2.2.2.2.1
  unfold mm_free
  simp only [h0, hl, if_false, e1, PACK_zero, e2]
  rfl

/-- Specification of `mm_free` on an allocated block `k`. -/
theorem Inv.mm_free_spec {W B : Nat} {s : State} {pre post : List Blk} {k : Blk}
    {fl : List Nat} (h : Inv W B s (pre ++ k :: post) fl) (hkf : k.free = false) :
    ∃ r pre' post' T fl',
      Inv W B (mm_free W s k.addr) (pre' ++ ⟨r, T, true⟩ :: post') (r :: fl') ∧
      r ≤ k.addr ∧ k.addr + k.size ≤ r + T ∧
      allocBlks pre' = allocBlks pre ∧ allocBlks post' = allocBlks post ∧
      pre' <+: pre ∧ post' <:+ post ∧
      ((∀ q ∈ pre.getLast?, q.free = false) → r = k.addr ∧ pre' = pre) ∧
      (∀ y ∈ fl', y ∈ fl) ∧
      (∀ a, a ≠ B + 2 * W → (a + W < r ∨ r + T ≤ a + W) →
        (∀ y ∈ fl, a ≠ y ∧ a ≠ y + W) → (mm_free W s k.addr).mem a = s.mem a) ∧
      (mm_free W s k.addr).heap_listp = s.heap_listp ∧
      (mm_free W s k.addr).mem_brk = s.mem_brk ∧
      (mm_free W s k.addr).mem_max_addr = s.mem_max_addr := by
  have hW := h.heap.Wpos
  have hkm : k ∈ pre ++ k :: post := by simp
  have hkk := h.heap.blk hkm
  have hco := h.mark_free hkf
  obtain ⟨r, s', pre', post', T, fl', h1, h2, h3, h4, h5, h6, hpx, hsx, h7, h8, h9, h10, h11,
    h12⟩ := hco.coalesce_spec
  have hs' : mm_free W s k.addr = s' := by
    rw [mm_free_eq h hkm]
    show (coalesce W _ (Blk.mk k.addr k.size true).addr).2 = s'
    rw [h1]
  rw [hs']
  have h3' : r ≤ k.addr := h3
  have h4' : k.addr + k.size ≤ r + T := h4
  refine ⟨r, pre', post', T, fl', h2, h3, h4, h5, h6, hpx, hsx, h7, h8, ?_, h10, h11, h12⟩
  intro a haH ha hcell
  rw [h9 a haH ha hcell]
  have e1 : a ≠ k.addr + k.size - 2 * W := by omega
  have e2 : a ≠ k.addr - W := by omega
  simp [e1, e2]

/-- Rewriting the tags of a stretch of blocks that contains no node of the list. -/
theorem Heap.replace {W B : Nat} {s : State} {pre mid post : List Blk} {fl : List Nat}
    (h : Heap W B s (pre ++ mid ++ post) fl) (mid' : List Blk) (c d : Nat)
    (hpre : Shape W (B + 8 * W) pre c) (hmid' : Shape W c mid' d)
    (hpost : Shape W d post s.mem_brk)
    (hnodes : ∀ y ∈ fl, ∃ k, (k ∈ pre ∨ k ∈ post) ∧ k.free = true ∧ k.addr = y)
    (s' : State) (htags : Tagged W s'.mem mid')
    (hm3 : ∀ a, (a + W < c ∨ d ≤ a + W) → s'.mem a = s.mem a)
    (hhl : s'.heap_listp = s.heap_listp) (hfl : s'.free_listp = s.free_listp)
    (hbrk : s'.mem_brk = s.mem_brk) (hmax : s'.mem_max_addr = s.mem_max_addr) :
    Heap W B s' (pre ++ mid' ++ post) fl := by
  have hW := h.Wpos
  have hcge := Shape_le hpre
  have hpos : ∀ y ∈ fl, ∃ k, (k ∈ pre ∨ k ∈ post) ∧ k.free = true ∧ k.addr = y ∧
      (y + 4 * W ≤ c ∨ d ≤ y) ∧ 4 * W ≤ k.size := by
    intro y hy
    obtain ⟨k, hk, hkf, hka⟩ := hnodes y hy
    rcases hk with hk | hk
    · have := Shape_mem hpre hk
      exact ⟨k, Or.inl hk, hkf, hka, by omega, by omega⟩
    · have := Shape_mem hpost hk
      exact ⟨k, Or.inr hk, hkf, hka, by omega, by omega⟩
  refine h.retag mid' c d hpre hmid' hpost s' hm3 htags ?_ ?_ hhl hfl hbrk hmax
  · intro y hy
    obtain ⟨k, _, _, _, hp, _⟩ := hpos y hy
    exact ⟨hm3 y (by omega), hm3 (y + W) (by omega)⟩
  · intro y hy
    obtain ⟨k, hk, hkf, hka, hp, h4⟩ := hpos y hy
    refine ⟨k, ?_, hkf, by omega, by omega⟩
    rcases hk with hk | hk
    · simp [hk]
    · simp [hk]

theorem Blk.tag_alloc_eq (a sz : Nat) : (Blk.mk a sz false).tag = PACK sz 1 := by
  simp [Blk.tag]

/-- Addresses of distinct blocks of a tiling differ. -/
theorem Shape_addr_inj {W : Nat} {l : List Blk} {a e : Nat} (h : Shape W a l e) (hW : 0 < W)
    {b c : Blk} (hb : b ∈ l) (hc : c ∈ l) (hbc : b.addr = c.addr) : b = c := by
  have h1 := Shape_mem h hb
  have h2 := Shape_mem h hc
  rcases Shape_disj h hb hc with h3 | h3 | h3
  · exact h3
  · omega
  · omega

theorem Inv.node_not_alloc {W B : Nat} {s : State} {bs : List Blk} {fl : List Nat}
    (h : Inv W B s bs fl) {k : Blk} (hk : k ∈ bs) (hkf : k.free = false) : k.addr ∉ fl := by
  intro hin
  obtain ⟨c, hc, hcf, hca⟩ := h.nodes _ hin
  have hW := h.heap.Wpos
  have := Shape_addr_inj h.heap.shape (by omega) hc hk hca
  subst this
  rw [hkf] at hcf
  exact Bool.noConfusion hcf

/-- Nodes of the list other than the address of the block `k` are addresses of free blocks
before or after `k`. -/
theorem Inv.nodes_erase {W B : Nat} {s : State} {pre post : List Blk} {k : Blk}
    {fl : List Nat} (h : Inv W B s (pre ++ k :: post) fl) :
    ∀ y ∈ fl.erase k.addr, ∃ c, (c ∈ pre ∨ c ∈ post) ∧ c.free = true ∧ c.addr = y := by
  intro y hy
  have hy' := (h.heap.nodup.mem_erase_iff).1 hy
  obtain ⟨c, hc, hcf, hca⟩ := h.nodes y hy'.2
  rcases List.mem_append.1 hc with hc | hc
  · exact ⟨c, Or.inl hc, hcf, hca⟩
  · rcases List.mem_cons.1 hc with hc | hc
    · rw [hc] at hca
      exact absurd hca.symm hy'.1
    · exact ⟨c, Or.inr hc, hcf, hca⟩

theorem Inv.perm_erase {W B : Nat} {s : State} {pre post : List Blk} {k : Blk}
    {fl : List Nat} (h : Inv W B s (pre ++ k :: post) fl) (hkf : k.free = true) :
    (fl.erase k.addr).Perm (frees pre ++ frees post) := by
  have := h.perm
  rw [frees_append, frees_cons, hkf, if_pos rfl] at this
  exact perm_erase_middle _ _ _ _ this

theorem place_arith (W a asz csz : Nat) (hW : 4 ≤ W) (ha : W ≤ a) (h1 : 4 * W ≤ asz)
    (h2 : asz + 4 * W ≤ csz) :
    (a - W ≠ a + asz - 2 * W ∧ a - W ≠ a + asz - W ∧ a - W ≠ a + csz - 2 * W ∧
      a + asz - 2 * W ≠ a + asz - W ∧ a + asz - 2 * W ≠ a + csz - 2 * W ∧
      a + asz - W ≠ a + csz - 2 * W) ∧
    a + asz + (csz - asz) - 2 * W = a + csz - 2 * W ∧ a + asz + (csz - asz) = a + csz := by
  omega

theorem place_frame_arith (W a csz asz x : Nat) (hW : 4 ≤ W) (ha : W ≤ a)
    (h1 : 4 * W ≤ asz) (h2 : asz + 4 * W ≤ csz)
    (hx : x + W < a ∨ a + csz ≤ x + W) :
    x ≠ a - W ∧ x ≠ a + asz - 2 * W ∧ x ≠ a + asz - W ∧ x ≠ a + csz - 2 * W ∧
    x ≠ a + asz ∧ x ≠ a + asz + W := by
  omega

theorem sub_wrap (c a M : Nat) (h1 : a ≤ c) (h2 : c < M) : (c + M - a) % M = c - a := by
  have : c + M - a = (c - a) + M := by omega
  rw [this, Nat.add_mod_right]
  exact Nat.mod_eq_of_lt (by omega)

theorem two_DSIZE (W : Nat) : 2 * DSIZE W = 4 * W := by unfold DSIZE; omega

/-- `place` without a split: the whole block becomes allocated and leaves the list. -/
theorem Inv.place_nosplit {W B : Nat} {s : State} {pre post : List Blk} {k : Blk}
    {fl : List Nat} (h : Inv W B s (pre ++ k :: post) fl) (hkf : k.free = true)
    (asize : Nat) (hle : asize ≤ k.size) (hns : k.size - asize < 4 * W) :
    Inv W B (place W s k.addr asize) (pre ++ ⟨k.addr, k.size, false⟩ :: post)
      (fl.erase k.addr) ∧
    (∀ a, a ≠ B + 2 * W → (a + W < k.addr ∨ k.addr + k.size ≤ a + W) →
      (∀ y ∈ fl, a ≠ y ∧ a ≠ y + W) → (place W s k.addr asize).mem a = s.mem a) ∧
    (place W s k.addr asize).heap_listp = s.heap_listp ∧
    (place W s k.addr asize).mem_brk = s.mem_brk ∧
    (place W s k.addr asize).mem_max_addr = s.mem_max_addr := by
  have hW := h.heap.Wpos
  have hkm : k ∈ pre ++ k :: post := by simp
  have hkk := h.heap.blk hkm
  obtain ⟨c, g1, g2⟩ := (Shape_append _ _ _ _).1 h.heap.shape
  obtain ⟨g3, g4, g5, g6⟩ := g2
  subst g3
  have hkW : W ≤ k.addr := by omega
  have hxy := hdr_ne_ftr W k.addr k.size hW.1 hkW g5
  have hfr : ∀ a, (a + W < k.addr ∨ k.addr + k.size ≤ a + W) →
      a ≠ k.addr - W ∧ a ≠ k.addr + k.size - 2 * W := by
    intro a ha; omega
  have e0 := h.heap.rd_hdr_size hkm
  have hcond : ¬ ((k.size + WordMod W - asize) % WordMod W ≥ 2 * DSIZE W) := by
    rw [sub_wrap _ _ _ hle hkk.2.2.2.2.1, two_DSIZE]; omega
  obtain ⟨hp, hpf⟩ := h.heap.pop (h.mem_fl hkm hkf)
  obtain ⟨s1, hs1⟩ : ∃ s1, s1 = freeList_pop W s k.addr := ⟨_, rfl⟩
  rw [← hs1] at hp hpf
  have e1 : FTRP W (PUT s1 (HDRP W k.addr) (PACK k.size 1)) k.addr =
      k.addr + k.size - 2 * W :=
    FTRP_eq h.heap.hW _ _ ⟨k.addr, k.size, false⟩ (by simp [HDRP, Blk.tag_alloc_eq]) g4
      hkk.2.2.2.2.1
  obtain ⟨s3, hs3⟩ : ∃ s3, s3 = PUT (PUT s1 (k.addr - W) (PACK k.size 1))
      (k.addr + k.size - 2 * W) (PACK k.size 1) := ⟨_, rfl⟩
  obtain ⟨m1, m2, m3⟩ := PUT2_mem s1 (k.addr - W) (k.addr + k.size - 2 * W) (PACK k.size 1) hxy
  rw [← hs3] at m1 m2 m3
  have hpl : place W s k.addr asize = s3 := by
    unfold place
    simp only [e0, hcond, if_false, ← hs1, e1]
    rw [hs3]; rfl
  rw [hpl]
  have hp' : Heap W B s1 (pre ++ [k] ++ post) (fl.erase k.addr) := by
    have e : pre ++ [k] ++ post = pre ++ k :: post := by simp
    rw [e]; exact hp
  have hpost : Shape W (k.addr + k.size) post s1.mem_brk := by
    rw [hs1, freeList_pop_mem_brk]; exact g6
  have hr := hp'.replace [⟨k.addr, k.size, false⟩] k.addr (k.addr + k.size) g1
    ⟨rfl, g4, g5, rfl⟩ hpost h.nodes_erase s3
    (by
      intro c hc
      simp only [List.mem_singleton] at hc
      subst hc
      exact ⟨m1, m2⟩)
    (fun a ha => m3 a (hfr a ha).1 (hfr a ha).2)
    (by rw [hs3]; rfl) (by rw [hs3]; rfl) (by rw [hs3]; rfl) (by rw [hs3]; rfl)
  have hna := NoAdj_split h.noadj
  refine ⟨⟨?_, NoAdj_mid_alloc hna.1 hna.2 rfl, ?_⟩, ?_, ?_, ?_, ?_⟩
  · have e : pre ++ [(⟨k.addr, k.size, false⟩ : Blk)] ++ post =
        pre ++ ⟨k.addr, k.size, false⟩ :: post := by simp
    rw [← e]; exact hr
  · rw [frees_append, frees_cons]
    exact h.perm_erase hkf
  · intro a haH ha hcell
    rw [m3 a (hfr a ha).1 (hfr a ha).2]
    exact hpf a haH (fun y hy _ => hcell y hy)
  · rw [hs3, PUT_heap_listp, PUT_heap_listp, hs1, freeList_pop_heap_listp]
  · rw [hs3, PUT_mem_brk, PUT_mem_brk, hs1, freeList_pop_mem_brk]
  · rw [hs3, PUT_mem_max_addr, PUT_mem_max_addr, hs1, freeList_pop_mem_max_addr]

/-- `place` with a split: the first `asize` bytes become an allocated block, the rest a
free block that is pushed onto the list. -/
theorem Inv.place_split {W B : Nat} {s : State} {pre post : List Blk} {k : Blk}
    {fl : List Nat} (h : Inv W B s (pre ++ k :: post) fl) (hkf : k.free = true)
    (asize : Nat) (ha8 : asize % 8 = 0) (ha4 : 4 * W ≤ asize) (hle : asize ≤ k.size)
    (hsp : 4 * W ≤ k.size - asize) :
    Inv W B (place W s k.addr asize)
      (pre ++ ⟨k.addr, asize, false⟩ :: ⟨k.addr + asize, k.size - asize, true⟩ :: post)
      ((k.addr + asize) :: fl.erase k.addr) ∧
    (∀ a, a ≠ B + 2 * W → (a + W < k.addr ∨ k.addr + k.size ≤ a + W) →
      (∀ y ∈ fl, a ≠ y ∧ a ≠ y + W) → (place W s k.addr asize).mem a = s.mem a) ∧
    (place W s k.addr asize).heap_listp = s.heap_listp ∧
    (place W s k.addr asize).mem_brk = s.mem_brk ∧
    (place W s k.addr asize).mem_max_addr = s.mem_max_addr := by
  have hW := h.heap.Wpos
  have hkm : k ∈ pre ++ k :: post := by simp
  have hkk := h.heap.blk hkm
  obtain ⟨c, g1, g2⟩ := (Shape_append _ _ _ _).1 h.heap.shape
  obtain ⟨g3, g4, g5, g6⟩ := g2
  subst g3
  have hkW : W ≤ k.addr := by omega
  have hsp' : asize + 4 * W ≤ k.size := by omega
  obtain ⟨rem, hrem⟩ : ∃ rem, rem = k.size - asize := ⟨_, rfl⟩
  have hr8 : rem % 8 = 0 := by omega
  have hr4 : 4 * W ≤ rem := by omega
  have hrlt : rem < WordMod W := by omega
  have halt : asize < WordMod W := by omega
  have hsum : k.addr + asize + rem = k.addr + k.size := by omega
  have hfr := fun a => place_frame_arith W k.addr k.size asize a hW.1 hkW ha4 hsp'
  have e0 := h.heap.rd_hdr_size hkm
  have hcond : (k.size + WordMod W - asize) % WordMod W ≥ 2 * DSIZE W := by
    rw [sub_wrap _ _ _ hle hkk.2.2.2.2.1, two_DSIZE]; exact hsp
  have hsw : (k.size + WordMod W - asize) % WordMod W = rem := by
    rw [sub_wrap _ _ _ hle hkk.2.2.2.2.1, hrem]
  obtain ⟨⟨n12, n13, n14, n23, n24, n34⟩, hc4, _⟩ :=
    place_arith W k.addr asize k.size hW.1 hkW ha4 hsp'
  rw [← hrem] at hc4
  obtain ⟨hp, hpf⟩ := h.heap.pop (h.mem_fl hkm hkf)
  obtain ⟨s1, hs1⟩ : ∃ s1, s1 = freeList_pop W s k.addr := ⟨_, rfl⟩
  rw [← hs1] at hp hpf
  obtain ⟨s2, hs2⟩ : ∃ s2, s2 = PUT s1 (k.addr - W) (PACK asize 1) := ⟨_, rfl⟩
  obtain ⟨s3, hs3⟩ : ∃ s3, s3 = PUT s2 (k.addr + asize - 2 * W) (PACK asize 1) := ⟨_, rfl⟩
  obtain ⟨s4, hs4⟩ : ∃ s4, s4 = PUT s3 (k.addr + asize - W) rem := ⟨_, rfl⟩
  obtain ⟨s5, hs5⟩ : ∃ s5, s5 = PUT s4 (k.addr + k.size - 2 * W) rem := ⟨_, rfl⟩
  have e1 : FTRP W s2 k.addr = k.addr + asize - 2 * W :=
    FTRP_eq h.heap.hW _ _ ⟨k.addr, asize, false⟩
      (by rw [hs2]; simp [Blk.tag_alloc_eq]) ha8 halt
  have e2 : NEXT_BLKP W s3 k.addr = k.addr + asize :=
    NEXT_BLKP_eq h.heap.hW _ _ ⟨k.addr, asize, false⟩
      (by rw [hs3, hs2]; simp [Blk.tag_alloc_eq, n12]) ha8 halt
  have e3 : FTRP W s4 (k.addr + asize) = k.addr + k.size - 2 * W := by
    rw [FTRP_eq h.heap.hW _ _ ⟨k.addr + asize, rem, true⟩
      (by rw [hs4]; simp [Blk.tag_free]) hr8 hrlt]
    exact hc4
  have hH : HDRP W k.addr = k.addr - W := rfl
  have hH2 : HDRP W (k.addr + asize) = k.addr + asize - W := rfl
  have e0' : GET_SIZE W s (k.addr - W) = k.size := e0
  have hcond' : rem ≥ 2 * DSIZE W := by rw [← hsw]; exact hcond
  have hpl : place W s k.addr asize = (coalesce W s5 (k.addr + asize)).2 := by
    unfold place
    simp only [e0', hsw, hcond', if_true, hH, ← hs1, ← hs2, e1, ← hs3, e2, hH2, PACK_zero,
      ← hs4, e3, ← hs5]
  have m5 : ∀ a, s5.mem a = if a = k.addr + k.size - 2 * W then rem
      else if a = k.addr + asize - W then rem
      else if a = k.addr + asize - 2 * W then PACK asize 1
      else if a = k.addr - W then PACK asize 1 else s1.mem a := by
    intro a; rw [hs5, hs4, hs3, hs2]; rfl
  have hp' : Heap W B s1 (pre ++ [k] ++ post) (fl.erase k.addr) := by
    have e : pre ++ [k] ++ post = pre ++ k :: post := by simp
    rw [e]; exact hp
  have hpost : Shape W (k.addr + k.size) post s1.mem_brk := by
    rw [hs1, freeList_pop_mem_brk]; exact g6
  have hr := hp'.replace [⟨k.addr, asize, false⟩, ⟨k.addr + asize, rem, true⟩] k.addr
    (k.addr + k.size) g1 ⟨rfl, ha8, ha4, rfl, hr8, hr4, hsum⟩ hpost h.nodes_erase s5
    (by
      intro c hc
      simp only [List.mem_cons, List.mem_singleton, List.not_mem_nil, or_false] at hc
      rcases hc with hc | hc
      · rw [hc]
        simp only [Blk.tag_alloc_eq]
        rw [m5, m5, if_neg n13, if_neg n12, if_neg n14, if_pos rfl, if_neg n24, if_neg n23,
          if_pos rfl]
        exact ⟨rfl, rfl⟩
      · rw [hc]
        simp only [Blk.tag_free]
        rw [m5, m5, hc4, if_pos rfl, if_neg n34, if_pos rfl]
        exact ⟨rfl, rfl⟩)
    (fun a ha => by
      obtain ⟨f1, f2, f3, f4, _, _⟩ := hfr a ha
      rw [m5, if_neg f4, if_neg f3, if_neg f2, if_neg f1])
    (by rw [hs5, hs4, hs3, hs2]; rfl) (by rw [hs5, hs4, hs3, hs2]; rfl)
    (by rw [hs5, hs4, hs3, hs2]; rfl) (by rw [hs5, hs4, hs3, hs2]; rfl)
  have hna := NoAdj_split h.noadj
  have haround := NoAdj_around_free h.noadj hkf
  have hco : CoPre W B s5 (pre ++ [⟨k.addr, asize, false⟩]) ⟨k.addr + asize, rem, true⟩ post
      (fl.erase k.addr) := by
    refine ⟨?_, rfl, ?_, NoAdj_mid_alloc hna.1 (List.chain'_nil) rfl, hna.2⟩
    · have e : pre ++ [(⟨k.addr, asize, false⟩ : Blk), ⟨k.addr + asize, rem, true⟩] ++ post =
          pre ++ [⟨k.addr, asize, false⟩] ++ ⟨k.addr + asize, rem, true⟩ :: post := by simp
      rw [← e]; exact hr
    · rw [frees_append, frees_cons]
      simpa [frees] using h.perm_erase hkf
  have hq : ∀ q ∈ (pre ++ [(⟨k.addr, asize, false⟩ : Blk)]).getLast?, q.free = false := by
    intro q hq
    simp at hq
    rw [← hq]
  obtain ⟨c1, c2⟩ := hco.case1 hq haround.2
  have c3 := hco.case1_frame
  have hc1 : coalesce W s5 (k.addr + asize) = (k.addr + asize, freeList_push W s5 (k.addr + asize)) :=
    c1
  rw [hpl, hc1]
  refine ⟨?_, ?_, ?_, ?_, ?_⟩
  · have e : pre ++ [(⟨k.addr, asize, false⟩ : Blk)] ++ ⟨k.addr + asize, rem, true⟩ :: post =
        pre ++ ⟨k.addr, asize, false⟩ :: ⟨k.addr + asize, rem, true⟩ :: post := by simp
    rw [← hrem, ← e]; exact c2
  · intro a haH ha hcell
    obtain ⟨f1, f2, f3, f4, f5, f6⟩ := hfr a ha
    have hl := hco.heap.links
    show (freeList_push W s5 (k.addr + asize)).mem a = s.mem a
    rw [push_frame s5 (fl.erase k.addr) (B + 2 * W) (k.addr + asize) a hl haH f5 f6
      (fun y hy => (hcell y (List.mem_of_mem_erase hy)).1)]
    rw [m5, if_neg f4, if_neg f3, if_neg f2, if_neg f1]
    exact hpf a haH (fun y hy _ => hcell y hy)
  · show (freeList_push W s5 (k.addr + asize)).heap_listp = _
    rw [freeList_push_heap_listp, hs5, hs4, hs3, hs2, hs1]; simp
  · show (freeList_push W s5 (k.addr + asize)).mem_brk = _
    rw [freeList_push_mem_brk, hs5, hs4, hs3, hs2, hs1]; simp
  · show (freeList_push W s5 (k.addr + asize)).mem_max_addr = _
    rw [freeList_push_mem_max_addr, hs5, hs4, hs3, hs2, hs1]; simp

/-- Growing the heap by a free block of `size` bytes at the old break. -/
theorem Heap.extend {W B : Nat} {s0 : State} {bs : List Blk} {fl : List Nat}
    (h0 : Heap W B s0 bs fl) (s4 : State) (size : Nat) (h8 : size % 8 = 0)
    (h4 : 4 * W ≤ size) (hle : s0.mem_brk + size ≤ s0.mem_max_addr)
    (hbrk : s4.mem_brk = s0.mem_brk + size) (hmax : s4.mem_max_addr = s0.mem_max_addr)
    (hhl : s4.heap_listp = s0.heap_listp) (hfl : s4.free_listp = s0.free_listp)
    (hm1 : s4.mem (s0.mem_brk - W) = size) (hm2 : s4.mem (s0.mem_brk + size - 2 * W) = size)
    (hm3 : s4.mem (s0.mem_brk + size - W) = PACK 0 1)
    (hm4 : ∀ a, a + W < s0.mem_brk → s4.mem a = s0.mem a) :
    Heap W B s4 (bs ++ [⟨s0.mem_brk, size, true⟩]) fl := by
  have hW := h0.Wpos
  have hge := h0.brk_ge
  refine
    { hW := h0.hW, hB := h0.hB, lim := by rw [hmax]; exact h0.lim,
      brk_le := by rw [hmax, hbrk]; exact hle, hlp := by rw [hhl]; exact h0.hlp,
      prol := ?_, gap := ?_, shape := ?_, tags := ?_, epi := ?_,
      links := ?_, inside := ?_, sep := h0.sep, nodup := h0.nodup, back := ?_ }
  · rw [hm4 _ (by omega)]; exact h0.prol
  · rw [hm4 _ (by omega)]; exact h0.gap
  · rw [hbrk, Shape_append]
    exact ⟨s0.mem_brk, h0.shape, rfl, h8, h4, rfl⟩
  · intro k hk
    rcases List.mem_append.1 hk with hk | hk
    · have := h0.blk hk
      rw [hm4 _ (by omega), hm4 _ (by omega)]
      exact h0.tags k hk
    · simp only [List.mem_singleton] at hk
      subst hk
      simp only [Blk.tag_free]
      exact ⟨hm1, hm2⟩
  · rw [hbrk]; exact hm3
  · rw [hfl]
    refine LSeg_congr ?_ h0.links
    intro y hy
    have := h0.node hy
    exact ⟨hm4 _ (by omega), hm4 _ (by omega)⟩
  · intro y hy
    obtain ⟨k, hk, hh⟩ := h0.inside y hy
    exact ⟨k, List.mem_append_left _ hk, hh⟩
  · intro l x e
    rw [hm4 _ (by omega)]
    exact h0.back l x e

/-- The byte count `extend_heap` derives from its word count, for a request that is a
multiple of a doubleword. -/
theorem extend_size {W : Nat} (hW : W = 4 ∨ W = 8) (j : Nat) (hlt : 2 * W * j < WordMod W) :
    (if (2 * W * j / W) % 2 ≠ 0 then ((2 * W * j / W + 1) * W) % WordMod W
      else (2 * W * j / W * W) % WordMod W) = 2 * W * j := by
  have hWp : 0 < W := by rcases hW with rfl | rfl <;> omega
  have e1 : 2 * W * j / W = 2 * j := by
    rw [show 2 * W * j = W * (2 * j) by ring]
    exact Nat.mul_div_cancel_left _ hWp
  rw [e1]
  have e2 : ¬ ((2 * j) % 2 ≠ 0) := by omega
  rw [if_neg e2]
  rw [show 2 * j * W = 2 * W * j by ring]
  exact Nat.mod_eq_of_lt hlt

theorem ext_arith (W brk size : Nat) (hW : 4 ≤ W) (h4 : 4 * W ≤ size) (hb : 8 * W ≤ brk) :
    brk - W ≠ brk + size - 2 * W ∧ brk - W ≠ brk + size - W ∧
      brk + size - 2 * W ≠ brk + size - W ∧
      (∀ a, a + W < brk → a ≠ brk - W ∧ a ≠ brk + size - 2 * W ∧ a ≠ brk + size - W) := by
  refine ⟨by omega, by omega, by omega, ?_⟩
  intro a ha
  omega

/-- Evaluation of `extend_heap` when the provider grants the request: the new region is
formatted as a free block followed by the epilogue, and `coalesce` runs on it. -/
theorem extend_heap_eq {W : Nat} (hW : W = 4 ∨ W = 8) (s : State) (j : Nat)
    (hj : 2 ≤ j) (hb : 8 * W ≤ s.mem_brk) (hb8 : s.mem_brk % 8 = 0)
    (hle : s.mem_brk + 2 * W * j ≤ s.mem_max_addr) (hlim : s.mem_max_addr < WordMod W) :
    ∃ s4, extend_heap W s (2 * W * j / W) = coalesce W s4 s.mem_brk ∧
      s4.mem_brk = s.mem_brk + 2 * W * j ∧ s4.mem_max_addr = s.mem_max_addr ∧
      s4.heap_listp = s.heap_listp ∧ s4.free_listp = s.free_listp ∧
      s4.mem (s.mem_brk - W) = 2 * W * j ∧ s4.mem (s.mem_brk + 2 * W * j - 2 * W) = 2 * W * j ∧
      s4.mem (s.mem_brk + 2 * W * j - W) = PACK 0 1 ∧
      (∀ a, a + W < s.mem_brk → s4.mem a = s.mem a) := by
  have hWb : 4 ≤ W ∧ W ≤ 8 := by rcases hW with rfl | rfl <;> omega
  obtain ⟨size, hsize⟩ : ∃ size, size = 2 * W * j := ⟨_, rfl⟩
  have hsz := extend_size hW j (by omega)
  rw [← hsize] at hsz hle ⊢
  have h8 : size % 8 = 0 := by
    rcases hW with rfl | rfl <;> omega
  have h4 : 4 * W ≤ size := by
    rw [hsize]
    calc 4 * W = 2 * W * 2 := by ring
      _ ≤ 2 * W * j := Nat.mul_le_mul_left _ hj
  have hslt : size < WordMod W := by omega
  obtain ⟨n1, n2, n3, n4⟩ := ext_arith W s.mem_brk size hWb.1 h4 hb
  have hsb : mem_sbrk W s size = (s.mem_brk, { s with mem_brk := s.mem_brk + size }) := by
    unfold mem_sbrk; rw [if_pos hle]
  have hnf : s.mem_brk ≠ SBRK_FAIL W := by
    unfold SBRK_FAIL
    have := WordMod_cases hW
    omega
  obtain ⟨s1, hs1⟩ : ∃ s1 : State, s1 = { s with mem_brk := s.mem_brk + size } := ⟨_, rfl⟩
  obtain ⟨s2, hs2⟩ : ∃ s2, s2 = PUT s1 (s.mem_brk - W) size := ⟨_, rfl⟩
  obtain ⟨s3, hs3⟩ : ∃ s3, s3 = PUT s2 (s.mem_brk + size - 2 * W) size := ⟨_, rfl⟩
  obtain ⟨s4, hs4⟩ : ∃ s4, s4 = PUT s3 (s.mem_brk + size - W) (PACK 0 1) := ⟨_, rfl⟩
  have e1 : FTRP W s2 s.mem_brk = s.mem_brk + size - 2 * W :=
    FTRP_eq hW _ _ ⟨s.mem_brk, size, true⟩ (by rw [hs2]; simp [Blk.tag_free]) h8 hslt
  have e2 : NEXT_BLKP W s3 s.mem_brk = s.mem_brk + size :=
    NEXT_BLKP_eq hW _ _ ⟨s.mem_brk, size, true⟩
      (by rw [hs3, hs2]; simp [Blk.tag_free, n1]) h8 hslt
  have hH : HDRP W s.mem_brk = s.mem_brk - W := rfl
  have hH2 : HDRP W (s.mem_brk + size) = s.mem_brk + size - W := rfl
  have m4 : ∀ a, s4.mem a = if a = s.mem_brk + size - W then PACK 0 1
      else if a = s.mem_brk + size - 2 * W then size
      else if a = s.mem_brk - W then size else s.mem a := by
    intro a; rw [hs4, hs3, hs2, hs1]; rfl
  refine ⟨s4, ?_, by rw [hs4, hs3, hs2, hs1]; rfl, by rw [hs4, hs3, hs2, hs1]; rfl,
    by rw [hs4, hs3, hs2, hs1]; rfl, by rw [hs4, hs3, hs2, hs1]; rfl, ?_, ?_, ?_, ?_⟩
  · unfold extend_heap
    simp only [hsz, hsb, hnf, if_false, PACK_zero, hH, ← hs1, ← hs2, e1, ← hs3, e2, hH2, ← hs4]
  · rw [m4, if_neg n2, if_neg n1, if_pos rfl]
  · rw [m4, if_neg n3, if_pos rfl]
  · rw [m4, if_pos rfl]
  · intro a ha
    obtain ⟨f1, f2, f3⟩ := n4 a ha
    rw [m4, if_neg f3, if_neg f2, if_neg f1]

/-- Evaluation of `extend_heap` when the provider refuses the request. -/
theorem extend_heap_fail {W : Nat} (hW : W = 4 ∨ W = 8) (s : State) (j : Nat)
    (hlt : 2 * W * j < WordMod W)
    (hle : ¬ s.mem_brk + 2 * W * j ≤ s.mem_max_addr) :
    extend_heap W s (2 * W * j / W) = (0, s) := by
  have hsz := extend_size hW j hlt
  have hsb : mem_sbrk W s (2 * W * j) = (SBRK_FAIL W, s) := by
    unfold mem_sbrk; rw [if_neg hle]
  unfold extend_heap
  simp only [hsz, hsb, if_true]

/-- The search loop of `find_fit` along a linked segment whose nodes have a clear allocated
bit and whose end has it set: with more fuel than nodes it returns the first node that is
large enough, or null. -/
theorem find_fit_loop_spec {W : Nat} (s : State) (asize H : Nat) (xs : List Nat)
    (hH : GET_ALLOC s (HDRP W H) ≠ 0) :
    ∀ (p c fuel : Nat), LSeg W s.mem p c xs H → (∀ x ∈ xs, GET_ALLOC s (HDRP W x) = 0) →
      xs.length < fuel →
      find_fit_loop W s asize fuel c =
        some ((xs.find? (fun x => decide (asize ≤ GET_SIZE W s (HDRP W x)))).getD 0) := by
  induction xs with
  | nil =>
    intro p c fuel hl _ hf
    have hc : c = H := hl
    subst hc
    obtain ⟨f, rfl⟩ : ∃ f, fuel = f + 1 := ⟨fuel - 1, by simp at hf; omega⟩
    simp [find_fit_loop, hH]
  | cons x xs ih =>
    intro p c fuel hl ha hf
    obtain ⟨h1, h2, h3⟩ := hl
    subst h1
    obtain ⟨f, rfl⟩ : ∃ f, fuel = f + 1 := ⟨fuel - 1, by simp at hf; omega⟩
    have hx := ha c (List.mem_cons_self _ _)
    by_cases hfit : asize ≤ GET_SIZE W s (HDRP W c)
    · simp [find_fit_loop, hx, hfit]
    · have := ih c (s.mem (c + W)) f h3 (fun y hy => ha y (List.mem_cons_of_mem _ hy))
        (by simp at hf; omega)
      simp [find_fit_loop, hx, hfit, NEXT_PTR, GET, this]

theorem Inv.sentinel_alloc {W B : Nat} {s : State} {bs : List Blk} {fl : List Nat}
    (h : Inv W B s bs fl) : GET_ALLOC s (HDRP W (B + 2 * W)) ≠ 0 := by
  have hW := h.heap.Wpos
  have e : HDRP W (B + 2 * W) = B + W := by unfold HDRP; omega
  have h8 : (DSIZE W) % 8 = 0 := by
    unfold DSIZE
    rcases h.heap.hW with rfl | rfl <;> omega
  rw [e, rd_alloc s _ ⟨0, DSIZE W, false⟩ (by rw [h.heap.prol]; rfl) h8]
  simp

theorem Inv.node_alloc {W B : Nat} {s : State} {bs : List Blk} {fl : List Nat}
    (h : Inv W B s bs fl) : ∀ x ∈ fl, GET_ALLOC s (HDRP W x) = 0 := by
  intro x hx
  obtain ⟨k, hk, hkf, rfl⟩ := h.nodes x hx
  rw [h.heap.rd_hdr_alloc hk, hkf]
  rfl

/-- `find_fit` on a state satisfying the invariant. -/
theorem Inv.find_fit_eq {W B : Nat} {s : State} {bs : List Blk} {fl : List Nat}
    (h : Inv W B s bs fl) (asize fuel : Nat) (hf : fl.length < fuel) :
    find_fit W fuel s asize =
      some ((fl.find? (fun x => decide (asize ≤ GET_SIZE W s (HDRP W x)))).getD 0) := by
  unfold find_fit
  exact find_fit_loop_spec s asize (B + 2 * W) fl h.sentinel_alloc 0 s.free_listp fuel
    h.heap.links h.node_alloc hf

/-- A non-null result of the first-fit search is a free block that is large enough. -/
theorem Inv.find_fit_some {W B : Nat} {s : State} {bs : List Blk} {fl : List Nat}
    (h : Inv W B s bs fl) (asize : Nat) {r : Nat}
    (hr : (fl.find? (fun x => decide (asize ≤ GET_SIZE W s (HDRP W x)))).getD 0 = r)
    (hr0 : r ≠ 0) :
    ∃ k ∈ bs, k.free = true ∧ k.addr = r ∧ asize ≤ k.size := by
  cases hfind : fl.find? (fun x => decide (asize ≤ GET_SIZE W s (HDRP W x))) with
  | none =>
    rw [hfind] at hr
    exact absurd hr.symm hr0
  | some x =>
    rw [hfind] at hr
    simp at hr
    subst hr
    have hx := List.mem_of_find?_eq_some hfind
    have hp := List.find?_some hfind
    obtain ⟨k, hk, hkf, hka⟩ := h.nodes x hx
    refine ⟨k, hk, hkf, hka, ?_⟩
    rw [← hka, h.heap.rd_hdr_size hk] at hp
    simpa using hp

/-- A null result of the first-fit search means that no free block is large enough. -/
theorem Inv.find_fit_none {W B : Nat} {s : State} {bs : List Blk} {fl : List Nat}
    (h : Inv W B s bs fl) (asize : Nat)
    (hr : (fl.find? (fun x => decide (asize ≤ GET_SIZE W s (HDRP W x)))).getD 0 = 0) :
    ∀ k ∈ bs, k.free = true → k.size < asize := by
  intro k hk hkf
  have hkm := h.mem_fl hk hkf
  cases hfind : fl.find? (fun x => decide (asize ≤ GET_SIZE W s (HDRP W x))) with
  | none =>
    have := List.find?_eq_none.1 hfind k.addr hkm
    rw [h.heap.rd_hdr_size hk] at this
    simpa using this
  | some x =>
    rw [hfind] at hr
    simp at hr
    have hx := List.mem_of_find?_eq_some hfind
    have := h.heap.node hx
    have hW := h.heap.Wpos
    omega

/-- The adjusted size of a non-wrapping request. -/
theorem adjust_spec {W : Nat} (hW : W = 4 ∨ W = 8) (n : Nat) (hn : NoWrap W n) :
    ∃ j, 2 ≤ j ∧ adjust W n = 2 * W * j ∧ n + 2 * W ≤ adjust W n ∧
      adjust W n < WordMod W ∧ adjust W n % 8 = 0 ∧ 4 * W ≤ adjust W n := by
  unfold NoWrap at hn
  have hM := WordMod_cases hW
  unfold adjust
  by_cases hsmall : n ≤ DSIZE W
  · rw [if_pos hsmall]
    refine ⟨2, le_refl _, ?_, ?_, ?_, ?_, ?_⟩ <;>
      rcases hW with rfl | rfl <;> simp only [DSIZE] at * <;> omega
  · rw [if_neg hsmall]
    rw [Nat.mod_eq_of_lt hn]
    have hq : DSIZE W * ((n + DSIZE W + (DSIZE W - 1)) / DSIZE W) ≤ n + DSIZE W + (DSIZE W - 1) :=
      Nat.mul_div_le _ _
    rw [Nat.mod_eq_of_lt (by omega)]
    refine ⟨(n + DSIZE W + (DSIZE W - 1)) / DSIZE W, ?_, rfl, ?_, by omega, ?_, ?_⟩ <;>
      rcases hW with rfl | rfl <;> simp only [DSIZE] at * <;> omega

theorem CHUNKSIZE_eq : CHUNKSIZE = 4096 := by decide

theorem mem_allocBlks_mid {pre post : List Blk} {k k' c : Blk} (hk : k.free = true)
    (hk' : k'.free = false) :
    c ∈ allocBlks (pre ++ k' :: post) ↔ c ∈ allocBlks (pre ++ k :: post) ∨ c = k' := by
  simp only [allocBlks_append, allocBlks_cons_free k post hk, allocBlks_cons_alloc k' post hk',
    List.mem_append, List.mem_cons]
  tauto

/-- Specification of `place` on a free block `k` that is large enough. -/
theorem Inv.place_spec {W B : Nat} {s : State} {pre post : List Blk} {k : Blk}
    {fl : List Nat} (h : Inv W B s (pre ++ k :: post) fl) (hkf : k.free = true)
    (asize : Nat) (ha8 : asize % 8 = 0) (ha4 : 4 * W ≤ asize) (hle : asize ≤ k.size) :
    ∃ post' fl' sz, Inv W B (place W s k.addr asize) (pre ++ ⟨k.addr, sz, false⟩ :: post') fl' ∧
      asize ≤ sz ∧ sz ≤ k.size ∧
      (∀ c, c ∈ allocBlks (pre ++ ⟨k.addr, sz, false⟩ :: post') ↔
        c ∈ allocBlks (pre ++ k :: post) ∨ c = ⟨k.addr, sz, false⟩) ∧
      (∀ a, a ≠ B + 2 * W → (a + W < k.addr ∨ k.addr + k.size ≤ a + W) →
        (∀ y ∈ fl, a ≠ y ∧ a ≠ y + W) → (place W s k.addr asize).mem a = s.mem a) ∧
      (place W s k.addr asize).heap_listp = s.heap_listp ∧
      (place W s k.addr asize).mem_brk = s.mem_brk ∧
      (place W s k.addr asize).mem_max_addr = s.mem_max_addr := by
  by_cases hsp : 4 * W ≤ k.size - asize
  · obtain ⟨h1, h2, h3, h4, h5⟩ := h.place_split hkf asize ha8 ha4 hle hsp
    refine ⟨_, _, asize, h1, le_refl _, hle, ?_, h2, h3, h4, h5⟩
    intro c
    simp only [allocBlks_append, allocBlks_cons_free k post hkf,
      allocBlks_cons_alloc ⟨k.addr, asize, false⟩ _ rfl,
      allocBlks_cons_free ⟨k.addr + asize, k.size - asize, true⟩ post rfl,
      List.mem_append, List.mem_cons]
    tauto
  · obtain ⟨h1, h2, h3, h4, h5⟩ := h.place_nosplit hkf asize hle (by omega)
    exact ⟨_, _, k.size, h1, hle, le_refl _,
      fun c => mem_allocBlks_mid hkf rfl, h2, h3, h4, h5⟩

/-- The extension request of `mm_malloc` is a multiple of a doubleword. -/
theorem extendsize_spec {W : Nat} (hW : W = 4 ∨ W = 8) (asize j : Nat) (hj : 2 ≤ j)
    (ha : asize = 2 * W * j) :
    ∃ j', 2 ≤ j' ∧ MAX asize CHUNKSIZE = 2 * W * j' ∧ asize ≤ MAX asize CHUNKSIZE := by
  unfold MAX
  rw [CHUNKSIZE_eq]
  by_cases hgt : asize > 4096
  · rw [if_pos hgt]
    exact ⟨j, hj, ha, le_refl _⟩
  · rw [if_neg hgt]
    refine ⟨2048 / W, ?_, ?_, by omega⟩ <;> rcases hW with rfl | rfl <;> omega

/-- Growing the heap in a state satisfying the invariant: the new region becomes a free
block, merged with a free last block, at the head of the free list. -/
theorem extend_spec {W B : Nat} {s0 s : State} {bs : List Blk} {fl : List Nat}
    (h0 : Heap W B s0 bs fl) (hperm : fl.Perm (frees bs)) (hna : NoAdj bs)
    (hbrk : s.mem_brk = s0.mem_brk) (hmax : s.mem_max_addr = s0.mem_max_addr)
    (hhl : s.heap_listp = s0.heap_listp) (hfl : s.free_listp = s0.free_listp)
    (hmem : ∀ a, a + W < s0.mem_brk → s.mem a = s0.mem a)
    (j : Nat) (hj : 2 ≤ j) (hle : s.mem_brk + 2 * W * j ≤ s.mem_max_addr) :
    ∃ r s' pre' T fl', extend_heap W s (2 * W * j / W) = (r, s') ∧ r ≠ 0 ∧
      Inv W B s' (pre' ++ [⟨r, T, true⟩]) (r :: fl') ∧
      r ≤ s.mem_brk ∧ s.mem_brk + 2 * W * j ≤ r + T ∧
      allocBlks pre' = allocBlks bs ∧ pre' <+: bs ∧
      ((∀ q ∈ bs.getLast?, q.free = false) → r = s.mem_brk ∧ pre' = bs) ∧
      (∀ y ∈ fl', y ∈ fl) ∧
      (∀ a, a ≠ B + 2 * W → a + W < r → (∀ y ∈ fl, a ≠ y ∧ a ≠ y + W) →
        s'.mem a = s.mem a) ∧
      s'.heap_listp = s.heap_listp ∧ s'.mem_brk = s.mem_brk + 2 * W * j ∧
      s'.mem_max_addr = s.mem_max_addr := by
  have hW := h0.Wpos
  have hge := h0.brk_ge
  have hb8 : s.mem_brk % 8 = 0 := by
    rw [hbrk]
    exact Shape_end_aligned h0.shape (by have := h0.hB; omega)
  obtain ⟨s4, e1, e2, e3, e4, e5, e6, e7, e8, e9⟩ :=
    extend_heap_eq h0.hW s j hj (by omega) hb8 hle (by rw [hmax]; exact h0.lim)
  have h8 : (2 * W * j) % 8 = 0 := by
    rcases h0.hW with rfl | rfl <;> omega
  have h4 : 4 * W ≤ 2 * W * j := by
    calc 4 * W = 2 * W * 2 := by ring
      _ ≤ 2 * W * j := Nat.mul_le_mul_left _ hj
  rw [hbrk] at e2 e6 e7 e8 e9
  rw [hbrk, hmax] at hle
  have hx := h0.extend s4 (2 * W * j) h8 h4 hle e2 (by rw [e3, hmax]) (by rw [e4, hhl])
    (by rw [e5, hfl]) e6 e7 e8 (fun a ha => by rw [e9 a ha, hmem a ha])
  have hco : CoPre W B s4 bs ⟨s0.mem_brk, 2 * W * j, true⟩ [] fl :=
    ⟨hx, rfl, by simpa [frees] using hperm, hna, List.chain'_nil⟩
  obtain ⟨r, s', pre', post', T, fl', c1, c2, c3, c4, c5, c6, c7, c8, c9, c10, c11, c12, c13,
    c14⟩ := hco.coalesce_spec
  have hpost : post' = [] := List.suffix_nil.1 c8
  subst hpost
  have c3' : r ≤ s0.mem_brk := c3
  have c4' : s0.mem_brk + 2 * W * j ≤ r + T := c4
  have hrm : (⟨r, T, true⟩ : Blk) ∈ pre' ++ [⟨r, T, true⟩] := by simp
  have hrk := c2.heap.blk hrm
  have hr0 : r ≠ 0 := by
    have : B + 8 * W ≤ r := hrk.1
    omega
  rw [hbrk]
  refine ⟨r, s', pre', T, fl', by rw [e1, hbrk]; exact c1, hr0, c2, c3, c4, c5, c7, ?_, c10, ?_,
    by rw [c12, e4], by rw [c13, e2], by rw [c14, e3]⟩
  · intro hq
    exact c9 hq
  · intro a haH ha hcell
    rw [c11 a haH (Or.inl ha) hcell]
    exact e9 a (by omega)

theorem mm_malloc_unfold (W fuel : Nat) (s : State) (n : Nat) (hl : s.heap_listp ≠ 0)
    (hn0 : n ≠ 0) :
    mm_malloc W fuel s n =
      match find_fit W fuel s (adjust W n) with
      | none => none
      | some bp =>
        if bp ≠ 0 then some (bp, place W s bp (adjust W n))
        else
          if (extend_heap W s (MAX (adjust W n) CHUNKSIZE / W)).1 = 0 then
            some (0, (extend_heap W s (MAX (adjust W n) CHUNKSIZE / W)).2)
          else some ((extend_heap W s (MAX (adjust W n) CHUNKSIZE / W)).1,
            place W (extend_heap W s (MAX (adjust W n) CHUNKSIZE / W)).2
              (extend_heap W s (MAX (adjust W n) CHUNKSIZE / W)).1 (adjust W n)) := by
  unfold mm_malloc
  simp only [hl, hn0, if_false]

theorem Inv.heap_listp_ne {W B : Nat} {s : State} {bs : List Blk} {fl : List Nat}
    (h : Inv W B s bs fl) : s.heap_listp ≠ 0 := by
  have hW := h.heap.Wpos
  rw [h.heap.hlp]; omega

/-- `mm_malloc` when the first-fit search finds the block `k`. -/
theorem Inv.mm_malloc_fit {W B : Nat} {s : State} {bs : List Blk} {fl : List Nat}
    (h : Inv W B s bs fl) (n fuel : Nat) (hn0 : n ≠ 0) (hnw : NoWrap W n) {r : Nat}
    (hfind : find_fit W fuel s (adjust W n) = some r) (hr0 : r ≠ 0) {k : Blk} (hk : k ∈ bs)
    (hkf : k.free = true) (hka : k.addr = r) (hks : adjust W n ≤ k.size) :
    mm_malloc W fuel s n = some (r, place W s r (adjust W n)) ∧
      MallocOk W B s bs n r (place W s r (adjust W n)) := by
  have hW := h.heap.Wpos
  obtain ⟨j, hj, haj, han, halt, ha8, ha4⟩ := adjust_spec h.heap.hW n hnw
  have hev : mm_malloc W fuel s n = some (r, place W s r (adjust W n)) := by
    rw [mm_malloc_unfold W fuel s n h.heap_listp_ne hn0, hfind]
    simp only [hr0, ne_eq, not_false_eq_true, if_true]
  refine ⟨hev, ?_⟩
  obtain ⟨pre, post, rfl⟩ := List.append_of_mem hk
  subst hka
  obtain ⟨post', fl', sz, p1, p3, p4, p5, p6, p7, p8, p9⟩ :=
    h.place_spec hkf (adjust W n) ha8 ha4 hks
  refine ⟨hr0, ⟨pre, post', fl', sz, p1, (NoAdj_around_free h.noadj hkf).1, p3, p5⟩, ?_, p7, p9⟩
  intro c hc hca
  have hc' := mem_allocBlks.1 hc
  have := Shape_addr_inj h.heap.shape (by omega) hc'.1 hk hca
  rw [this, hkf] at hc'
  exact Bool.noConfusion hc'.2

/-- `mm_malloc` when no free block fits and the provider grants the extension. -/
theorem Inv.mm_malloc_extend {W B : Nat} {s : State} {bs : List Blk} {fl : List Nat}
    (h : Inv W B s bs fl) (n fuel : Nat) (hn0 : n ≠ 0) (hnw : NoWrap W n)
    (hfind : find_fit W fuel s (adjust W n) = some 0)
    (hle : s.mem_brk + MAX (adjust W n) CHUNKSIZE ≤ s.mem_max_addr) :
    ∃ p s', mm_malloc W fuel s n = some (p, s') ∧ MallocOk W B s bs n p s' := by
  have hW := h.heap.Wpos
  obtain ⟨j, hj, haj, han, halt, ha8, ha4⟩ := adjust_spec h.heap.hW n hnw
  obtain ⟨j', hj', hext, hale⟩ := extendsize_spec h.heap.hW (adjust W n) j hj haj
  rw [hext] at hle
  obtain ⟨r, s1, pre', T, fl1, x1, x2, x3, x4, x5, x6, x7, x8, x9, x10, x11, x12, x13⟩ :=
    extend_spec h.heap h.perm h.noadj rfl rfl rfl rfl (fun _ _ => rfl) j' hj' hle
  have hTle : adjust W n ≤ T := by omega
  obtain ⟨post', fl', sz, p1, p3, p4, p5, p6, p7, p8, p9⟩ :=
    x3.place_spec (k := ⟨r, T, true⟩) rfl (adjust W n) ha8 ha4 hTle
  refine ⟨r, place W s1 r (adjust W n), ?_, x2,
    ⟨pre', post', fl', sz, p1, (NoAdj_around_free x3.noadj rfl).1, p3, ?_⟩, ?_,
    by rw [p7, x11], by rw [p9, x13]⟩
  · rw [mm_malloc_unfold W fuel s n h.heap_listp_ne hn0, hfind, hext, x1]
    simp only [ne_eq, not_true_eq_false, if_false, x2]
  · intro c
    rw [p5 c, allocBlks_append, allocBlks_cons_free _ _ rfl, x6]
    simp [allocBlks]
  · intro c hc hca
    rw [← x6] at hc
    have hc' := (mem_allocBlks.1 hc).1
    obtain ⟨e, g1, g2⟩ := (Shape_append _ _ _ _).1 x3.heap.shape
    have hr : r = e := g2.1
    have := Shape_mem g1 hc'
    omega

/-- `mm_malloc` when no free block fits and the provider refuses the extension. -/
theorem Inv.mm_malloc_refuse {W B : Nat} {s : State} {bs : List Blk} {fl : List Nat}
    (h : Inv W B s bs fl) (n fuel : Nat) (hn0 : n ≠ 0) (hnw : NoWrap W n)
    (hfind : find_fit W fuel s (adjust W n) = some 0)
    (hle : ¬ s.mem_brk + MAX (adjust W n) CHUNKSIZE ≤ s.mem_max_addr) :
    mm_malloc W fuel s n = some (0, s) := by
  obtain ⟨j, hj, haj, han, halt, ha8, ha4⟩ := adjust_spec h.heap.hW n hnw
  obtain ⟨j', hj', hext, hale⟩ := extendsize_spec h.heap.hW (adjust W n) j hj haj
  have hM := WordMod_cases h.heap.hW
  have hlt : 2 * W * j' < WordMod W := by
    rw [← hext]; unfold MAX; rw [CHUNKSIZE_eq]; split <;> omega
  rw [hext] at hle
  have hx := extend_heap_fail h.heap.hW s j' hlt hle
  rw [mm_malloc_unfold W fuel s n h.heap_listp_ne hn0, hfind, hext, hx]
  simp

theorem mm_init_eq (W : Nat) (s : State) (hle : s.mem_brk + 8 * W ≤ s.mem_max_addr)
    (hne : s.mem_brk ≠ SBRK_FAIL W) :
    mm_init W s =
      if (extend_heap W (initMid W s) (CHUNKSIZE / W)).1 = 0 then
        (-1, (extend_heap W (initMid W s) (CHUNKSIZE / W)).2)
      else (0, (extend_heap W (initMid W s) (CHUNKSIZE / W)).2) := by
  unfold mm_init mem_sbrk
  simp only [hle, if_true, hne, if_false]
  rfl

theorem mm_init_refused (W : Nat) (s : State) (hle : ¬ s.mem_brk + 8 * W ≤ s.mem_max_addr) :
    (mm_init W s).1 = -1 := by
  unfold mm_init mem_sbrk
  simp only [hle, if_false, if_true]

theorem boot_ne_fail {W B mx : Nat} (hW : W = 4 ∨ W = 8) (hB : B % 8 = 0) :
    (boot B mx).mem_brk ≠ SBRK_FAIL W := by
  have := WordMod_cases hW
  show B ≠ WordMod W - 1
  rcases hW with rfl | rfl <;> omega

theorem initMid_mem (W B mx a : Nat) :
    (initMid W (boot B mx)).mem a =
      if a = B + 3 * W then PACK 0 1 else if a = B + 2 * W then PACK (DSIZE W) 1
      else if a = B + 1 * W then PACK (DSIZE W) 1 else 0 := by
  simp only [initMid, boot, PUT_mem]
  split_ifs <;> rfl

/-- A well-formed empty heap whose contents agree with the state in which `mm_init`
extends the heap, except for the epilogue word that the extension overwrites. -/
theorem initMid_heap {W B mx : Nat} (hW : W = 4 ∨ W = 8) (hB : B % 8 = 0)
    (hmx : mx < WordMod W) (hle : B + 8 * W ≤ mx) :
    Heap W B (PUT (initMid W (boot B mx)) (B + 7 * W) (PACK 0 1)) [] [] := by
  have hWb : 4 ≤ W ∧ W ≤ 8 := by rcases hW with rfl | rfl <;> omega
  refine
    { hW := hW, hB := hB, lim := hmx, brk_le := hle, hlp := rfl,
      prol := ?_, gap := ?_, shape := rfl, tags := ?_, epi := ?_,
      links := rfl, inside := ?_, sep := ?_, nodup := List.nodup_nil, back := ?_ }
  · rw [PUT_mem, if_neg (by omega), initMid_mem, if_neg (by omega), if_neg (by omega),
      if_pos (by omega)]
  · rw [PUT_mem, if_neg (by omega), initMid_mem, if_neg (by omega), if_neg (by omega),
      if_neg (by omega)]
  · intro b hb; cases hb
  · rw [PUT_mem]
    exact if_pos (by show B + 8 * W - W = B + 7 * W; omega)
  · intro x hx; cases hx
  · intro x hx; cases hx
  · intro l x e
    exact absurd e (by simp)

theorem chunk_words {W : Nat} (hW : W = 4 ∨ W = 8) :
    ∃ j, 2 ≤ j ∧ 2 * W * j = 4096 ∧ CHUNKSIZE / W = 2 * W * j / W := by
  rcases hW with rfl | rfl
  · exact ⟨512, by omega, by omega, by decide⟩
  · exact ⟨256, by omega, by omega, by decide⟩

/-- A successful `mm_init` from the boot state: one free block of 4096 bytes. -/
theorem mm_init_ok {W B mx : Nat} (hW : W = 4 ∨ W = 8) (hB : B % 8 = 0)
    (hmx : mx < WordMod W) (hle : B + 8 * W + 4096 ≤ mx) :
    ∃ s', mm_init W (boot B mx) = (0, s') ∧
      Inv W B s' [⟨B + 8 * W, 4096, true⟩] [B + 8 * W] ∧
      s'.mem_max_addr = mx ∧ s'.mem_brk = B + 8 * W + 4096 := by
  have hWb : 4 ≤ W ∧ W ≤ 8 := by rcases hW with rfl | rfl <;> omega
  obtain ⟨j, hj, hj4, hjw⟩ := chunk_words hW
  have h0 := initMid_heap hW hB hmx (by omega : B + 8 * W ≤ mx)
  have hmem : ∀ a, a + W < (PUT (initMid W (boot B mx)) (B + 7 * W) (PACK 0 1)).mem_brk →
      (initMid W (boot B mx)).mem a =
        (PUT (initMid W (boot B mx)) (B + 7 * W) (PACK 0 1)).mem a := by
    intro a ha
    have ha' : a + W < B + 8 * W := ha
    rw [PUT_mem, if_neg (by omega)]
  obtain ⟨r, s1, pre', T, fl1, x1, x2, x3, x4, x5, x6, x7, x8, x9, x10, x11, x12, x13⟩ :=
    extend_spec (s := initMid W (boot B mx)) h0 (List.Perm.refl _) List.chain'_nil rfl rfl rfl
      rfl hmem j hj (by rw [hj4]; exact hle)
  obtain ⟨hr, hpre⟩ := x8 (by intro q hq; cases hq)
  subst hpre
  have hr' : r = B + 8 * W := hr
  have hbrk : s1.mem_brk = B + 8 * W + 4096 := by rw [x12, hj4]; rfl
  have hT : T = 4096 := by
    have hs := x3.heap.shape
    rw [List.nil_append, Shape_cons, Shape_nil] at hs
    have e : B + 8 * W + T = s1.mem_brk := hs.2.2.2
    omega
  have hfl : fl1 = [] := List.eq_nil_iff_forall_not_mem.2 (fun y hy => by cases x9 y hy)
  subst hT hfl
  refine ⟨s1, ?_, ?_, x13, hbrk⟩
  · rw [mm_init_eq W _ (by show B + 8 * W ≤ mx; omega) (boot_ne_fail hW hB), hjw, x1]
    simp only [x2, if_false]
  · rw [hr'] at x3
    exact x3

/-- The second request of `mm_init` is refused. -/
theorem mm_init_refused2 {W B mx : Nat} (hW : W = 4 ∨ W = 8) (hB : B % 8 = 0)
    (hle1 : B + 8 * W ≤ mx) (hle : ¬ B + 8 * W + 4096 ≤ mx) :
    (mm_init W (boot B mx)).1 = -1 := by
  obtain ⟨j, hj, hj4, hjw⟩ := chunk_words hW
  have hM := WordMod_cases hW
  have hx := extend_heap_fail hW (initMid W (boot B mx)) j
    (by rcases hW with rfl | rfl <;> omega) (by rw [hj4]; exact hle)
  rw [mm_init_eq W _ hle1 (boot_ne_fail hW hB), hjw, hx]
  simp

theorem freeListWalk_spec {W : Nat} (s : State) (H : Nat) (xs : List Nat)
    (hH : GET_ALLOC s (HDRP W H) ≠ 0) :
    ∀ (p c fuel : Nat), LSeg W s.mem p c xs H → (∀ x ∈ xs, GET_ALLOC s (HDRP W x) = 0) →
      freeListWalk W s fuel c = if xs.length < fuel then some xs else none := by
  induction xs with
  | nil =>
    intro p c fuel hl _
    have hc : c = H := hl
    subst hc
    cases fuel with
    | zero => simp [freeListWalk]
    | succ f => simp [freeListWalk, hH]
  | cons x xs ih =>
    intro p c fuel hl ha
    obtain ⟨h1, h2, h3⟩ := hl
    subst h1
    have hx := ha c (List.mem_cons_self _ _)
    cases fuel with
    | zero => simp [freeListWalk]
    | succ f =>
      have := ih c (s.mem (c + W)) f h3 (fun y hy => ha y (List.mem_cons_of_mem _ hy))
      simp only [freeListWalk, hx, if_true, NEXT_PTR, GET, this, List.length_cons,
        Nat.add_lt_add_iff_right]
      split <;> rfl

/-- The free-list walk of a state satisfying the invariant visits exactly `fl`. -/
theorem Inv.freeListWalk_eq {W B : Nat} {s : State} {bs : List Blk} {fl : List Nat}
    (h : Inv W B s bs fl) (fuel : Nat) :
    freeListWalk W s fuel s.free_listp = if fl.length < fuel then some fl else none :=
  freeListWalk_spec s (B + 2 * W) fl h.sentinel_alloc 0 s.free_listp fuel h.heap.links
    h.node_alloc

theorem chainWalk_spec {W B : Nat} {s : State} {bs : List Blk} {fl : List Nat}
    (h : Heap W B s bs fl) :
    ∀ (l2 l1 : List Blk) (a fuel : Nat), bs = l1 ++ l2 → Shape W a l2 s.mem_brk →
      chainWalk W s fuel a =
        if l2.length < fuel then some (l2.map (fun k => k.addr), s.mem_brk) else none := by
  intro l2
  induction l2 with
  | nil =>
    intro l1 a fuel _ hs
    have ha : a = s.mem_brk := hs
    subst ha
    have he : GET_SIZE W s (HDRP W s.mem_brk) = 0 := rd_size_epi W s _ h.epi h.hW
    cases fuel with
    | zero => simp [chainWalk]
    | succ f => simp [chainWalk, he]
  | cons k l2 ih =>
    intro l1 a fuel hbs hs
    obtain ⟨h1, h2, h3, h4⟩ := hs
    subst h1
    have hk : k ∈ bs := by rw [hbs]; simp
    have hW := h.Wpos
    cases fuel with
    | zero => simp [chainWalk]
    | succ f =>
      have hsz := h.rd_hdr_size hk
      have hnx := h.rd_next hk
      have hpos : GET_SIZE W s (HDRP W k.addr) > 0 := by rw [hsz]; omega
      have := ih (l1 ++ [k]) (k.addr + k.size) f (by rw [hbs]; simp) h4
      simp only [chainWalk, hpos, if_true, hnx, this, List.length_cons,
        Nat.add_lt_add_iff_right, List.map_cons]
      split <;> rfl

/-- The chain walk from the first real block visits exactly the blocks of `bs` and stops
at the epilogue. -/
theorem Heap.chainWalk_eq {W B : Nat} {s : State} {bs : List Blk} {fl : List Nat}
    (h : Heap W B s bs fl) (fuel : Nat) :
    chainWalk W s fuel (s.heap_listp + 6 * W) =
      if bs.length < fuel then some (bs.map (fun k => k.addr), s.mem_brk) else none := by
  have e : s.heap_listp + 6 * W = B + 8 * W := by rw [h.hlp]; omega
  rw [e]
  exact chainWalk_spec h bs [] (B + 8 * W) fuel rfl h.shape

theorem find_fit_loop_mono {W : Nat} (s : State) (asize : Nat) :
    ∀ (f f' c r : Nat), f ≤ f' → find_fit_loop W s asize f c = some r →
      find_fit_loop W s asize f' c = some r := by
  intro f
  induction f with
  | zero => intro f' c r _ h; simp [find_fit_loop] at h
  | succ f ih =>
    intro f' c r hle h
    obtain ⟨g, rfl⟩ : ∃ g, f' = g + 1 := ⟨f' - 1, by omega⟩
    simp only [find_fit_loop] at h ⊢
    split_ifs at h ⊢ with h1 h2
    · exact h
    · exact ih g _ r (by omega) h
    · exact h

theorem find_fit_mono {W : Nat} (s : State) (asize f f' r : Nat) (hle : f ≤ f')
    (h : find_fit W f s asize = some r) : find_fit W f' s asize = some r :=
  find_fit_loop_mono s asize f f' _ r hle h

/-- More fuel does not change a result of `mm_malloc`. -/
theorem mm_malloc_mono {W : Nat} (s : State) (n f f' : Nat) (r : Nat × State) (hle : f ≤ f')
    (hl : s.heap_listp ≠ 0) (hn0 : n ≠ 0)
    (h : mm_malloc W f s n = some r) : mm_malloc W f' s n = some r := by
  rw [mm_malloc_unfold W f s n hl hn0] at h
  rw [mm_malloc_unfold W f' s n hl hn0]
  cases hf : find_fit W f s (adjust W n) with
  | none => rw [hf] at h; exact absurd h (by simp)
  | some bp =>
    rw [hf] at h
    rw [find_fit_mono s _ f f' bp hle hf]
    exact h

theorem mm_malloc_zero {W : Nat} (s : State) (fuel : Nat) (hl : s.heap_listp ≠ 0) :
    mm_malloc W fuel s 0 = some (0, s) := by
  unfold mm_malloc
  simp [hl]

/-- When the head of the free list is large enough, the search returns it at once. -/
theorem find_fit_head {W : Nat} (s : State) (asize fuel : Nat) (hf : 0 < fuel)
    (ha : GET_ALLOC s (HDRP W s.free_listp) = 0)
    (hs : asize ≤ GET_SIZE W s (HDRP W s.free_listp)) :
    find_fit W fuel s asize = some s.free_listp := by
  obtain ⟨g, rfl⟩ : ∃ g, fuel = g + 1 := ⟨fuel - 1, by omega⟩
  unfold find_fit
  simp [find_fit_loop, ha, hs]

/-- The two outcomes of `mm_malloc` on a state satisfying the invariant, for a positive
request that does not wrap and enough fuel for the search. -/
theorem Inv.mm_malloc_cases {W B : Nat} {s : State} {bs : List Blk} {fl : List Nat}
    (h : Inv W B s bs fl) (n fuel : Nat) (hn0 : n ≠ 0) (hnw : NoWrap W n)
    (hf : fl.length < fuel) :
    (mm_malloc W fuel s n = some (0, s) ∧
      (∀ k ∈ bs, k.free = true → k.size < adjust W n) ∧
      ¬ s.mem_brk + MAX (adjust W n) CHUNKSIZE ≤ s.mem_max_addr) ∨
    (∃ p s', mm_malloc W fuel s n = some (p, s') ∧ MallocOk W B s bs n p s' ∧
      ((∃ k ∈ bs, k.free = true ∧ adjust W n ≤ k.size) ∨
        s.mem_brk + MAX (adjust W n) CHUNKSIZE ≤ s.mem_max_addr)) := by
  have hfind := h.find_fit_eq (adjust W n) fuel hf
  obtain ⟨r, hr⟩ : ∃ r, r = (fl.find? (fun x =>
      decide (adjust W n ≤ GET_SIZE W s (HDRP W x)))).getD 0 := ⟨_, rfl⟩
  rw [← hr] at hfind
  by_cases hr0 : r = 0
  · subst hr0
    have hno := h.find_fit_none (adjust W n) hr.symm
    by_cases hle : s.mem_brk + MAX (adjust W n) CHUNKSIZE ≤ s.mem_max_addr
    · obtain ⟨p, s', e1, e2⟩ := h.mm_malloc_extend n fuel hn0 hnw hfind hle
      exact Or.inr ⟨p, s', e1, e2, Or.inr hle⟩
    · exact Or.inl ⟨h.mm_malloc_refuse n fuel hn0 hnw hfind hle, hno, hle⟩
  · obtain ⟨k, hk, hkf, hka, hks⟩ := h.find_fit_some (adjust W n) hr.symm hr0
    obtain ⟨e1, e2⟩ := h.mm_malloc_fit n fuel hn0 hnw hfind hr0 hk hkf hka hks
    exact Or.inr ⟨r, _, e1, e2, Or.inl ⟨k, hk, hkf, hks⟩⟩

theorem RInv.init {W B mx : Nat} (he : Env W B mx) (h : (mm_init W (boot B mx)).1 = 0) :
    RInv W B mx (mm_init W (boot B mx)).2 [] := by
  obtain ⟨hW, hB, hmx⟩ := he
  by_cases hle : B + 8 * W + 4096 ≤ mx
  · obtain ⟨s', e1, e2, e3, e4⟩ := mm_init_ok hW hB hmx hle
    rw [e1]
    exact ⟨_, _, e2, e3, ⟨fun pn hpn => absurd hpn (List.not_mem_nil pn), List.nodup_nil⟩⟩
  · exfalso
    by_cases hle1 : B + 8 * W ≤ mx
    · have := mm_init_refused2 hW hB hle1 hle
      rw [this] at h
      exact absurd h (by decide)
    · have := mm_init_refused W (boot B mx) hle1
      rw [this] at h
      exact absurd h (by decide)

theorem LiveOk.fst_ne {W : Nat} {bs : List Blk} {live : List (Nat × Nat)} {p : Nat}
    (hl : LiveOk W bs live) (hfresh : ∀ c ∈ allocBlks bs, c.addr ≠ p) :
    p ∉ live.map Prod.fst := by
  intro hp
  obtain ⟨pn, hpn, e⟩ := List.mem_map.1 hp
  obtain ⟨k, hk, hka, _⟩ := hl.1 pn hpn
  exact hfresh k hk (by rw [hka, e])

theorem RInv.malloc {W B mx : Nat} {s s' : State} {live : List (Nat × Nat)}
    {fuel n p : Nat} (h : RInv W B mx s live) (hnw : NoWrap W n)
    (hm : mm_malloc W fuel s n = some (p, s')) :
    RInv W B mx s' (if p = 0 then live else (p, n) :: live) := by
  obtain ⟨bs, fl, hinv, hmax, hlive⟩ := h
  by_cases hn0 : n = 0
  · subst hn0
    rw [mm_malloc_zero s fuel hinv.heap_listp_ne] at hm
    simp only [Option.some.injEq, Prod.mk.injEq] at hm
    obtain ⟨rfl, rfl⟩ := hm
    simp only [if_true]
    exact ⟨bs, fl, hinv, hmax, hlive⟩
  · have hm' := mm_malloc_mono s n fuel (max fuel (fl.length + 1)) _ (le_max_left _ _)
      hinv.heap_listp_ne hn0 hm
    rcases hinv.mm_malloc_cases n _ hn0 hnw
      (lt_of_lt_of_le (Nat.lt_succ_self _) (le_max_right fuel _)) with ⟨e, _, _⟩ | ⟨q, t, e, ok, _⟩
    · rw [e] at hm'
      simp only [Option.some.injEq, Prod.mk.injEq] at hm'
      obtain ⟨rfl, rfl⟩ := hm'
      simp only [if_true]
      exact ⟨bs, fl, hinv, hmax, hlive⟩
    · rw [e] at hm'
      simp only [Option.some.injEq, Prod.mk.injEq] at hm'
      obtain ⟨rfl, rfl⟩ := hm'
      rw [if_neg ok.ne]
      obtain ⟨pre, post, fl', sz, i1, i2, i3, i4⟩ := ok.post
      have hW := hinv.heap.Wpos
      obtain ⟨j, hj, haj, han, halt, ha8, ha4⟩ := adjust_spec hinv.heap.hW n hnw
      refine ⟨_, fl', i1, by rw [ok.max, hmax], ?_, ?_⟩
      · intro pn hpn
        rcases List.mem_cons.1 hpn with rfl | hpn
        · exact ⟨⟨q, sz, false⟩, (i4 _).2 (Or.inr rfl), rfl, by show n + 2 * W ≤ sz; omega⟩
        · obtain ⟨k, hk, hka, hks⟩ := hlive.1 pn hpn
          exact ⟨k, (i4 _).2 (Or.inl hk), hka, hks⟩
      · rw [List.map_cons, List.nodup_cons]
        exact ⟨hlive.fst_ne ok.fresh, hlive.2⟩

theorem LiveOk.split {W : Nat} {bs : List Blk} {live : List (Nat × Nat)} {p n : Nat}
    (hl : LiveOk W bs live) (hp : (p, n) ∈ live) :
    ∃ pre k post, bs = pre ++ k :: post ∧ k.addr = p ∧ k.free = false ∧ n + 2 * W ≤ k.size := by
  obtain ⟨k, hk, hka, hks⟩ := hl.1 _ hp
  obtain ⟨hkm, hkf⟩ := mem_allocBlks.1 hk
  obtain ⟨pre, post, rfl⟩ := List.append_of_mem hkm
  exact ⟨pre, k, post, rfl, hka, hkf, hks⟩

theorem nodup_fst_erase {live : List (Nat × Nat)} {p n : Nat}
    (hnd : (live.map Prod.fst).Nodup) (hp : (p, n) ∈ live) {q : Nat × Nat}
    (hq : q ∈ live.erase (p, n)) : q ∈ live ∧ q.1 ≠ p := by
  have hq1 := List.mem_of_mem_erase hq
  refine ⟨hq1, ?_⟩
  intro e
  have hnd' : live.Nodup := List.Nodup.of_map _ hnd
  have hne : q ≠ (p, n) := ((List.Nodup.mem_erase_iff hnd').1 hq).1
  exact hne (List.inj_on_of_nodup_map hnd hq1 hp (by rw [e]))

theorem RInv.free {W B mx : Nat} {s : State} {live : List (Nat × Nat)} {p n : Nat}
    (h : RInv W B mx s live) (hp : (p, n) ∈ live) :
    RInv W B mx (mm_free W s p) (live.erase (p, n)) := by
  obtain ⟨bs, fl, hinv, hmax, hlive⟩ := h
  obtain ⟨pre, k, post, rfl, hka, hkf, hks⟩ := hlive.split hp
  subst hka
  obtain ⟨r, pre', post', T, fl', f1, f2, f3, f4, f5, f6, f7, f8, f9, f10, f11, f12, f13⟩ :=
    hinv.mm_free_spec hkf
  refine ⟨_, _, f1, by rw [f13, hmax], ?_, ?_⟩
  · intro q hq
    obtain ⟨hq1, hq2⟩ := nodup_fst_erase hlive.2 hp hq
    obtain ⟨c, hc, hca, hcs⟩ := hlive.1 q hq1
    refine ⟨c, ?_, hca, hcs⟩
    rw [allocBlks_append, allocBlks_cons_alloc k post hkf] at hc
    rw [allocBlks_append, allocBlks_cons_free _ _ rfl, f4, f5]
    rcases List.mem_append.1 hc with hc | hc
    · exact List.mem_append_left _ hc
    · rcases List.mem_cons.1 hc with rfl | hc
      · exact absurd hca (Ne.symm hq2)
      · exact List.mem_append_right _ hc
  · exact (List.Nodup.sublist ((List.erase_sublist _ _).map _) hlive.2)

/-- Every reachable state satisfies the invariant. -/
theorem Reach.rinv {W B mx : Nat} (he : Env W B mx) {s : State} {live : List (Nat × Nat)}
    (h : Reach W B mx s live) : RInv W B mx s live := by
  induction h with
  | init h0 => exact RInv.init he h0
  | malloc _ hnw hm ih => exact ih.malloc hnw hm
  | free _ hp ih => exact ih.free hp

/-- The adjusted size is a multiple of a doubleword for every request, wrapping or not. -/
theorem adjust_mult {W : Nat} (hW : W = 4 ∨ W = 8) (n : Nat) :
    ∃ j, adjust W n = 2 * W * j ∧ adjust W n < WordMod W := by
  have hM := WordMod_cases hW
  unfold adjust DSIZE
  split
  · refine ⟨2, by ring, ?_⟩
    rcases hW with rfl | rfl <;> omega
  · have hpos : 0 < WordMod W := by rcases hW with rfl | rfl <;> omega
    have hdvd : 2 * W ∣ WordMod W := by
      rcases hW with rfl | rfl
      · exact ⟨2 ^ 29, by unfold WordMod; norm_num⟩
      · exact ⟨2 ^ 60, by unfold WordMod; norm_num⟩
    obtain ⟨j, hj⟩ : 2 * W ∣ (2 * W * (((n + 2 * W + (2 * W - 1)) % WordMod W) / (2 * W)))
        % WordMod W := (Nat.dvd_mod_iff hdvd).2 (Dvd.intro _ rfl)
    exact ⟨j, hj, Nat.mod_lt _ hpos⟩

theorem extendsize_mult {W : Nat} (hW : W = 4 ∨ W = 8) (asize j : Nat)
    (ha : asize = 2 * W * j) :
    ∃ j', 2 ≤ j' ∧ MAX asize CHUNKSIZE = 2 * W * j' := by
  unfold MAX
  rw [CHUNKSIZE_eq]
  by_cases hgt : asize > 4096
  · rw [if_pos hgt]
    refine ⟨j, ?_, ha⟩
    by_contra hj
    have hj' : j ≤ 1 := by omega
    have : 2 * W * j ≤ 2 * W * 1 := Nat.mul_le_mul_left _ hj'
    rcases hW with rfl | rfl <;> omega
  · rw [if_neg hgt]
    refine ⟨2048 / W, ?_, ?_⟩ <;> rcases hW with rfl | rfl <;> omega

/-- Every non-null pointer returned by `mm_malloc` on a state satisfying the invariant is
8-byte aligned, for every request size. -/
theorem Inv.malloc_ptr_aligned {W B : Nat} {s : State} {bs : List Blk} {fl : List Nat}
    (h : Inv W B s bs fl) (n fuel p : Nat) (s' : State)
    (hm : mm_malloc W fuel s n = some (p, s')) (hp : p ≠ 0) : p % 8 = 0 := by
  by_cases hn0 : n = 0
  · subst hn0
    rw [mm_malloc_zero s fuel h.heap_listp_ne] at hm
    simp only [Option.some.injEq, Prod.mk.injEq] at hm
    exact absurd hm.1.symm hp
  · have hm' := mm_malloc_mono s n fuel (max fuel (fl.length + 1)) _ (le_max_left _ _)
      h.heap_listp_ne hn0 hm
    have hfind := h.find_fit_eq (adjust W n) (max fuel (fl.length + 1))
      (lt_of_lt_of_le (Nat.lt_succ_self _) (le_max_right fuel _))
    obtain ⟨r, hr⟩ : ∃ r, r = (fl.find? (fun x =>
        decide (adjust W n ≤ GET_SIZE W s (HDRP W x)))).getD 0 := ⟨_, rfl⟩
    rw [← hr] at hfind
    rw [mm_malloc_unfold W _ s n h.heap_listp_ne hn0, hfind] at hm'
    by_cases hr0 : r = 0
    · subst hr0
      obtain ⟨j, haj, halt⟩ := adjust_mult h.heap.hW n
      obtain ⟨j', hj', hext⟩ := extendsize_mult h.heap.hW (adjust W n) j haj
      simp only [ne_eq, not_true_eq_false, if_false, hext] at hm'
      by_cases hle : s.mem_brk + 2 * W * j' ≤ s.mem_max_addr
      · obtain ⟨r, s1, pre', T, fl1, x1, x2, x3, _⟩ :=
          extend_spec h.heap h.perm h.noadj rfl rfl rfl rfl (fun _ _ => rfl) j' hj' hle
        rw [x1] at hm'
        simp only [x2, if_false, Option.some.injEq, Prod.mk.injEq] at hm'
        rw [← hm'.1]
        exact (x3.heap.blk (b := ⟨r, T, true⟩) (by simp)).2.2.2.2.2
      · have hM := WordMod_cases h.heap.hW
        have hlim := h.heap.lim
        have hlt : 2 * W * j' < WordMod W := by
          rw [← hext]; unfold MAX; rw [CHUNKSIZE_eq]
          split <;> rcases h.heap.hW with rfl | rfl <;> omega
        rw [extend_heap_fail h.heap.hW s j' hlt hle] at hm'
        simp only [if_true, Option.some.injEq, Prod.mk.injEq] at hm'
        exact absurd hm'.1.symm hp
    · simp only [ne_eq, hr0, not_false_eq_true, if_true, Option.some.injEq,
        Prod.mk.injEq] at hm'
      obtain ⟨k, hk, _, hka, _⟩ := h.find_fit_some (adjust W n) hr.symm hr0
      rw [← hm'.1, ← hka]
      exact (h.heap.blk hk).2.2.2.2.2

/-- Header allocated bits along the chain never show two free neighbours. -/
theorem chain_noadj {W : Nat} (s : State) :
    ∀ l : List Blk, (∀ k ∈ l, GET_ALLOC s (HDRP W k.addr) = if k.free then 0 else 1) →
      NoAdj l →
      List.Chain' (fun x y => ¬ (GET_ALLOC s (HDRP W x) = 0 ∧ GET_ALLOC s (HDRP W y) = 0))
        (l.map (fun k => k.addr)) := by
  intro l
  induction l with
  | nil => intro _ _; exact List.chain'_nil
  | cons a l ih =>
    intro hrd hna
    cases l with
    | nil => exact List.chain'_singleton _
    | cons b l =>
      have hna' : NoAdj (b :: l) := NoAdj_tail hna
      have hab : ¬ (a.free = true ∧ b.free = true) := by
        unfold NoAdj at hna
        exact (List.chain'_cons.1 hna).1
      rw [List.map_cons, List.map_cons, List.chain'_cons]
      refine ⟨?_, ih (fun k hk => hrd k (List.mem_cons_of_mem _ hk)) hna'⟩
      rw [hrd a (List.mem_cons_self _ _), hrd b (List.mem_cons_of_mem _ (List.mem_cons_self _ _))]
      intro hc
      apply hab
      constructor
      · by_contra hf
        simp [hf] at hc
      · by_contra hf
        simp [hf] at hc

/-- When the head of the free list is a block of at least the adjusted size, `mm_malloc`
returns it for any positive fuel. -/
theorem Inv.malloc_head {W B : Nat} {s : State} {bs : List Blk} {fl : List Nat} {r T : Nat}
    (h : Inv W B s bs (r :: fl)) (hk : (⟨r, T, true⟩ : Blk) ∈ bs) (n : Nat) (hn0 : n ≠ 0)
    (hle : adjust W n ≤ T) (fuel : Nat) (hf : 0 < fuel) :
    mm_malloc W fuel s n = some (r, place W s r (adjust W n)) := by
  have hW := h.heap.Wpos
  have hkk := h.heap.blk hk
  have hr0 : r ≠ 0 := by
    have : B + 8 * W ≤ r := hkk.1
    omega
  have hfl : s.free_listp = r := h.heap.links.1
  have ha : GET_ALLOC s (HDRP W s.free_listp) = 0 := by
    rw [hfl]; exact h.heap.rd_hdr_alloc hk
  have hs : adjust W n ≤ GET_SIZE W s (HDRP W s.free_listp) := by
    rw [hfl, show r = (Blk.mk r T true).addr from rfl, h.heap.rd_hdr_size hk]; exact hle
  rw [mm_malloc_unfold W fuel s n h.heap_listp_ne hn0, find_fit_head s _ fuel hf ha hs, hfl]
  simp only [ne_eq, hr0, not_false_eq_true, if_true]

theorem mem_sbrk_fail_iff {W B : Nat} {s : State} {bs : List Blk} {fl : List Nat}
    (h : Heap W B s bs fl) (incr : Nat) :
    (mem_sbrk W s incr).1 = SBRK_FAIL W ↔ ¬ s.mem_brk + incr ≤ s.mem_max_addr := by
  have hM := WordMod_cases h.hW
  have hb8 : s.mem_brk % 8 = 0 :=
    Shape_end_aligned h.shape (by have := h.hB; omega)
  unfold mem_sbrk SBRK_FAIL
  by_cases hle : s.mem_brk + incr ≤ s.mem_max_addr
  · rw [if_pos hle]
    simp only [hle, not_true_eq_false, iff_false]
    rcases h.hW with rfl | rfl <;> omega
  · rw [if_neg hle]
    simp [hle]

theorem getD_eq_some (r : Option (Nat × State)) (d : Nat × State) (p : Nat)
    (h1 : r.isSome = true) (h2 : (r.getD d).1 = p) : r = some (p, (r.getD d).2) := by
  cases r with
  | none => simp at h1
  | some x => subst h2; rfl

theorem demo_env : Env 4 8 100000 := ⟨Or.inl rfl, by decide, by decide⟩

theorem demo_nowrap : NoWrap 4 24 := by unfold NoWrap; decide

theorem demo1_eq : mm_malloc 4 8 demo0 24 = some (40, demo1) :=
  getD_eq_some _ _ 40 (by decide) (by decide)

theorem demo2_eq : mm_malloc 4 8 demo1 24 = some (72, demo2) :=
  getD_eq_some _ _ 72 (by decide) (by decide)

theorem demo0_reach : Reach 4 8 100000 demo0 [] := Reach.init (by decide)

theorem demo1_reach : Reach 4 8 100000 demo1 [(40, 24)] :=
  Reach.malloc demo0_reach demo_nowrap demo1_eq

theorem demo2_reach : Reach 4 8 100000 demo2 [(72, 24), (40, 24)] :=
  Reach.malloc demo1_reach demo_nowrap demo2_eq

/-- A successful `mm_malloc` on a reachable state, for a positive request that does not
wrap. -/
theorem RInv.malloc_ok {W B mx : Nat} {s s' : State} {live : List (Nat × Nat)}
    {fuel n p : Nat} (h : RInv W B mx s live) (hn0 : n ≠ 0) (hnw : NoWrap W n)
    (hm : mm_malloc W fuel s n = some (p, s')) (hp : p ≠ 0) :
    ∃ bs fl, Inv W B s bs fl ∧ MallocOk W B s bs n p s' := by
  obtain ⟨bs, fl, hinv, _, _⟩ := h
  have hm' := mm_malloc_mono s n fuel (max fuel (fl.length + 1)) _ (le_max_left _ _)
    hinv.heap_listp_ne hn0 hm
  rcases hinv.mm_malloc_cases n _ hn0 hnw
    (lt_of_lt_of_le (Nat.lt_succ_self _) (le_max_right fuel _)) with ⟨e, _, _⟩ | ⟨q, t, e, ok, _⟩
  · rw [e] at hm'
    simp only [Option.some.injEq, Prod.mk.injEq] at hm'
    exact absurd hm'.1.symm hp
  · rw [e] at hm'
    simp only [Option.some.injEq, Prod.mk.injEq] at hm'
    obtain ⟨rfl, rfl⟩ := hm'
    exact ⟨bs, fl, hinv, ok⟩

/-- For requests that do not wrap, a non-null result of `mm_malloc` is a block marked
allocated whose usable size is at least the request. -/
theorem mm_malloc_usable {W B mx : Nat} (he : Env W B mx) {s s' : State}
    {live : List (Nat × Nat)} (hr : Reach W B mx s live) {fuel n p : Nat} (hnw : NoWrap W n)
    (hm : mm_malloc W fuel s n = some (p, s')) (hp : p ≠ 0) :
    GET_ALLOC s' (HDRP W p) = 1 ∧ n ≤ GET_SIZE W s' (HDRP W p) - DSIZE W := by
  have hri := hr.rinv he
  have hn0 : n ≠ 0 := by
    rintro rfl
    obtain ⟨bs, fl, hinv, _, _⟩ := hri
    rw [mm_malloc_zero s fuel hinv.heap_listp_ne] at hm
    simp only [Option.some.injEq, Prod.mk.injEq] at hm
    exact hp hm.1.symm
  obtain ⟨bs, fl, hinv, ok⟩ := hri.malloc_ok hn0 hnw hm hp
  obtain ⟨pre, post, fl', sz, i1, i2, i3, i4⟩ := ok.post
  obtain ⟨j, hj, haj, han, halt, ha8, ha4⟩ := adjust_spec hinv.heap.hW n hnw
  have hk : (⟨p, sz, false⟩ : Blk) ∈ pre ++ ⟨p, sz, false⟩ :: post := by simp
  have e1 := i1.heap.rd_hdr_alloc hk
  have e2 := i1.heap.rd_hdr_size hk
  simp only at e1 e2
  rw [e2]
  refine ⟨e1, ?_⟩
  unfold DSIZE
  omega

/-- Claim C1 (the code departs from it): on a 32-bit platform, right after `mm_init`, the
request `mm_malloc(2^32 - 1)` returns the non-null pointer 40 to a block that is marked
allocated and whose header size is 8, so that its usable size is 0 and not at least the
request: the size adjustment wraps. -/
theorem mm_malloc_wrapped_request :
    ∃ s', mm_malloc 4 8 demo0 (2 ^ 32 - 1) = some (40, s') ∧
      GET_ALLOC s' (HDRP 4 40) = 1 ∧ GET_SIZE 4 s' (HDRP 4 40) = 8 ∧
      GET_SIZE 4 s' (HDRP 4 40) - DSIZE 4 < 2 ^ 32 - 1 :=
  ⟨_, getD_eq_some _ (0, demo0) 40 (by decide) (by decide), by decide, by decide, by decide⟩

/-- Alignment in runs without a wrapped request (the states of `Reach`, whose earlier
requests all satisfy `NoWrap`): when the first address of the provider is 8-byte aligned,
every non-null pointer returned by `mm_malloc`, for any request size, is a multiple
of 8. -/
theorem mm_malloc_aligned {W B mx : Nat} (he : Env W B mx) {s s' : State}
    {live : List (Nat × Nat)} (hr : Reach W B mx s live) (n fuel p : Nat)
    (hm : mm_malloc W fuel s n = some (p, s')) (hp : p ≠ 0) : p % 8 = 0 := by
  obtain ⟨bs, fl, hinv, _, _⟩ := hr.rinv he
  exact hinv.malloc_ptr_aligned n fuel p s' hm hp

/-- Claim C3: in every reachable state the walk by header sizes from the first real block
ends at the epilogue, and no two consecutive blocks of that walk both have allocated
bit 0. -/
theorem no_adjacent_free_blocks {W B mx : Nat} (he : Env W B mx) {s : State}
    {live : List (Nat × Nat)} (hr : Reach W B mx s live) :
    ∃ chain, (∀ fuel, chain.length < fuel →
        chainWalk W s fuel (s.heap_listp + 6 * W) = some (chain, s.mem_brk)) ∧
      GET s (HDRP W s.mem_brk) = PACK 0 1 ∧
      List.Chain' (fun x y => ¬ (GET_ALLOC s (HDRP W x) = 0 ∧ GET_ALLOC s (HDRP W y) = 0))
        chain := by
  obtain ⟨bs, fl, hinv, _, _⟩ := hr.rinv he
  refine ⟨bs.map (fun k => k.addr), ?_, hinv.heap.epi, ?_⟩
  · intro fuel hf
    rw [hinv.heap.chainWalk_eq fuel, if_pos (by simpa using hf)]
  · exact chain_noadj s bs (fun k hk => hinv.heap.rd_hdr_alloc hk) hinv.noadj

/-- Claim C4: in every reachable state the nodes visited by the free-list walk from
`free_listp` are exactly the blocks of the chain whose header has allocated bit 0, and no
node is visited twice. -/
theorem free_list_eq_free_blocks {W B mx : Nat} (he : Env W B mx) {s : State}
    {live : List (Nat × Nat)} (hr : Reach W B mx s live) :
    ∃ chain fl, (∀ fuel, chain.length < fuel →
        chainWalk W s fuel (s.heap_listp + 6 * W) = some (chain, s.mem_brk)) ∧
      (∀ fuel, fl.length < fuel → freeListWalk W s fuel s.free_listp = some fl) ∧
      fl.Nodup ∧ (∀ x, x ∈ fl ↔ x ∈ chain ∧ GET_ALLOC s (HDRP W x) = 0) := by
  obtain ⟨bs, fl, hinv, _, _⟩ := hr.rinv he
  refine ⟨bs.map (fun k => k.addr), fl, ?_, ?_, hinv.heap.nodup, ?_⟩
  · intro fuel hf
    rw [hinv.heap.chainWalk_eq fuel, if_pos (by simpa using hf)]
  · intro fuel hf
    rw [hinv.freeListWalk_eq fuel, if_pos hf]
  · intro x
    constructor
    · intro hx
      obtain ⟨k, hk, hkf, rfl⟩ := hinv.nodes x hx
      refine ⟨List.mem_map.2 ⟨k, hk, rfl⟩, ?_⟩
      rw [hinv.heap.rd_hdr_alloc hk, hkf]
      rfl
    · rintro ⟨hx, ha⟩
      obtain ⟨k, hk, rfl⟩ := List.mem_map.1 hx
      rw [hinv.heap.rd_hdr_alloc hk] at ha
      have hkf : k.free = true := by
        by_contra hf
        simp [hf] at ha
      exact hinv.mem_fl hk hkf

/-- Releasing an allocated block whose predecessor is not free and allocating again a
request whose adjusted size fits returns the block. -/
theorem Inv.free_malloc {W B : Nat} {s : State} {pre post : List Blk} {k : Blk}
    {fl : List Nat} (h : Inv W B s (pre ++ k :: post) fl) (hkf : k.free = false)
    (hprev : ∀ q ∈ pre.getLast?, q.free = false) (n : Nat) (hn0 : n ≠ 0)
    (hle : adjust W n ≤ k.size) (fuel : Nat) (hf : 0 < fuel) :
    ∃ s', mm_malloc W fuel (mm_free W s k.addr) n = some (k.addr, s') := by
  obtain ⟨r, pre', post', T, fl', f1, f2, f3, f4, f5, f6, f7, f8, _⟩ := h.mm_free_spec hkf
  obtain ⟨hr, _⟩ := f8 hprev
  subst hr
  exact ⟨_, f1.malloc_head (T := T) (by simp) n hn0 (by omega) fuel hf⟩

/-- Round trip in runs without a wrapped request (the states of `Reach`): when
`mm_malloc(n)` for a positive request that does not wrap returns a non-null pointer `p`,
then `mm_free(p)` followed at once by `mm_malloc(n)` returns `p` again. -/
theorem malloc_free_malloc {W B mx : Nat} (he : Env W B mx) {s s1 : State}
    {live : List (Nat × Nat)} (hr : Reach W B mx s live) (n f1 p : Nat) (hn : 0 < n)
    (hnw : NoWrap W n) (hm : mm_malloc W f1 s n = some (p, s1)) (hp : p ≠ 0)
    (f2 : Nat) (hf2 : 0 < f2) :
    ∃ s2, mm_malloc W f2 (mm_free W s1 p) n = some (p, s2) := by
  obtain ⟨bs, fl, hinv, ok⟩ := (hr.rinv he).malloc_ok (by omega) hnw hm hp
  obtain ⟨pre, post, fl', sz, i1, i2, i3, i4⟩ := ok.post
  exact i1.free_malloc rfl i2 n (by omega) i3 f2 hf2

/-- Reuse in runs without a wrapped request (the states of `Reach`): for a live pointer
`a` such that every block of the chain before it is allocated, and a positive request `m`
whose adjusted size is at most the size of the block of `a`, `mm_free(a)` followed at once
by `mm_malloc(m)` returns `a`. -/
theorem free_malloc_reuses {W B mx : Nat} (he : Env W B mx) {s : State}
    {live : List (Nat × Nat)} (hr : Reach W B mx s live) (a n : Nat) (ha : (a, n) ∈ live)
    (chain : List Nat) (e fuel0 : Nat)
    (hc : chainWalk W s fuel0 (s.heap_listp + 6 * W) = some (chain, e))
    (hfree : ∀ x ∈ chain, x < a → GET_ALLOC s (HDRP W x) ≠ 0)
    (m : Nat) (hm : 0 < m) (hle : adjust W m ≤ GET_SIZE W s (HDRP W a))
    (fuel : Nat) (hf : 0 < fuel) :
    ∃ s', mm_malloc W fuel (mm_free W s a) m = some (a, s') := by
  obtain ⟨bs, fl, hinv, _, hlive⟩ := hr.rinv he
  obtain ⟨pre, k, post, rfl, hka, hkf, hks⟩ := hlive.split ha
  subst hka
  have hkm : k ∈ pre ++ k :: post := by simp
  rw [hinv.heap.rd_hdr_size hkm] at hle
  have hW := hinv.heap.Wpos
  have hchain : chain = (pre ++ k :: post).map (fun b => b.addr) := by
    rw [hinv.heap.chainWalk_eq fuel0] at hc
    split at hc
    · simp only [Option.some.injEq, Prod.mk.injEq] at hc
      exact hc.1.symm
    · exact absurd hc (by simp)
  have hprev : ∀ q ∈ pre.getLast?, q.free = false := by
    intro q hq
    have hqp : q ∈ pre := List.mem_of_mem_getLast? hq
    have hqm : q ∈ pre ++ k :: post := List.mem_append_left _ hqp
    obtain ⟨c, g1, g2⟩ := (Shape_append _ _ _ _).1 hinv.heap.shape
    have hq1 := Shape_mem g1 hqp
    have hq2 := hinv.heap.blk hqm
    have hkc : k.addr = c := g2.1
    have hlt : q.addr < k.addr := by omega
    have := hfree q.addr (by rw [hchain]; exact List.mem_map.2 ⟨q, hqm, rfl⟩) hlt
    rw [hinv.heap.rd_hdr_alloc hqm] at this
    by_contra hf'
    simp [hf'] at this
  exact hinv.free_malloc hkf hprev m (by omega) hle fuel hf

/-- Null results in runs without a wrapped request (the states of `Reach`): for a positive
request that does not wrap and fuel that suffices for the free-list walk, `mm_malloc`
returns; the result is null exactly when
no node of the free list has a size of at least the adjusted size and the provider refuses
the request of `MAX(asize, CHUNKSIZE)` bytes; a non-null result is the payload pointer of a
block whose header is marked allocated and which is not a node of the free list. -/
theorem mm_malloc_null_iff {W B mx : Nat} (he : Env W B mx) {s : State}
    {live : List (Nat × Nat)} (hr : Reach W B mx s live) (n : Nat) (hn : 0 < n)
    (hnw : NoWrap W n) (fl : List Nat) (fuel : Nat)
    (hfl : freeListWalk W s fuel s.free_listp = some fl) :
    ∃ p s', mm_malloc W fuel s n = some (p, s') ∧
      (p = 0 ↔ ((∀ x ∈ fl, GET_SIZE W s (HDRP W x) < adjust W n) ∧
        (mem_sbrk W s (MAX (adjust W n) CHUNKSIZE)).1 = SBRK_FAIL W)) ∧
      (p ≠ 0 → GET_ALLOC s' (HDRP W p) = 1 ∧
        ∀ fl' f', freeListWalk W s' f' s'.free_listp = some fl' → p ∉ fl') := by
  obtain ⟨bs, fl0, hinv, _, _⟩ := hr.rinv he
  have hwalk := hinv.freeListWalk_eq fuel
  rw [hfl] at hwalk
  have hlen : fl0.length < fuel := by
    by_contra hc
    rw [if_neg hc] at hwalk
    exact absurd hwalk (by simp)
  rw [if_pos hlen] at hwalk
  simp only [Option.some.injEq] at hwalk
  subst hwalk
  have hsb := mem_sbrk_fail_iff hinv.heap (MAX (adjust W n) CHUNKSIZE)
  rcases hinv.mm_malloc_cases n fuel (by omega) hnw hlen with
    ⟨e, hno, href⟩ | ⟨q, t, e, ok, hyes⟩
  · refine ⟨0, s, e, ?_, fun h0 => absurd rfl h0⟩
    refine ⟨fun _ => ⟨?_, hsb.2 href⟩, fun _ => rfl⟩
    intro x hx
    obtain ⟨k, hk, hkf, rfl⟩ := hinv.nodes x hx
    rw [hinv.heap.rd_hdr_size hk]
    exact hno k hk hkf
  · refine ⟨q, t, e, ?_, fun _ => ?_⟩
    · refine ⟨fun h0 => absurd h0 ok.ne, ?_⟩
      rintro ⟨hall, hfail⟩
      exfalso
      rcases hyes with ⟨k, hk, hkf, hks⟩ | hgr
      · have := hall k.addr (hinv.mem_fl hk hkf)
        rw [hinv.heap.rd_hdr_size hk] at this
        omega
      · exact (hsb.1 hfail) hgr
    · obtain ⟨pre, post, fl', sz, i1, i2, i3, i4⟩ := ok.post
      have hk : (⟨q, sz, false⟩ : Blk) ∈ pre ++ ⟨q, sz, false⟩ :: post := by simp
      refine ⟨i1.heap.rd_hdr_alloc hk, ?_⟩
      intro l f' hl
      have hw := i1.freeListWalk_eq f'
      rw [hl] at hw
      split at hw
      · simp only [Option.some.injEq] at hw
        subst hw
        exact i1.node_not_alloc hk rfl
      · exact absurd hw (by simp)

/-- Claim C8 (as stated it fails): before any initialisation, `mm_malloc(0)` returns null
only after running `mm_init`; on a 32-bit platform with region start 8 it moves the
provider's break from 8 to 4136 and sets `heap_listp` to 16 and `free_listp` to 40. -/
theorem mm_malloc_zero_before_init :
    ∃ s', mm_malloc 4 1 (boot 8 100000) 0 = some (0, s') ∧
      (boot 8 100000).heap_listp = 0 ∧ s'.heap_listp = 16 ∧
      (boot 8 100000).free_listp = 0 ∧ s'.free_listp = 40 ∧
      (boot 8 100000).mem_brk = 8 ∧ s'.mem_brk = 4136 ∧
      (boot 8 100000).mem 12 = 0 ∧ s'.mem 12 = 9 :=
  ⟨_, getD_eq_some _ (0, boot 8 100000) 0 (by decide) (by decide), by decide, by decide,
    by decide, by decide, by decide, by decide, by decide, by decide⟩

/-- Claim C8 (amended): in every state in which `heap_listp` is not null, `mm_malloc(0)`
returns null and leaves the whole state, the provider's included, unchanged. -/
theorem mm_malloc_zero_initialised (W fuel : Nat) (s : State) (h : s.heap_listp ≠ 0) :
    mm_malloc W fuel s 0 = some (0, s) :=
  mm_malloc_zero s fuel h

/-- The effect of `mm_free` in runs without a wrapped request (the states of `Reach`):
`mm_free(NULL)` changes nothing; and after `mm_free(p)` for a live pointer `p`, the head `r` of the free list is a block of the chain whose header
and footer both hold the same size `T` with allocated bit 0 and whose extent contains the
former block of `p`. -/
theorem mm_free_head {W B mx : Nat} (he : Env W B mx) {s : State}
    {live : List (Nat × Nat)} (hr : Reach W B mx s live) (p n : Nat) (hp : (p, n) ∈ live) :
    (∀ t : State, mm_free W t 0 = t) ∧
    ∃ r T chain, (mm_free W s p).free_listp = r ∧
      GET (mm_free W s p) (HDRP W r) = PACK T 0 ∧
      GET (mm_free W s p) (FTRP W (mm_free W s p) r) = PACK T 0 ∧
      GET_SIZE W (mm_free W s p) (HDRP W r) = T ∧
      GET_ALLOC (mm_free W s p) (HDRP W r) = 0 ∧
      r ≤ p ∧ p + GET_SIZE W s (HDRP W p) ≤ r + T ∧
      (∀ fuel, chain.length < fuel →
        chainWalk W (mm_free W s p) fuel ((mm_free W s p).heap_listp + 6 * W) =
          some (chain, (mm_free W s p).mem_brk)) ∧
      r ∈ chain ∧
      (∀ fuel l, freeListWalk W (mm_free W s p) fuel (mm_free W s p).free_listp = some l →
        l.head? = some r) := by
  refine ⟨fun t => by unfold mm_free; simp, ?_⟩
  obtain ⟨bs, fl, hinv, _, hlive⟩ := hr.rinv he
  obtain ⟨pre, k, post, rfl, hka, hkf, hks⟩ := hlive.split hp
  subst hka
  have hkm : k ∈ pre ++ k :: post := by simp
  obtain ⟨r, pre', post', T, fl', f1, f2, f3, _⟩ := hinv.mm_free_spec hkf
  have hR : (⟨r, T, true⟩ : Blk) ∈ pre' ++ ⟨r, T, true⟩ :: post' := by simp
  have htag := f1.heap.tags _ hR
  have hftr := f1.heap.rd_ftr hR
  simp only [Blk.tag_free] at htag
  simp only at hftr
  refine ⟨r, T, (pre' ++ ⟨r, T, true⟩ :: post').map (fun b => b.addr), f1.heap.links.1, ?_, ?_,
    f1.heap.rd_hdr_size hR, f1.heap.rd_hdr_alloc hR, f2, ?_, ?_, ?_, ?_⟩
  · rw [PACK_zero]; exact htag.1
  · rw [PACK_zero, hftr]; exact htag.2
  · rw [hinv.heap.rd_hdr_size hkm]; exact f3
  · intro fuel hf
    rw [f1.heap.chainWalk_eq fuel, if_pos (by simpa using hf)]
  · exact List.mem_map.2 ⟨_, hR, rfl⟩
  · intro fuel l hl
    have hw := f1.freeListWalk_eq fuel
    rw [hl] at hw
    split at hw
    · simp only [Option.some.injEq] at hw
      subst hw
      rfl
    · exact absurd hw (by simp)

/-- Claim C10 (as stated it fails): on a 32-bit platform with region start 8, after a
successful `mm_init` the walk by header sizes from the prologue visits the prologue only:
it stops at the pointer 24, whose header is the word at 20 written by `mm_init` as the
first epilogue, not the last word of the heap at 4132, and it never visits the free block
at 40 that the free list holds. -/
theorem chain_from_prologue_stops_early :
    (mm_init 4 (boot 8 100000)).1 = 0 ∧
      chainWalk 4 demo0 8 demo0.heap_listp = some ([16], 24) ∧
      HDRP 4 24 = 20 ∧ demo0.mem_brk - 4 = 4132 ∧
      freeListWalk 4 demo0 8 demo0.free_listp = some [40] ∧
      GET demo0 (HDRP 4 40) = PACK 4096 0 := by
  refine ⟨by decide, by decide, by decide, by decide, by decide, by decide⟩

theorem boot_sbrk_fail_iff {W B mx : Nat} (he : Env W B mx) (brk incr : Nat)
    (hb : brk % 8 = 0) (s : State) (hs : s.mem_brk = brk) (hm : s.mem_max_addr = mx) :
    (mem_sbrk W s incr).1 = SBRK_FAIL W ↔ ¬ brk + incr ≤ mx := by
  obtain ⟨hW, hB, hmx⟩ := he
  have hM := WordMod_cases hW
  unfold mem_sbrk SBRK_FAIL
  rw [hs, hm]
  by_cases hle : brk + incr ≤ mx
  · rw [if_pos hle]
    simp only [hle, not_true_eq_false, iff_false]
    rcases hW with rfl | rfl <;> omega
  · rw [if_neg hle]
    simp [hle]

/-- Claim C10 (amended): `mm_init` on the boot state reports failure exactly when the
provider refuses one of its two requests; when it succeeds, the prologue header holds size
`DSIZE` with allocated bit 1, the walk by header sizes from the first real block (six words
after `heap_listp`) visits exactly one block, whose header holds size `CHUNKSIZE` with
allocated bit 0, and stops at the epilogue, whose header `PACK(0, 1)` is the last word of
the heap; and the free list holds exactly that block. -/
theorem mm_init_spec {W B mx : Nat} (he : Env W B mx) :
    ((mm_init W (boot B mx)).1 = -1 ↔
      ((mem_sbrk W (boot B mx) (8 * W)).1 = SBRK_FAIL W ∨
        (mem_sbrk W (initMid W (boot B mx)) CHUNKSIZE).1 = SBRK_FAIL W)) ∧
    ((mm_init W (boot B mx)).1 = 0 ∨ (mm_init W (boot B mx)).1 = -1) ∧
    ((mm_init W (boot B mx)).1 = 0 →
      GET (mm_init W (boot B mx)).2 (HDRP W (mm_init W (boot B mx)).2.heap_listp) =
        PACK (DSIZE W) 1 ∧
      GET (mm_init W (boot B mx)).2 (HDRP W ((mm_init W (boot B mx)).2.heap_listp + 6 * W)) =
        PACK CHUNKSIZE 0 ∧
      GET (mm_init W (boot B mx)).2 ((mm_init W (boot B mx)).2.mem_brk - W) = PACK 0 1 ∧
      ∀ fuel, 1 < fuel →
        chainWalk W (mm_init W (boot B mx)).2 fuel
            ((mm_init W (boot B mx)).2.heap_listp + 6 * W) =
          some ([(mm_init W (boot B mx)).2.heap_listp + 6 * W],
            (mm_init W (boot B mx)).2.mem_brk) ∧
        freeListWalk W (mm_init W (boot B mx)).2 fuel (mm_init W (boot B mx)).2.free_listp =
          some [(mm_init W (boot B mx)).2.heap_listp + 6 * W]) := by
  have he' := he
  obtain ⟨hW, hB, hmx⟩ := he
  have hWb : 4 ≤ W ∧ W ≤ 8 := by rcases hW with rfl | rfl <;> omega
  have h1 := boot_sbrk_fail_iff he' B (8 * W) hB (boot B mx) rfl rfl
  have h2 := boot_sbrk_fail_iff he' (B + 8 * W) CHUNKSIZE (by omega) (initMid W (boot B mx))
    rfl rfl
  rw [CHUNKSIZE_eq] at h2
  by_cases hle : B + 8 * W + 4096 ≤ mx
  · obtain ⟨s', e1, e2, e3, e4⟩ := mm_init_ok hW hB hmx hle
    rw [e1]
    refine ⟨?_, Or.inl rfl, fun _ => ?_⟩
    · constructor
      · intro h
        have h' : (0 : Int) = -1 := h
        exact absurd h' (by decide)
      · rw [CHUNKSIZE_eq]
        rintro (h | h)
        · exact absurd (by omega) (h1.1 h)
        · exact absurd hle (h2.1 h)
    · have hF : (⟨B + 8 * W, 4096, true⟩ : Blk) ∈ [(⟨B + 8 * W, 4096, true⟩ : Blk)] := by simp
      have htag := e2.heap.tags _ hF
      simp only [Blk.tag_free] at htag
      have hl : s'.heap_listp + 6 * W = B + 8 * W := by rw [e2.heap.hlp]; omega
      have hp : HDRP W s'.heap_listp = B + W := by
        rw [e2.heap.hlp]; unfold HDRP; omega
      show GET s' (HDRP W s'.heap_listp) = _ ∧ GET s' (HDRP W (s'.heap_listp + 6 * W)) = _ ∧
        GET s' (s'.mem_brk - W) = _ ∧ ∀ fuel, 1 < fuel →
          chainWalk W s' fuel (s'.heap_listp + 6 * W) =
            some ([s'.heap_listp + 6 * W], s'.mem_brk) ∧
          freeListWalk W s' fuel s'.free_listp = some [s'.heap_listp + 6 * W]
      refine ⟨?_, ?_, e2.heap.epi, ?_⟩
      · rw [hp]; exact e2.heap.prol
      · rw [hl, CHUNKSIZE_eq, PACK_zero]; exact htag.1
      · intro fuel hf
        rw [e2.heap.chainWalk_eq fuel, e2.freeListWalk_eq fuel, hl]
        simp [hf]
  · have hfail : (mm_init W (boot B mx)).1 = -1 := by
      by_cases hle1 : B + 8 * W ≤ mx
      · exact mm_init_refused2 hW hB hle1 hle
      · exact mm_init_refused W (boot B mx) hle1
    refine ⟨⟨fun _ => ?_, fun _ => hfail⟩, Or.inr hfail, fun h => ?_⟩
    · rw [CHUNKSIZE_eq]
      exact Or.inr (h2.2 hle)
    · rw [hfail] at h
      exact absurd h (by decide)

/-- Instance of `mm_malloc_aligned`: the first allocation after `mm_init`. -/
theorem mm_malloc_aligned_witness :
    Env 4 8 100000 ∧ Reach 4 8 100000 demo0 [] ∧
      mm_malloc 4 8 demo0 24 = some (40, demo1) ∧ 40 ≠ 0 ∧ 40 % 8 = 0 :=
  ⟨demo_env, demo0_reach, demo1_eq, by decide,
    mm_malloc_aligned demo_env demo0_reach 24 8 40 demo1_eq (by decide)⟩

/-- Instance of `no_adjacent_free_blocks`: the state after two allocations. -/
theorem no_adjacent_free_blocks_witness :
    Env 4 8 100000 ∧ Reach 4 8 100000 demo2 [(72, 24), (40, 24)] ∧
      ∃ chain, (∀ fuel, chain.length < fuel →
          chainWalk 4 demo2 fuel (demo2.heap_listp + 6 * 4) = some (chain, demo2.mem_brk)) ∧
        GET demo2 (HDRP 4 demo2.mem_brk) = PACK 0 1 ∧
        List.Chain'
          (fun x y => ¬ (GET_ALLOC demo2 (HDRP 4 x) = 0 ∧ GET_ALLOC demo2 (HDRP 4 y) = 0))
          chain :=
  ⟨demo_env, demo2_reach, no_adjacent_free_blocks demo_env demo2_reach⟩

/-- Instance of `free_list_eq_free_blocks`: the state after two allocations. -/
theorem free_list_eq_free_blocks_witness :
    Env 4 8 100000 ∧ Reach 4 8 100000 demo2 [(72, 24), (40, 24)] ∧
      ∃ chain fl, (∀ fuel, chain.length < fuel →
          chainWalk 4 demo2 fuel (demo2.heap_listp + 6 * 4) = some (chain, demo2.mem_brk)) ∧
        (∀ fuel, fl.length < fuel → freeListWalk 4 demo2 fuel demo2.free_listp = some fl) ∧
        fl.Nodup ∧ (∀ x, x ∈ fl ↔ x ∈ chain ∧ GET_ALLOC demo2 (HDRP 4 x) = 0) :=
  ⟨demo_env, demo2_reach, free_list_eq_free_blocks demo_env demo2_reach⟩

/-- Instance of `malloc_free_malloc`: `a = mm_malloc(24)` after `mm_init`, then
`mm_free(a)` and `mm_malloc(24)`. -/
theorem malloc_free_malloc_witness :
    Env 4 8 100000 ∧ Reach 4 8 100000 demo0 [] ∧ 0 < 24 ∧ NoWrap 4 24 ∧
      mm_malloc 4 8 demo0 24 = some (40, demo1) ∧ 40 ≠ 0 ∧ 0 < 1 ∧
      ∃ s2, mm_malloc 4 1 (mm_free 4 demo1 40) 24 = some (40, s2) :=
  ⟨demo_env, demo0_reach, by decide, demo_nowrap, demo1_eq, by decide, by decide,
    malloc_free_malloc demo_env demo0_reach 24 8 40 (by decide) demo_nowrap demo1_eq
      (by decide) 1 (by decide)⟩

/-- Instance of `free_malloc_reuses`, the scenario `mm_init(); a = mm_malloc(24);
b = mm_malloc(24); mm_free(a); c = mm_malloc(16)`: here `a = 40`, `b = 72` and `c = a`. -/
theorem free_malloc_reuses_witness :
    Env 4 8 100000 ∧ mm_malloc 4 8 demo0 24 = some (40, demo1) ∧
      mm_malloc 4 8 demo1 24 = some (72, demo2) ∧
      Reach 4 8 100000 demo2 [(72, 24), (40, 24)] ∧ (40, 24) ∈ [(72, 24), (40, 24)] ∧
      chainWalk 4 demo2 8 (demo2.heap_listp + 6 * 4) = some ([40, 72, 104], 4136) ∧
      (∀ x ∈ [40, 72, 104], x < 40 → GET_ALLOC demo2 (HDRP 4 x) ≠ 0) ∧
      0 < 16 ∧ adjust 4 16 ≤ GET_SIZE 4 demo2 (HDRP 4 40) ∧ 0 < 1 ∧
      ∃ s', mm_malloc 4 1 (mm_free 4 demo2 40) 16 = some (40, s') :=
  ⟨demo_env, demo1_eq, demo2_eq, demo2_reach, by decide, by decide, by decide, by decide,
    by decide, by decide,
    free_malloc_reuses demo_env demo2_reach 40 24 (by decide) [40, 72, 104] 4136 8
      (by decide) (by decide) 16 (by decide) (by decide) 1 (by decide)⟩

/-- Instance of `mm_malloc_null_iff`: the first allocation after `mm_init`. -/
theorem mm_malloc_null_iff_witness :
    Env 4 8 100000 ∧ Reach 4 8 100000 demo0 [] ∧ 0 < 24 ∧ NoWrap 4 24 ∧
      freeListWalk 4 demo0 8 demo0.free_listp = some [40] ∧
      ∃ p s', mm_malloc 4 8 demo0 24 = some (p, s') ∧
        (p = 0 ↔ ((∀ x ∈ [40], GET_SIZE 4 demo0 (HDRP 4 x) < adjust 4 24) ∧
          (mem_sbrk 4 demo0 (MAX (adjust 4 24) CHUNKSIZE)).1 = SBRK_FAIL 4)) ∧
        (p ≠ 0 → GET_ALLOC s' (HDRP 4 p) = 1 ∧
          ∀ fl' f', freeListWalk 4 s' f' s'.free_listp = some fl' → p ∉ fl') :=
  ⟨demo_env, demo0_reach, by decide, demo_nowrap, by decide,
    mm_malloc_null_iff demo_env demo0_reach 24 (by decide) demo_nowrap [40] 8 (by decide)⟩

/-- Instance of `mm_malloc_zero_initialised`: the state after `mm_init`. -/
theorem mm_malloc_zero_initialised_witness :
    demo0.heap_listp ≠ 0 ∧ mm_malloc 4 1 demo0 0 = some (0, demo0) :=
  ⟨by decide, mm_malloc_zero_initialised 4 1 demo0 (by decide)⟩

/-- Instance of `mm_free_head`: releasing the first allocation. -/
theorem mm_free_head_witness :
    Env 4 8 100000 ∧ Reach 4 8 100000 demo1 [(40, 24)] ∧ (40, 24) ∈ [(40, 24)] ∧
      ((∀ t : State, mm_free 4 t 0 = t) ∧
      ∃ r T chain, (mm_free 4 demo1 40).free_listp = r ∧
        GET (mm_free 4 demo1 40) (HDRP 4 r) = PACK T 0 ∧
        GET (mm_free 4 demo1 40) (FTRP 4 (mm_free 4 demo1 40) r) = PACK T 0 ∧
        GET_SIZE 4 (mm_free 4 demo1 40) (HDRP 4 r) = T ∧
        GET_ALLOC (mm_free 4 demo1 40) (HDRP 4 r) = 0 ∧
        r ≤ 40 ∧ 40 + GET_SIZE 4 demo1 (HDRP 4 40) ≤ r + T ∧
        (∀ fuel, chain.length < fuel →
          chainWalk 4 (mm_free 4 demo1 40) fuel ((mm_free 4 demo1 40).heap_listp + 6 * 4) =
            some (chain, (mm_free 4 demo1 40).mem_brk)) ∧
        r ∈ chain ∧
        (∀ fuel l,
          freeListWalk 4 (mm_free 4 demo1 40) fuel (mm_free 4 demo1 40).free_listp = some l →
          l.head? = some r)) :=
  ⟨demo_env, demo1_reach, by decide, mm_free_head demo_env demo1_reach 40 24 (by decide)⟩

/-- Instance of `mm_init_spec`: a 32-bit platform with the region from 8 to 100000. -/
theorem mm_init_spec_witness :
    Env 4 8 100000 ∧
    (((mm_init 4 (boot 8 100000)).1 = -1 ↔
      ((mem_sbrk 4 (boot 8 100000) (8 * 4)).1 = SBRK_FAIL 4 ∨
        (mem_sbrk 4 (initMid 4 (boot 8 100000)) CHUNKSIZE).1 = SBRK_FAIL 4)) ∧
    ((mm_init 4 (boot 8 100000)).1 = 0 ∨ (mm_init 4 (boot 8 100000)).1 = -1) ∧
    ((mm_init 4 (boot 8 100000)).1 = 0 →
      GET (mm_init 4 (boot 8 100000)).2 (HDRP 4 (mm_init 4 (boot 8 100000)).2.heap_listp) =
        PACK (DSIZE 4) 1 ∧
      GET (mm_init 4 (boot 8 100000)).2
          (HDRP 4 ((mm_init 4 (boot 8 100000)).2.heap_listp + 6 * 4)) =
        PACK CHUNKSIZE 0 ∧
      GET (mm_init 4 (boot 8 100000)).2 ((mm_init 4 (boot 8 100000)).2.mem_brk - 4) =
        PACK 0 1 ∧
      ∀ fuel, 1 < fuel →
        chainWalk 4 (mm_init 4 (boot 8 100000)).2 fuel
            ((mm_init 4 (boot 8 100000)).2.heap_listp + 6 * 4) =
          some ([(mm_init 4 (boot 8 100000)).2.heap_listp + 6 * 4],
            (mm_init 4 (boot 8 100000)).2.mem_brk) ∧
        freeListWalk 4 (mm_init 4 (boot 8 100000)).2 fuel
            (mm_init 4 (boot 8 100000)).2.free_listp =
          some [(mm_init 4 (boot 8 100000)).2.heap_listp + 6 * 4])) :=
  ⟨demo_env, mm_init_spec demo_env⟩

theorem demoA_eq : mm_malloc 4 8 demo0 4000 = some (40, demoA) :=
  getD_eq_some _ _ 40 (by decide) (by decide)

theorem demoB_eq : mm_malloc 4 8 demoA 4000 = some (4048, demoB) :=
  getD_eq_some _ _ 4048 (by decide) (by decide)

/-- Claim C11 (the code departs from it): in the scenario `mm_init(); a = mm_malloc(4000);
b = mm_malloc(4000)` on a 32-bit platform, `b` is non-null after a heap extension, the
block chain and the free list are healthy, and still `checkheap` reports the error
"Come across an allocated block in the free list." and returns: its first loop runs until
the next link is null, so it steps onto the prologue sentinel, whose header is allocated.
The same happens right after `mm_init`. -/
theorem checkheap_reports_on_healthy_heap :
    mm_malloc 4 8 demo0 4000 = some (40, demoA) ∧
      mm_malloc 4 8 demoA 4000 = some (4048, demoB) ∧
      demoA.mem_brk = 4136 ∧ demoB.mem_brk = 8232 ∧
      chainWalk 4 demoB 16 (demoB.heap_listp + 6 * 4) = some ([40, 4048, 8056], 8232) ∧
      freeListWalk 4 demoB 16 demoB.free_listp = some [8056] ∧
      NEXT_PTR 4 demoB 8056 = demoB.heap_listp ∧ NEXT_PTR 4 demoB demoB.heap_listp = 1 ∧
      GET_ALLOC demoB (HDRP 4 demoB.heap_listp) = 1 ∧
      checkheap 4 16 demoB = some [Msg.allocated_in_free_list] ∧
      checkheap 4 16 demo0 = some [Msg.allocated_in_free_list] :=
  ⟨demoA_eq, demoB_eq, by decide, by decide, by decide, by decide, by decide, by decide,
    by decide, by decide, by decide⟩

/-- Claim C12 (as stated it fails): on a 64-bit platform (`WSIZE = 8`, `DSIZE = 16`) the
adjusted size of a request of one byte is 32 bytes, two doublewords, not 16 bytes. -/
theorem adjust_small_request_64 :
    (1 : Nat) ≤ DSIZE 8 ∧ NoWrap 8 1 ∧ adjust 8 1 = 32 ∧ adjust 8 1 = 2 * DSIZE 8 ∧
      adjust 8 1 ≠ 16 := by
  refine ⟨by decide, by unfold NoWrap; decide, by decide, by decide, by decide⟩

/-- Claim C12 (amended): for a positive request that does not wrap, the adjusted size is
the least multiple of `DSIZE` that is at least `n + DSIZE`; it is `2 * DSIZE` (16 bytes
when `WSIZE` is 4, 32 bytes when `WSIZE` is 8) for every `n ≤ DSIZE` and never smaller. -/
theorem adjust_least_multiple {W : Nat} (hW : W = 4 ∨ W = 8) (n : Nat) (hn : 0 < n)
    (hnw : NoWrap W n) :
    DSIZE W ∣ adjust W n ∧ n + DSIZE W ≤ adjust W n ∧
      (∀ m, DSIZE W ∣ m → n + DSIZE W ≤ m → adjust W n ≤ m) ∧
      (n ≤ DSIZE W → adjust W n = 2 * DSIZE W) ∧ 2 * DSIZE W ≤ adjust W n ∧
      (W = 4 → 2 * DSIZE W = 16) ∧ (W = 8 → 2 * DSIZE W = 32) := by
  have hM := WordMod_cases hW
  have hD : 0 < DSIZE W := by unfold DSIZE; rcases hW with rfl | rfl <;> omega
  have hDW : DSIZE W ≤ 16 := by unfold DSIZE; rcases hW with rfl | rfl <;> omega
  unfold NoWrap at hnw
  have hlt : DSIZE W * ((n + DSIZE W + (DSIZE W - 1)) / DSIZE W) < WordMod W :=
    lt_of_le_of_lt (Nat.mul_div_le _ _) hnw
  have hadj : adjust W n = if n ≤ DSIZE W then 2 * DSIZE W
      else DSIZE W * ((n + DSIZE W + (DSIZE W - 1)) / DSIZE W) := by
    unfold adjust
    split
    · rfl
    · rw [Nat.mod_eq_of_lt hnw, Nat.mod_eq_of_lt hlt]
  have hdiv := Nat.div_add_mod (n + DSIZE W + (DSIZE W - 1)) (DSIZE W)
  have hmod := Nat.mod_lt (n + DSIZE W + (DSIZE W - 1)) hD
  refine ⟨?_, ?_, ?_, ?_, ?_, fun h => by subst h; rfl, fun h => by subst h; rfl⟩
  · rw [hadj]; split
    · exact Dvd.intro_left _ rfl
    · exact Dvd.intro _ rfl
  · rw [hadj]; split <;> omega
  · intro m hm hle
    obtain ⟨c, rfl⟩ := hm
    rw [hadj]; split
    · have hc : 2 ≤ c := by
        by_contra hc
        have : c ≤ 1 := by omega
        have := Nat.mul_le_mul_left (DSIZE W) this
        omega
      calc 2 * DSIZE W = DSIZE W * 2 := by ring
        _ ≤ DSIZE W * c := Nat.mul_le_mul_left _ hc
    · apply Nat.mul_le_mul_left
      by_contra hc
      have hc' : c + 1 ≤ (n + DSIZE W + (DSIZE W - 1)) / DSIZE W := by omega
      have := Nat.mul_le_mul_left (DSIZE W) hc'
      rw [Nat.mul_add] at this
      omega
  · intro hle
    rw [hadj, if_pos hle]
  · rw [hadj]; split
    · exact le_refl _
    · rename_i hgt
      have h2 : 2 ≤ (n + DSIZE W + (DSIZE W - 1)) / DSIZE W := by
        rw [Nat.le_div_iff_mul_le hD]
        omega
      calc 2 * DSIZE W = DSIZE W * 2 := by ring
        _ ≤ _ := Nat.mul_le_mul_left _ h2

/-- Instance of `adjust_least_multiple`: a request of 24 bytes on the 32-bit platform. -/
theorem adjust_least_multiple_witness :
    (4 = 4 ∨ 4 = 8) ∧ 0 < 24 ∧ NoWrap 4 24 ∧
      (DSIZE 4 ∣ adjust 4 24 ∧ 24 + DSIZE 4 ≤ adjust 4 24 ∧
      (∀ m, DSIZE 4 ∣ m → 24 + DSIZE 4 ≤ m → adjust 4 24 ≤ m) ∧
      (24 ≤ DSIZE 4 → adjust 4 24 = 2 * DSIZE 4) ∧ 2 * DSIZE 4 ≤ adjust 4 24 ∧
      (4 = 4 → 2 * DSIZE 4 = 16) ∧ (4 = 8 → 2 * DSIZE 4 = 32)) :=
  ⟨Or.inl rfl, by decide, demo_nowrap,
    adjust_least_multiple (Or.inl rfl) 24 (by decide) demo_nowrap⟩

theorem find_fit_loop_walk {W : Nat} (s : State) (asize : Nat) :
    ∀ (fuel c : Nat) (fl : List Nat), freeListWalk W s fuel c = some fl →
      find_fit_loop W s asize fuel c =
        some ((fl.find? (fun x => decide (asize ≤ GET_SIZE W s (HDRP W x)))).getD 0) := by
  intro fuel
  induction fuel with
  | zero => intro c fl h; simp [freeListWalk] at h
  | succ f ih =>
    intro c fl h
    simp only [freeListWalk] at h
    by_cases ha : GET_ALLOC s (HDRP W c) = 0
    · rw [if_pos ha] at h
      cases hw : freeListWalk W s f (NEXT_PTR W s c) with
      | none => rw [hw] at h; simp at h
      | some l =>
        rw [hw] at h
        simp only [Option.map_some', Option.some.injEq] at h
        subst h
        by_cases hfit : asize ≤ GET_SIZE W s (HDRP W c)
        · simp [find_fit_loop, ha, hfit]
        · simp [find_fit_loop, ha, hfit, ih _ _ hw]
    · rw [if_neg ha] at h
      simp only [Option.some.injEq] at h
      subst h
      simp [find_fit_loop, ha]

/-- Claim C13: for a free list whose walk from `free_listp` visits the non-null nodes
`fl`, `find_fit` returns the first node of `fl` whose size is at least `asize`, and null
exactly when no node is that large.  (The embedding of `find_fit` has no state result: the
function writes neither memory nor a global.) -/
theorem find_fit_first_fit {W : Nat} (s : State) (fuel : Nat) (fl : List Nat)
    (hw : freeListWalk W s fuel s.free_listp = some fl) (h0 : ∀ x ∈ fl, x ≠ 0)
    (asize : Nat) :
    ∃ r, find_fit W fuel s asize = some r ∧
      (r = 0 ↔ ∀ x ∈ fl, GET_SIZE W s (HDRP W x) < asize) ∧
      (r ≠ 0 → ∃ l1 l2, fl = l1 ++ r :: l2 ∧ asize ≤ GET_SIZE W s (HDRP W r) ∧
        ∀ x ∈ l1, GET_SIZE W s (HDRP W x) < asize) := by
  have hf := find_fit_loop_walk s asize fuel s.free_listp fl hw
  refine ⟨_, hf, ?_, ?_⟩
  · cases hfind : fl.find? (fun x => decide (asize ≤ GET_SIZE W s (HDRP W x))) with
    | none =>
      simp only [Option.getD_none, true_iff]
      intro x hx
      have := List.find?_eq_none.1 hfind x hx
      simpa using this
    | some y =>
      have hy := List.mem_of_find?_eq_some hfind
      have hp := List.find?_some hfind
      simp only [Option.getD_some]
      constructor
      · intro e; exact absurd e (h0 y hy)
      · intro hall
        have := hall y hy
        simp at hp
        omega
  · intro hr
    cases hfind : fl.find? (fun x => decide (asize ≤ GET_SIZE W s (HDRP W x))) with
    | none => rw [hfind] at hr; exact absurd rfl hr
    | some y =>
      simp only [Option.getD_some]
      obtain ⟨hp, l1, l2, e, hl1⟩ := List.find?_eq_some.1 hfind
      refine ⟨l1, l2, e, by simpa using hp, ?_⟩
      intro x hx
      have := hl1 x hx
      simpa using this

/-- Instance of `find_fit_first_fit`: the free list after two allocations and the release
of the first one, searched for a block of 24 bytes. -/
theorem find_fit_first_fit_witness :
    freeListWalk 4 (mm_free 4 demo2 40) 8 (mm_free 4 demo2 40).free_listp = some [40, 104] ∧
      (∀ x ∈ [40, 104], x ≠ 0) ∧
      ∃ r, find_fit 4 8 (mm_free 4 demo2 40) 40 = some r ∧
        (r = 0 ↔ ∀ x ∈ [40, 104], GET_SIZE 4 (mm_free 4 demo2 40) (HDRP 4 x) < 40) ∧
        (r ≠ 0 → ∃ l1 l2, [40, 104] = l1 ++ r :: l2 ∧
          40 ≤ GET_SIZE 4 (mm_free 4 demo2 40) (HDRP 4 r) ∧
          ∀ x ∈ l1, GET_SIZE 4 (mm_free 4 demo2 40) (HDRP 4 x) < 40) :=
  ⟨by decide, by decide,
    find_fit_first_fit (mm_free 4 demo2 40) 8 [40, 104] (by decide) (by decide) 40⟩

/-- A null result of `mm_malloc` on a state satisfying the invariant leaves the state as
it was, for every request size. -/
theorem Inv.malloc_null_state {W B : Nat} {s : State} {bs : List Blk} {fl : List Nat}
    (h : Inv W B s bs fl) (n fuel : Nat) (s' : State)
    (hm : mm_malloc W fuel s n = some (0, s')) : s' = s := by
  by_cases hn0 : n = 0
  · subst hn0
    rw [mm_malloc_zero s fuel h.heap_listp_ne] at hm
    simp only [Option.some.injEq, Prod.mk.injEq] at hm
    exact hm.2.symm
  · have hm' := mm_malloc_mono s n fuel (max fuel (fl.length + 1)) _ (le_max_left _ _)
      h.heap_listp_ne hn0 hm
    have hfind := h.find_fit_eq (adjust W n) (max fuel (fl.length + 1))
      (lt_of_lt_of_le (Nat.lt_succ_self _) (le_max_right fuel _))
    obtain ⟨r, hr⟩ : ∃ r, r = (fl.find? (fun x =>
        decide (adjust W n ≤ GET_SIZE W s (HDRP W x)))).getD 0 := ⟨_, rfl⟩
    rw [← hr] at hfind
    rw [mm_malloc_unfold W _ s n h.heap_listp_ne hn0, hfind] at hm'
    by_cases hr0 : r = 0
    · subst hr0
      obtain ⟨j, haj, halt⟩ := adjust_mult h.heap.hW n
      obtain ⟨j', hj', hext⟩ := extendsize_mult h.heap.hW (adjust W n) j haj
      simp only [ne_eq, not_true_eq_false, if_false, hext] at hm'
      by_cases hle : s.mem_brk + 2 * W * j' ≤ s.mem_max_addr
      · obtain ⟨r, s1, pre', T, fl1, x1, x2, x3, _⟩ :=
          extend_spec h.heap h.perm h.noadj rfl rfl rfl rfl (fun _ _ => rfl) j' hj' hle
        rw [x1] at hm'
        simp only [x2, if_false, Option.some.injEq, Prod.mk.injEq] at hm'
        exact hm'.1.elim
      · have hM := WordMod_cases h.heap.hW
        have hlim := h.heap.lim
        have hlt : 2 * W * j' < WordMod W := by
          rw [← hext]; unfold MAX; rw [CHUNKSIZE_eq]
          split <;> rcases h.heap.hW with rfl | rfl <;> omega
        rw [extend_heap_fail h.heap.hW s j' hlt hle] at hm'
        simp only [if_true, Option.some.injEq, Prod.mk.injEq] at hm'
        exact hm'.2.symm
    · simp only [ne_eq, hr0, not_false_eq_true, if_true, Option.some.injEq,
        Prod.mk.injEq] at hm'
      exact hm'.1.elim

/-- Claim C19: in a reachable state, when `mm_malloc(n)` returns null, which for `n > 0`
happens only when no free block fits and the provider refuses the extension, the whole
state (memory, `heap_listp`, `free_listp` and the provider's break) is the state before
the call. -/
theorem mm_malloc_null_unchanged {W B mx : Nat} (he : Env W B mx) {s : State}
    {live : List (Nat × Nat)} (hr : Reach W B mx s live) (n fuel : Nat)
    (s' : State) (hm : mm_malloc W fuel s n = some (0, s')) : s' = s := by
  obtain ⟨bs, fl, hinv, _, _⟩ := hr.rinv he
  exact hinv.malloc_null_state n fuel s' hm

/-- Instance of `mm_malloc_null_unchanged`: a provider whose limit 4200 leaves room for
the initial heap only; `mm_malloc(5000)` finds no fit and the extension is refused. -/
theorem mm_malloc_null_unchanged_witness :
    Env 4 8 4200 ∧ Reach 4 8 4200 demoS [] ∧
      mm_malloc 4 8 demoS 5000 =
        some (0, ((mm_malloc 4 8 demoS 5000).getD (1, demoS)).2) ∧
      ((mm_malloc 4 8 demoS 5000).getD (1, demoS)).2 = demoS :=
  ⟨⟨Or.inl rfl, by decide, by decide⟩, Reach.init (by decide),
    getD_eq_some _ (1, demoS) 0 (by decide) (by decide),
    mm_malloc_null_unchanged ⟨Or.inl rfl, by decide, by decide⟩ (Reach.init (by decide))
      5000 8 _ (getD_eq_some _ (1, demoS) 0 (by decide) (by decide))⟩

/-- Claim C16: on a well-formed free list `L`, `freeList_push` of a fresh block `b` makes
the list `b :: L` with a null previous link and the old head as next link of `b`;
`freeList_pop` of any node `x` of `L` (head, last or only node alike) makes the list `L`
without `x`, the others in their order; and a pop after the push of `b` restores `L`. -/
theorem freeList_push_pop {W : Nat} (hW : 0 < W) (s : State) (L : List Nat) (H b : Nat)
    (hok : FreeListOk W s L H) (hb : FreshNode W L H b) :
    LSeg W (freeList_push W s b).mem 0 (freeList_push W s b).free_listp (b :: L) H ∧
      PREV_PTR (freeList_push W s b) b = 0 ∧
      NEXT_PTR W (freeList_push W s b) b = s.free_listp ∧
      (∀ x ∈ L, LSeg W (freeList_pop W s x).mem 0 (freeList_pop W s x).free_listp
        (L.erase x) H) ∧
      LSeg W (freeList_pop W (freeList_push W s b) b).mem 0
        (freeList_pop W (freeList_push W s b) b).free_listp L H := by
  obtain ⟨hl, hnd, hn, hsep⟩ := hok
  obtain ⟨hb0, hbH, hbWH, hbL⟩ := hb
  have hpush := push_LSeg hW s L H b hl hnd ⟨hbH, hbWH⟩ hbL hsep
  have hbn : b ∉ L := fun h => (hbL b h).1 rfl
  refine ⟨hpush, ?_, ?_, ?_, ?_⟩
  · show (freeList_push W s b).mem b = 0
    rw [freeList_push_mem, if_pos rfl]
  · show (freeList_push W s b).mem (b + W) = s.free_listp
    have e1 : b + W ≠ b := by omega
    have hhead := LSeg_head hl
    have e2 : b + W ≠ s.free_listp := by
      rw [hhead]
      cases L with
      | nil => exact hbWH
      | cons y L' => exact (hbL y (List.mem_cons_self _ _)).2.2
    rw [freeList_push_mem, if_neg e1, if_neg e2, if_pos rfl]
  · intro x hx
    exact (pop_LSeg hW s L H x hl hx hnd (fun y hy => (hn y hy).1)
      (fun y hy => ⟨(hn y hy).2.1, (hn y hy).2.2⟩) hsep).1
  · have hp := pop_LSeg hW (freeList_push W s b) (b :: L) H b hpush
      (List.mem_cons_self _ _) (List.nodup_cons.2 ⟨hbn, hnd⟩)
      (fun y hy => by
        rcases List.mem_cons.1 hy with rfl | hy
        · exact hb0
        · exact (hn y hy).1)
      (fun y hy => by
        rcases List.mem_cons.1 hy with rfl | hy
        · exact ⟨hbH, hbWH⟩
        · exact ⟨(hn y hy).2.1, (hn y hy).2.2⟩)
      (fun y hy z hz => by
        rcases List.mem_cons.1 hy with e1 | hy'
        · rcases List.mem_cons.1 hz with e2 | hz'
          · omega
          · rw [e1]; exact (hbL z hz').2.2
        · rcases List.mem_cons.1 hz with e2 | hz'
          · rw [e2]; exact fun e => (hbL y hy').2.1 e.symm
          · exact hsep y hy' z hz')
    have := hp.1
    rwa [List.erase_cons_head] at this

/-- Instance of `freeList_push_pop`: the one-node list after `mm_init` and the fresh
node 100. -/
theorem freeList_push_pop_witness :
    0 < 4 ∧ FreeListOk 4 demo0 [40] 16 ∧ FreshNode 4 [40] 16 100 ∧
      (LSeg 4 (freeList_push 4 demo0 100).mem 0 (freeList_push 4 demo0 100).free_listp
          (100 :: [40]) 16 ∧
        PREV_PTR (freeList_push 4 demo0 100) 100 = 0 ∧
        NEXT_PTR 4 (freeList_push 4 demo0 100) 100 = demo0.free_listp ∧
        (∀ x ∈ [40], LSeg 4 (freeList_pop 4 demo0 x).mem 0 (freeList_pop 4 demo0 x).free_listp
          ([40].erase x) 16) ∧
        LSeg 4 (freeList_pop 4 (freeList_push 4 demo0 100) 100).mem 0
          (freeList_pop 4 (freeList_push 4 demo0 100) 100).free_listp [40] 16) :=
  ⟨by decide, ⟨⟨by decide, by decide, (by decide : demo0.mem (40 + 4) = 16)⟩, by decide, by decide, by decide⟩,
    ⟨by decide, by decide, by decide, by decide⟩,
    freeList_push_pop (by decide) demo0 [40] 16 100
      ⟨⟨by decide, by decide, (by decide : demo0.mem (40 + 4) = 16)⟩, by decide, by decide, by decide⟩
      ⟨by decide, by decide, by decide, by decide⟩⟩

theorem pairwise_of_nodup_fst {live : List (Nat × Nat)} {R : Nat × Nat → Nat × Nat → Prop}
    (hnd : (live.map Prod.fst).Nodup)
    (hR : ∀ a ∈ live, ∀ b ∈ live, a.1 ≠ b.1 → R a b) : live.Pairwise R := by
  induction live with
  | nil => exact List.Pairwise.nil
  | cons a l ih =>
    rw [List.map_cons, List.nodup_cons] at hnd
    rw [List.pairwise_cons]
    refine ⟨?_, ih hnd.2 (fun x hx y hy => hR x (List.mem_cons_of_mem _ hx) y
      (List.mem_cons_of_mem _ hy))⟩
    intro b hb
    refine hR a (List.mem_cons_self _ _) b (List.mem_cons_of_mem _ hb) ?_
    intro e
    exact hnd.1 (List.mem_map.2 ⟨b, hb, e.symm⟩)

/-- Live payloads in runs without a wrapped request (the states of `Reach`): the payload
ranges `[p, p + n)` of the live allocations are pairwise disjoint, lie inside the region obtained from the provider, and
overlap no header or footer word of a block of the chain, nor the words of the prologue or
the header of the epilogue. -/
theorem live_payloads_disjoint {W B mx : Nat} (he : Env W B mx) {s : State}
    {live : List (Nat × Nat)} (hr : Reach W B mx s live) :
    live.Pairwise (fun a b => a.1 + a.2 ≤ b.1 ∨ b.1 + b.2 ≤ a.1) ∧
      (∀ pn ∈ live, B ≤ pn.1 ∧ pn.1 + pn.2 ≤ s.mem_brk) ∧
      (∃ chain, (∀ fuel, chain.length < fuel →
          chainWalk W s fuel (s.heap_listp + 6 * W) = some (chain, s.mem_brk)) ∧
        ∀ pn ∈ live, ∀ x ∈ chain,
          (HDRP W x + W ≤ pn.1 ∨ pn.1 + pn.2 ≤ HDRP W x) ∧
          (FTRP W s x + W ≤ pn.1 ∨ pn.1 + pn.2 ≤ FTRP W s x)) ∧
      (∀ pn ∈ live, s.heap_listp + W ≤ pn.1 ∧ pn.1 + pn.2 ≤ HDRP W s.mem_brk) := by
  obtain ⟨bs, fl, hinv, _, hlive⟩ := hr.rinv he
  have hW := hinv.heap.Wpos
  have hblk : ∀ pn ∈ live, ∃ k ∈ bs, k.free = false ∧ k.addr = pn.1 ∧ pn.2 + 2 * W ≤ k.size := by
    intro pn hpn
    obtain ⟨k, hk, hka, hks⟩ := hlive.1 pn hpn
    obtain ⟨hkm, hkf⟩ := mem_allocBlks.1 hk
    exact ⟨k, hkm, hkf, hka, hks⟩
  refine ⟨?_, ?_, ?_, ?_⟩
  · apply pairwise_of_nodup_fst hlive.2
    intro a ha b hb hab
    obtain ⟨k, hk, _, hka, hks⟩ := hblk a ha
    obtain ⟨c, hc, _, hca, hcs⟩ := hblk b hb
    rcases Shape_disj hinv.heap.shape hk hc with h | h | h
    · exact absurd (by rw [← hka, ← hca, h]) hab
    · left; omega
    · right; omega
  · intro pn hpn
    obtain ⟨k, hk, _, hka, hks⟩ := hblk pn hpn
    have := hinv.heap.blk hk
    omega
  · refine ⟨bs.map (fun k => k.addr), ?_, ?_⟩
    · intro fuel hf
      rw [hinv.heap.chainWalk_eq fuel, if_pos (by simpa using hf)]
    · intro pn hpn x hx
      obtain ⟨c, hc, rfl⟩ := List.mem_map.1 hx
      obtain ⟨k, hk, _, hka, hks⟩ := hblk pn hpn
      have hcb := hinv.heap.blk hc
      have hkb := hinv.heap.blk hk
      rw [hinv.heap.rd_ftr hc]
      unfold HDRP
      rcases Shape_disj hinv.heap.shape hk hc with h | h | h
      · subst h
        constructor
        · left; omega
        · right; omega
      · constructor
        · right; omega
        · right; omega
      · constructor
        · left; omega
        · left; omega
  · intro pn hpn
    obtain ⟨k, hk, _, hka, hks⟩ := hblk pn hpn
    have hkb := hinv.heap.blk hk
    rw [hinv.heap.hlp]
    unfold HDRP
    omega

/-- Instance of `live_payloads_disjoint`: the state after two allocations. -/
theorem live_payloads_disjoint_witness :
    Env 4 8 100000 ∧ Reach 4 8 100000 demo2 [(72, 24), (40, 24)] ∧
      ([(72, 24), (40, 24)].Pairwise (fun a b => a.1 + a.2 ≤ b.1 ∨ b.1 + b.2 ≤ a.1) ∧
      (∀ pn ∈ [(72, 24), (40, 24)], 8 ≤ pn.1 ∧ pn.1 + pn.2 ≤ demo2.mem_brk) ∧
      (∃ chain, (∀ fuel, chain.length < fuel →
          chainWalk 4 demo2 fuel (demo2.heap_listp + 6 * 4) = some (chain, demo2.mem_brk)) ∧
        ∀ pn ∈ [(72, 24), (40, 24)], ∀ x ∈ chain,
          (HDRP 4 x + 4 ≤ pn.1 ∨ pn.1 + pn.2 ≤ HDRP 4 x) ∧
          (FTRP 4 demo2 x + 4 ≤ pn.1 ∨ pn.1 + pn.2 ≤ FTRP 4 demo2 x)) ∧
      (∀ pn ∈ [(72, 24), (40, 24)],
        demo2.heap_listp + 4 ≤ pn.1 ∧ pn.1 + pn.2 ≤ HDRP 4 demo2.mem_brk)) :=
  ⟨demo_env, demo2_reach, live_payloads_disjoint demo_env demo2_reach⟩

theorem freeListEnd_spec {W : Nat} (s : State) (H : Nat) (xs : List Nat)
    (hH : GET_ALLOC s (HDRP W H) ≠ 0) :
    ∀ (p c fuel : Nat), LSeg W s.mem p c xs H → (∀ x ∈ xs, GET_ALLOC s (HDRP W x) = 0) →
      xs.length < fuel → freeListEnd W s fuel c = some H := by
  induction xs with
  | nil =>
    intro p c fuel hl _ hf
    have hc : c = H := hl
    subst hc
    obtain ⟨f, rfl⟩ : ∃ f, fuel = f + 1 := ⟨fuel - 1, by simp at hf; omega⟩
    simp [freeListEnd, hH]
  | cons x xs ih =>
    intro p c fuel hl ha hf
    obtain ⟨h1, h2, h3⟩ := hl
    subst h1
    obtain ⟨f, rfl⟩ : ∃ f, fuel = f + 1 := ⟨fuel - 1, by simp at hf; omega⟩
    have hx := ha c (List.mem_cons_self _ _)
    have := ih c (s.mem (c + W)) f h3 (fun y hy => ha y (List.mem_cons_of_mem _ hy))
      (by simp at hf; omega)
    simp [freeListEnd, hx, NEXT_PTR, GET, this]

/-- In a linked segment whose sentinel points back to the last node, the previous link of
the successor of every node is the node. -/
theorem LSeg_prev_next {W : Nat} {m : Nat → Nat} {e : Nat} :
    ∀ (xs : List Nat) (p c : Nat), LSeg W m p c xs e →
      (∀ l z, xs = l ++ [z] → m e = z) → ∀ x ∈ xs, m (m (x + W)) = x := by
  intro xs
  induction xs with
  | nil => intro p c _ _ x hx; cases hx
  | cons y ys ih =>
    intro p c hl hb x hx
    obtain ⟨h1, h2, h3⟩ := hl
    cases ys with
    | nil =>
      have hxy : x = y := by simpa using hx
      subst hxy
      have he : m (x + W) = e := h3
      rw [he]
      exact hb [] x rfl
    | cons z zs =>
      rcases List.mem_cons.1 hx with rfl | hx'
      · have e1 : m (x + W) = z := h3.1
        rw [e1]
        exact h3.2.1
      · exact ih y (m (y + W)) h3 (fun l w e' => hb (y :: l) w (by rw [e']; rfl)) x hx'

/-- Claim C20: in a reachable state the walk along the next links from `free_listp` visits
each free block of the chain once and stops at `heap_listp`, the prologue, whose header is
allocated; the previous link of the head is null and the previous link of the successor of
every node is the node; and `find_fit` returns for every `asize` with fuel for one loop
test more than there are free blocks. -/
theorem free_list_linked {W B mx : Nat} (he : Env W B mx) {s : State}
    {live : List (Nat × Nat)} (hr : Reach W B mx s live) :
    ∃ fl chain,
      (∀ fuel, fl.length < fuel → freeListWalk W s fuel s.free_listp = some fl ∧
        freeListEnd W s fuel s.free_listp = some s.heap_listp) ∧
      (∀ fuel, chain.length < fuel →
        chainWalk W s fuel (s.heap_listp + 6 * W) = some (chain, s.mem_brk)) ∧
      fl.Nodup ∧ (∀ x, x ∈ fl ↔ x ∈ chain ∧ GET_ALLOC s (HDRP W x) = 0) ∧
      GET s (HDRP W s.heap_listp) = PACK (DSIZE W) 1 ∧
      GET_ALLOC s (HDRP W s.heap_listp) = 1 ∧
      (∀ x ∈ fl.head?, PREV_PTR s x = 0) ∧
      (∀ x ∈ fl, PREV_PTR s (NEXT_PTR W s x) = x) ∧
      (∀ asize, ∃ r, find_fit W (fl.length + 1) s asize = some r) := by
  obtain ⟨bs, fl, hinv, _, _⟩ := hr.rinv he
  have hW := hinv.heap.Wpos
  have hp : HDRP W s.heap_listp = B + W := by
    rw [hinv.heap.hlp]; unfold HDRP; omega
  have h8 : (DSIZE W) % 8 = 0 := by
    unfold DSIZE
    rcases hinv.heap.hW with rfl | rfl <;> omega
  refine ⟨fl, bs.map (fun k => k.addr), ?_, ?_, hinv.heap.nodup, ?_, ?_, ?_, ?_, ?_, ?_⟩
  · intro fuel hf
    refine ⟨by rw [hinv.freeListWalk_eq fuel, if_pos hf], ?_⟩
    rw [hinv.heap.hlp]
    exact freeListEnd_spec s (B + 2 * W) fl hinv.sentinel_alloc 0 s.free_listp fuel
      hinv.heap.links hinv.node_alloc hf
  · intro fuel hf
    rw [hinv.heap.chainWalk_eq fuel, if_pos (by simpa using hf)]
  · intro x
    constructor
    · intro hx
      obtain ⟨k, hk, hkf, rfl⟩ := hinv.nodes x hx
      refine ⟨List.mem_map.2 ⟨k, hk, rfl⟩, ?_⟩
      rw [hinv.heap.rd_hdr_alloc hk, hkf]
      rfl
    · rintro ⟨hx, ha⟩
      obtain ⟨k, hk, rfl⟩ := List.mem_map.1 hx
      rw [hinv.heap.rd_hdr_alloc hk] at ha
      have hkf : k.free = true := by
        by_contra hf
        simp [hf] at ha
      exact hinv.mem_fl hk hkf
  · rw [hp]; exact hinv.heap.prol
  · rw [hp, rd_alloc s _ ⟨0, DSIZE W, false⟩ (by rw [hinv.heap.prol]; rfl) h8]
    rfl
  · intro x hx
    cases fl with
    | nil => cases hx
    | cons y ys =>
      have hxy : y = x := by simpa using hx
      subst hxy
      exact hinv.heap.links.2.1
  · intro x hx
    exact LSeg_prev_next fl 0 s.free_listp hinv.heap.links hinv.heap.back x hx
  · intro asize
    exact ⟨_, hinv.find_fit_eq asize (fl.length + 1) (Nat.lt_succ_self _)⟩

/-- Instance of `free_list_linked`: the state after two allocations. -/
theorem free_list_linked_witness :
    Env 4 8 100000 ∧ Reach 4 8 100000 demo2 [(72, 24), (40, 24)] ∧
    ∃ fl chain,
      (∀ fuel, fl.length < fuel → freeListWalk 4 demo2 fuel demo2.free_listp = some fl ∧
        freeListEnd 4 demo2 fuel demo2.free_listp = some demo2.heap_listp) ∧
      (∀ fuel, chain.length < fuel →
        chainWalk 4 demo2 fuel (demo2.heap_listp + 6 * 4) = some (chain, demo2.mem_brk)) ∧
      fl.Nodup ∧ (∀ x, x ∈ fl ↔ x ∈ chain ∧ GET_ALLOC demo2 (HDRP 4 x) = 0) ∧
      GET demo2 (HDRP 4 demo2.heap_listp) = PACK (DSIZE 4) 1 ∧
      GET_ALLOC demo2 (HDRP 4 demo2.heap_listp) = 1 ∧
      (∀ x ∈ fl.head?, PREV_PTR demo2 x = 0) ∧
      (∀ x ∈ fl, PREV_PTR demo2 (NEXT_PTR 4 demo2 x) = x) ∧
      (∀ asize, ∃ r, find_fit 4 (fl.length + 1) demo2 asize = some r) :=
  ⟨demo_env, demo2_reach, free_list_linked demo_env demo2_reach⟩

theorem place_small_arith (W a csz : Nat) (hW : 4 ≤ W) (ha : W ≤ a) (h2 : 6 * W ≤ csz) :
    a - W ≠ a + 2 * W - 2 * W ∧ a - W ≠ a + 2 * W - W ∧ a - W ≠ a + csz - 2 * W ∧
      a + 2 * W - 2 * W ≠ a + 2 * W - W ∧ a + 2 * W - 2 * W ≠ a + csz - 2 * W ∧
      a + 2 * W - W ≠ a + csz - 2 * W := by
  omega

theorem place_small_cells (W a csz x : Nat) (hW : 4 ≤ W) (ha : W ≤ a) (h2 : 6 * W ≤ csz)
    (hx : x + W < a ∨ a + csz ≤ x + W) :
    x ≠ a - W ∧ x ≠ a + 2 * W - 2 * W ∧ x ≠ a + 2 * W - W ∧ x ≠ a + csz - 2 * W ∧
    x ≠ a + 2 * W ∧ x ≠ a + 2 * W + W := by
  omega

theorem GET_ALLOC_congr (s t : State) (p : Nat) (h : t.mem p = s.mem p) :
    GET_ALLOC t p = GET_ALLOC s p := by
  unfold GET_ALLOC GET
  rw [h]

/-- When `asize` is `DSIZE` and the remainder is at least a minimum block, `place` splits:
it writes the tag `PACK(DSIZE, 1)` to the header of `k` and to the word after it, which is
the footer of a block of `DSIZE` bytes, makes the remainder a free block and pushes it
onto the free list. -/
theorem Inv.place_split_dsize {W B : Nat} {s : State} {pre post : List Blk} {k : Blk}
    {fl : List Nat} (h : Inv W B s (pre ++ k :: post) fl) (hkf : k.free = true)
    (hsp : 4 * W ≤ k.size - 2 * W) :
    (∀ fuel, ((k.addr + 2 * W) :: fl.erase k.addr).length < fuel →
      freeListWalk W (place W s k.addr (2 * W)) fuel (place W s k.addr (2 * W)).free_listp =
        some ((k.addr + 2 * W) :: fl.erase k.addr)) ∧
    k.addr ∉ (k.addr + 2 * W) :: fl.erase k.addr ∧
    (place W s k.addr (2 * W)).mem (k.addr - W) = PACK (2 * W) 1 ∧
    (place W s k.addr (2 * W)).mem (k.addr + 2 * W - 2 * W) = PACK (2 * W) 1 ∧
    (place W s k.addr (2 * W)).mem (k.addr + 2 * W - W) = k.size - 2 * W ∧
    (place W s k.addr (2 * W)).mem (k.addr + k.size - 2 * W) = k.size - 2 * W := by
  have hW := h.heap.Wpos
  have hkm : k ∈ pre ++ k :: post := by simp
  have hkk := h.heap.blk hkm
  obtain ⟨c, g1, g2⟩ := (Shape_append _ _ _ _).1 h.heap.shape
  obtain ⟨g3, g4, g5, g6⟩ := g2
  subst g3
  have hkW : W ≤ k.addr := by omega
  have hsp' : 6 * W ≤ k.size := by omega
  have hle : 2 * W ≤ k.size := by omega
  obtain ⟨rem, hrem⟩ : ∃ rem, rem = k.size - 2 * W := ⟨_, rfl⟩
  have ha8 : (2 * W) % 8 = 0 := by rcases h.heap.hW with rfl | rfl <;> rfl
  have hr8 : rem % 8 = 0 := by omega
  have hr4 : 4 * W ≤ rem := by omega
  have hrlt : rem < WordMod W := by omega
  have halt : 2 * W < WordMod W := by omega
  have hsum : k.addr + 2 * W + rem = k.addr + k.size := by omega
  have hfr := fun a => place_small_cells W k.addr k.size a hW.1 hkW hsp'
  have e0 := h.heap.rd_hdr_size hkm
  have hsw : (k.size + WordMod W - 2 * W) % WordMod W = rem := by
    rw [sub_wrap _ _ _ hle hkk.2.2.2.2.1, hrem]
  obtain ⟨n12, n13, n14, n23, n24, n34⟩ := place_small_arith W k.addr k.size hW.1 hkW hsp'
  have hc4 : k.addr + 2 * W + rem - 2 * W = k.addr + k.size - 2 * W := by omega
  have hxfl := h.mem_fl hkm hkf
  obtain ⟨hp, hpf⟩ := h.heap.pop hxfl
  obtain ⟨s1, hs1⟩ : ∃ s1, s1 = freeList_pop W s k.addr := ⟨_, rfl⟩
  rw [← hs1] at hp hpf
  obtain ⟨s2, hs2⟩ : ∃ s2, s2 = PUT s1 (k.addr - W) (PACK (2 * W) 1) := ⟨_, rfl⟩
  obtain ⟨s3, hs3⟩ : ∃ s3, s3 = PUT s2 (k.addr + 2 * W - 2 * W) (PACK (2 * W) 1) := ⟨_, rfl⟩
  obtain ⟨s4, hs4⟩ : ∃ s4, s4 = PUT s3 (k.addr + 2 * W - W) rem := ⟨_, rfl⟩
  obtain ⟨s5, hs5⟩ : ∃ s5, s5 = PUT s4 (k.addr + k.size - 2 * W) rem := ⟨_, rfl⟩
  have e1 : FTRP W s2 k.addr = k.addr + 2 * W - 2 * W :=
    FTRP_eq h.heap.hW _ _ ⟨k.addr, 2 * W, false⟩
      (by rw [hs2]; simp [Blk.tag_alloc_eq]) ha8 halt
  have e2 : NEXT_BLKP W s3 k.addr = k.addr + 2 * W :=
    NEXT_BLKP_eq h.heap.hW _ _ ⟨k.addr, 2 * W, false⟩
      (by rw [hs3, hs2]; simp [Blk.tag_alloc_eq, n12]) ha8 halt
  have e3 : FTRP W s4 (k.addr + 2 * W) = k.addr + k.size - 2 * W := by
    rw [FTRP_eq h.heap.hW _ _ ⟨k.addr + 2 * W, rem, true⟩
      (by rw [hs4]; simp [Blk.tag_free]) hr8 hrlt]
    exact hc4
  have hH : HDRP W k.addr = k.addr - W := rfl
  have hH2 : HDRP W (k.addr + 2 * W) = k.addr + 2 * W - W := rfl
  have e0' : GET_SIZE W s (k.addr - W) = k.size := e0
  have hcond' : rem ≥ 2 * DSIZE W := by rw [two_DSIZE]; exact hr4
  have hpl : place W s k.addr (2 * W) = (coalesce W s5 (k.addr + 2 * W)).2 := by
    unfold place
    simp only [e0', hsw, hcond', if_true, hH, ← hs1, ← hs2, e1, ← hs3, e2, hH2, PACK_zero,
      ← hs4, e3, ← hs5]
  have m5 : ∀ a, s5.mem a = if a = k.addr + k.size - 2 * W then rem
      else if a = k.addr + 2 * W - W then rem
      else if a = k.addr + 2 * W - 2 * W then PACK (2 * W) 1
      else if a = k.addr - W then PACK (2 * W) 1 else s1.mem a := by
    intro a; rw [hs5, hs4, hs3, hs2]; rfl
  have v1 : s5.mem (k.addr - W) = PACK (2 * W) 1 := by
    rw [m5, if_neg n14, if_neg n13, if_neg n12, if_pos rfl]
  have v2 : s5.mem (k.addr + 2 * W - 2 * W) = PACK (2 * W) 1 := by
    rw [m5, if_neg n24, if_neg n23, if_pos rfl]
  have v3 : s5.mem (k.addr + 2 * W - W) = rem := by
    rw [m5, if_neg n34, if_pos rfl]
  have v4 : s5.mem (k.addr + k.size - 2 * W) = rem := by
    rw [m5, if_pos rfl]
  have hout : ∀ a, (a + W < k.addr ∨ k.addr + k.size ≤ a + W) → s5.mem a = s1.mem a := by
    intro a ha
    obtain ⟨f1, f2, f3, f4, _, _⟩ := hfr a ha
    rw [m5, if_neg f4, if_neg f3, if_neg f2, if_neg f1]
  have haround := NoAdj_around_free h.noadj hkf
  -- the nodes that remain lie in other blocks
  have hfar : ∀ y ∈ fl.erase k.addr, B + 8 * W ≤ y ∧ (y + 4 * W ≤ k.addr ∨ k.addr + k.size ≤ y) := by
    intro y hy
    obtain ⟨b, hb, _, hba⟩ := h.nodes_erase y hy
    rcases hb with hb | hb
    · have q1 := Shape_mem g1 hb
      omega
    · have q1 := Shape_mem g6 hb
      omega
  have hP : GET_ALLOC s5 (FTRP W s5 (PREV_BLKP W s5 (k.addr + 2 * W))) ≠ 0 ∨
      PREV_BLKP W s5 (k.addr + 2 * W) = k.addr + 2 * W := by
    left
    have c2v : s5.mem (k.addr + 2 * W - 2 * W) = (Blk.mk k.addr (2 * W) false).tag := by
      rw [v2, Blk.tag_alloc_eq]
    have c1v : s5.mem (k.addr - W) = (Blk.mk k.addr (2 * W) false).tag := by
      rw [v1, Blk.tag_alloc_eq]
    have hp1 : PREV_BLKP W s5 (k.addr + 2 * W) = k.addr := by
      rw [PREV_BLKP_eq h.heap.hW s5 _ ⟨k.addr, 2 * W, false⟩ c2v ha8 halt]
      simp
    rw [hp1, FTRP_eq h.heap.hW s5 _ ⟨k.addr, 2 * W, false⟩ c1v ha8 halt,
      rd_alloc s5 _ ⟨k.addr, 2 * W, false⟩ c2v ha8]
    simp
  have hnx : GET_ALLOC s1 (k.addr + k.size - W) ≠ 0 := by
    have e' : s1.mem_brk = s.mem_brk := by rw [hs1, freeList_pop_mem_brk]
    cases post with
    | nil =>
      have e : k.addr + k.size = s.mem_brk := g6
      rw [e, ← e', rd_alloc_one s1 _ hp.epi]
      simp
    | cons n post' =>
      have hnm : n ∈ pre ++ k :: n :: post' := by simp
      have hnf : n.free = false := haround.2 n (by simp)
      have hnk := hp.blk hnm
      have hnt := hp.tags n hnm
      have : n.addr = k.addr + k.size := g6.1
      rw [← this, rd_alloc s1 _ n hnt.1 hnk.2.2.1, hnf]
      simp
  have hN : GET_ALLOC s5 (HDRP W (NEXT_BLKP W s5 (k.addr + 2 * W))) ≠ 0 := by
    rw [NEXT_BLKP_eq h.heap.hW s5 _ ⟨k.addr + 2 * W, rem, true⟩
      (by rw [v3, Blk.tag_free]) hr8 hrlt]
    have e : HDRP W (k.addr + 2 * W + (Blk.mk (k.addr + 2 * W) rem true).size) =
        k.addr + k.size - W := by
      unfold HDRP
      show k.addr + 2 * W + rem - W = _
      omega
    rw [e, GET_ALLOC_congr s1 s5 _ (hout _ (Or.inr (by omega)))]
    exact hnx
  have hc1 := coalesce_case1 W s5 (k.addr + 2 * W) hP hN
  rw [hpl, hc1]
  show (∀ fuel, _ → freeListWalk W (freeList_push W s5 (k.addr + 2 * W)) fuel
      (freeList_push W s5 (k.addr + 2 * W)).free_listp = _) ∧ _ ∧
    (freeList_push W s5 (k.addr + 2 * W)).mem _ = _ ∧
    (freeList_push W s5 (k.addr + 2 * W)).mem _ = _ ∧
    (freeList_push W s5 (k.addr + 2 * W)).mem _ = _ ∧
    (freeList_push W s5 (k.addr + 2 * W)).mem _ = _
  have hl5 : LSeg W s5.mem 0 s5.free_listp (fl.erase k.addr) (B + 2 * W) := by
    have e : s5.free_listp = s1.free_listp := by rw [hs5, hs4, hs3, hs2]; rfl
    rw [e]
    refine LSeg_congr ?_ hp.links
    intro y hy
    have q := hfar y hy
    exact ⟨hout y (by omega), hout (y + W) (by omega)⟩
  have hl := push_LSeg (by omega : 0 < W) s5 (fl.erase k.addr) (B + 2 * W) (k.addr + 2 * W)
    hl5 hp.nodup (by omega)
    (fun y hy => by have := hfar y hy; omega)
    (fun y hy z hz => by
      have := hp.node_sep hy hz
      omega)
  have hpush : ∀ a, a ≠ B + 2 * W → a ≠ k.addr + 2 * W → a ≠ k.addr + 2 * W + W →
      (∀ y ∈ fl.erase k.addr, a ≠ y) →
      (freeList_push W s5 (k.addr + 2 * W)).mem a = s5.mem a :=
    fun a q1 q2 q3 q4 => push_frame s5 (fl.erase k.addr) (B + 2 * W) (k.addr + 2 * W) a hl5
      q1 q2 q3 q4
  have t1 := hpush (k.addr - W) (by omega) (by omega) (by omega)
    (fun y hy => by have := hfar y hy; omega)
  have t2 := hpush (k.addr + 2 * W - 2 * W) (by omega) (by omega) (by omega)
    (fun y hy => by have := hfar y hy; omega)
  have t3 := hpush (k.addr + 2 * W - W) (by omega) (by omega) (by omega)
    (fun y hy => by have := hfar y hy; omega)
  have t4 := hpush (k.addr + k.size - 2 * W) (by omega) (by omega) (by omega)
    (fun y hy => by have := hfar y hy; omega)
  refine ⟨?_, ?_, by rw [t1, v1], by rw [t2, v2], by rw [t3, v3, hrem],
    by rw [t4, v4, hrem]⟩
  · intro fuel hf
    have hH0 : GET_ALLOC (freeList_push W s5 (k.addr + 2 * W)) (HDRP W (B + 2 * W)) ≠ 0 := by
      have e : HDRP W (B + 2 * W) = B + W := by unfold HDRP; omega
      have h8 : (DSIZE W) % 8 = 0 := ha8
      have t5 := hpush (B + W) (by omega) (by omega) (by omega)
        (fun y hy => by have := hfar y hy; omega)
      have t6 : s5.mem (B + W) = s1.mem (B + W) := hout _ (by omega)
      rw [e, rd_alloc _ _ ⟨0, DSIZE W, false⟩ (by rw [t5, t6, hp.prol]; rfl) h8]
      simp
    rw [freeListWalk_spec _ (B + 2 * W) _ hH0 0 _ fuel hl ?_, if_pos hf]
    intro x hx
    rcases List.mem_cons.1 hx with rfl | hx'
    · rw [rd_alloc _ _ ⟨k.addr + 2 * W, rem, true⟩ (by rw [hH2, t3, v3, Blk.tag_free]) hr8]
      rfl
    · have q := hfar x hx'
      obtain ⟨b, hb, hbf, hba⟩ := h.nodes_erase x hx'
      have hbm : b ∈ pre ++ k :: post := by
        rcases hb with hb | hb
        · exact List.mem_append_left _ hb
        · exact List.mem_append_right _ (List.mem_cons_of_mem _ hb)
      have hbt := (hp.tags b hbm).1
      have hbk := hp.blk hbm
      have t7 := hpush (x - W) (by omega) (by omega) (by omega)
        (fun y hy => by
          have := hfar y hy
          have := hp.node_sep hx' hy
          omega)
      have t8 : s5.mem (x - W) = s1.mem (x - W) := hout _ (by omega)
      have hcell : (freeList_push W s5 (k.addr + 2 * W)).mem (HDRP W x) = b.tag := by
        show (freeList_push W s5 (k.addr + 2 * W)).mem (x - W) = b.tag
        rw [t7, t8, ← hba]
        exact hbt
      rw [rd_alloc _ _ b hcell hbk.2.2.1, hbf]
      rfl
  · intro hin
    rcases List.mem_cons.1 hin with e | hin'
    · omega
    · exact absurd rfl ((h.heap.nodup.mem_erase_iff).1 hin').1

/-- Header and footer words of a block of a well-formed heap. -/
theorem Heap.rd_tags {W B : Nat} {s : State} {bs : List Blk} {fl : List Nat}
    (h : Heap W B s bs fl) {k : Blk} (hk : k ∈ bs) :
    GET s (HDRP W k.addr) = k.tag ∧ GET s (FTRP W s k.addr) = k.tag := by
  rw [h.rd_ftr hk]
  exact h.tags k hk

theorem demo0_inv : Inv 4 8 demo0 [⟨40, 4096, true⟩] [40] := by
  obtain ⟨s', e1, e2, _⟩ := mm_init_ok (W := 4) (B := 8) (Or.inl rfl) (by decide)
    (by decide : 100000 < WordMod 4) (by decide)
  have : demo0 = s' := by unfold demo0; rw [e1]
  rw [this]
  exact e2

theorem two_W_dvd {W : Nat} (hW : W = 4 ∨ W = 8) {a : Nat} (h : a % DSIZE W = 0) :
    a % 8 = 0 := by
  unfold DSIZE at h
  rcases hW with rfl | rfl <;> omega

/-- Claim C14 (as stated it fails): on a 64-bit platform, for the free block of 48 bytes at
the head of the free list and the request `asize = 32`, the remainder of 16 bytes is below
the code's threshold `2 * DSIZE = 32` and `place` does not split: the block is allocated
with its full size 48.  And for `asize = 0` (32-bit platform, right after `mm_init`) the
block is free and in the free list after `place`. -/
theorem place_no_split_64 :
    GET (mm_free 8 demo64b 80) (HDRP 8 80) = PACK 48 0 ∧
      freeListWalk 8 (mm_free 8 demo64b 80) 8 (mm_free 8 demo64b 80).free_listp =
        some [80, 160] ∧
      32 % DSIZE 8 = 0 ∧ 48 % DSIZE 8 = 0 ∧ 16 ≤ 48 - 32 ∧
      GET (place 8 (mm_free 8 demo64b 80) 80 32) (HDRP 8 80) = PACK 48 1 ∧
      GET (place 8 (mm_free 8 demo64b 80) 80 32) (HDRP 8 80) ≠ PACK 32 1 ∧
      GET demo0 (HDRP 4 40) = PACK 4096 0 ∧
      freeListWalk 4 demo0 8 demo0.free_listp = some [40] ∧
      GET_ALLOC (place 4 demo0 40 0) (HDRP 4 40) = 0 ∧
      freeListWalk 4 (place 4 demo0 40 0) 8 (place 4 demo0 40 0).free_listp = some [40] := by
  refine ⟨by decide, by decide, by decide, by decide, by decide, by decide, by decide,
    by decide, by decide, by decide, by decide⟩

/-- Claim C14 (amended): for a free block `k` of a heap satisfying the invariant and a
block size `asize` that is a multiple of `DSIZE` with `0 < asize ≤ size k`, `place`
splits exactly when the remainder is at least `2 * DSIZE` (16 bytes when `WSIZE` is 4, 32
when it is 8).  When it splits, `k` becomes an allocated block of size `asize` and the
remainder a free block that is in the free list; otherwise `k` becomes an allocated block
of its full size.  In both cases `k` is no longer in the free list and header and footer of
each resulting block agree. -/
theorem place_splits_iff {W B : Nat} {s : State} {pre post : List Blk} {k : Blk}
    {fl : List Nat} (h : Inv W B s (pre ++ k :: post) fl) (hkf : k.free = true)
    (asize : Nat) (ha : asize % DSIZE W = 0) (hpos : 0 < asize)
    (hle : asize ≤ k.size) :
    ∃ fl', (∀ fuel, fl'.length < fuel →
        freeListWalk W (place W s k.addr asize) fuel (place W s k.addr asize).free_listp =
          some fl') ∧
      k.addr ∉ fl' ∧
      (2 * DSIZE W ≤ k.size - asize →
        GET (place W s k.addr asize) (HDRP W k.addr) = PACK asize 1 ∧
        GET (place W s k.addr asize) (FTRP W (place W s k.addr asize) k.addr) =
          PACK asize 1 ∧
        GET (place W s k.addr asize) (HDRP W (k.addr + asize)) = PACK (k.size - asize) 0 ∧
        GET (place W s k.addr asize) (FTRP W (place W s k.addr asize) (k.addr + asize)) =
          PACK (k.size - asize) 0 ∧
        k.addr + asize ∈ fl') ∧
      (k.size - asize < 2 * DSIZE W →
        GET (place W s k.addr asize) (HDRP W k.addr) = PACK k.size 1 ∧
        GET (place W s k.addr asize) (FTRP W (place W s k.addr asize) k.addr) =
          PACK k.size 1) := by
  have hW := h.heap.Wpos
  have ha8 := two_W_dvd h.heap.hW ha
  have hD : DSIZE W = 2 * W := rfl
  have hkm : k ∈ pre ++ k :: post := by simp
  have hkk := h.heap.blk hkm
  by_cases hsp : 4 * W ≤ k.size - asize
  · by_cases h4 : 4 * W ≤ asize
    · obtain ⟨h1, _⟩ := h.place_split hkf asize ha8 h4 hle hsp
      have hk1 : (⟨k.addr, asize, false⟩ : Blk) ∈
          pre ++ ⟨k.addr, asize, false⟩ :: ⟨k.addr + asize, k.size - asize, true⟩ :: post := by
        simp
      have hk2 : (⟨k.addr + asize, k.size - asize, true⟩ : Blk) ∈
          pre ++ ⟨k.addr, asize, false⟩ :: ⟨k.addr + asize, k.size - asize, true⟩ :: post := by
        simp
      refine ⟨_, fun fuel hf => by rw [h1.freeListWalk_eq fuel, if_pos hf],
        h1.node_not_alloc (k := ⟨k.addr, asize, false⟩) hk1 rfl, fun _ => ?_,
        fun hlt => by omega⟩
      have t1 := h1.heap.rd_tags hk1
      have t2 := h1.heap.rd_tags hk2
      simp only [Blk.tag_alloc_eq, Blk.tag_free] at t1 t2
      rw [PACK_zero]
      exact ⟨t1.1, t1.2, t2.1, t2.2, List.mem_cons_self _ _⟩
    · have hasz : asize = 2 * W := by
        rw [hD] at ha
        rcases h.heap.hW with rfl | rfl <;> omega
      subst hasz
      obtain ⟨w1, w2, m1, m2, m3, m4⟩ := h.place_split_dsize hkf hsp
      have hlt : k.size - 2 * W < WordMod W := by omega
      have hr8 : (k.size - 2 * W) % 8 = 0 := by omega
      have hlt2 : 2 * W < WordMod W := by omega
      refine ⟨_, w1, w2, fun _ => ?_, fun hlt => by omega⟩
      have f1 : FTRP W (place W s k.addr (2 * W)) k.addr = k.addr + 2 * W - 2 * W :=
        FTRP_eq h.heap.hW _ _ ⟨k.addr, 2 * W, false⟩ (by rw [m1, Blk.tag_alloc_eq]) ha8 hlt2
      have f2 : FTRP W (place W s k.addr (2 * W)) (k.addr + 2 * W) =
          k.addr + k.size - 2 * W := by
        rw [FTRP_eq h.heap.hW _ _ ⟨k.addr + 2 * W, k.size - 2 * W, true⟩
          (by rw [m3, Blk.tag_free]) hr8 hlt]
        show k.addr + 2 * W + (k.size - 2 * W) - 2 * W = _
        omega
      rw [f1, f2, PACK_zero]
      exact ⟨m1, m2, m3, m4, List.mem_cons_self _ _⟩
  · obtain ⟨h1, _⟩ := h.place_nosplit hkf asize hle (by omega)
    have hk1 : (⟨k.addr, k.size, false⟩ : Blk) ∈ pre ++ ⟨k.addr, k.size, false⟩ :: post := by
      simp
    refine ⟨_, fun fuel hf => by rw [h1.freeListWalk_eq fuel, if_pos hf],
      h1.node_not_alloc (k := ⟨k.addr, k.size, false⟩) hk1 rfl, fun hge => by omega,
      fun _ => ?_⟩
    have t1 := h1.heap.rd_tags hk1
    simp only [Blk.tag_alloc_eq] at t1
    exact t1

/-- Instance of `place_splits_iff`: the free block of 4096 bytes after `mm_init` on the
32-bit platform and `asize = DSIZE = 8`. -/
theorem place_splits_iff_witness :
    Inv 4 8 demo0 ([] ++ ⟨40, 4096, true⟩ :: []) [40] ∧ 8 % DSIZE 4 = 0 ∧
      0 < 8 ∧ 8 ≤ 4096 ∧
    ∃ fl', (∀ fuel, fl'.length < fuel →
        freeListWalk 4 (place 4 demo0 40 8) fuel (place 4 demo0 40 8).free_listp =
          some fl') ∧
      40 ∉ fl' ∧
      (2 * DSIZE 4 ≤ 4096 - 8 →
        GET (place 4 demo0 40 8) (HDRP 4 40) = PACK 8 1 ∧
        GET (place 4 demo0 40 8) (FTRP 4 (place 4 demo0 40 8) 40) = PACK 8 1 ∧
        GET (place 4 demo0 40 8) (HDRP 4 (40 + 8)) = PACK (4096 - 8) 0 ∧
        GET (place 4 demo0 40 8) (FTRP 4 (place 4 demo0 40 8) (40 + 8)) =
          PACK (4096 - 8) 0 ∧
        40 + 8 ∈ fl') ∧
      (4096 - 8 < 2 * DSIZE 4 →
        GET (place 4 demo0 40 8) (HDRP 4 40) = PACK 4096 1 ∧
        GET (place 4 demo0 40 8) (FTRP 4 (place 4 demo0 40 8) 40) = PACK 4096 1) :=
  ⟨demo0_inv, by decide, by decide, by decide,
    @place_splits_iff 4 8 demo0 [] [] ⟨40, 4096, true⟩ [40] demo0_inv rfl 8
      (by decide) (by decide) (by decide)⟩

theorem demoC_pre :
    CoPre 4 8 demoC ([] ++ []) ⟨40, 32, true⟩ ([⟨72, 4064, true⟩] ++ []) [72] := by
  have h1 := (@Inv.place_split 4 8 demo0 [] [] ⟨40, 4096, true⟩ [40] demo0_inv rfl 32
    (by decide) (by decide) (by decide) (by decide)).1
  exact @Inv.mark_free 4 8 (place 4 demo0 40 32) [] [⟨72, 4064, true⟩] ⟨40, 32, false⟩ [72]
    h1 rfl

theorem Blk.eta_free {b : Blk} (h : b.free = true) : b = ⟨b.addr, b.size, true⟩ := by
  cases b
  simp only at h
  subst h
  rfl

/-- What `coalesce` establishes, given the invariant of its result. -/
theorem coalesce_result {W B : Nat} {s s' : State} {pre post : List Blk} {fl' : List Nat}
    {r T : Nat}
    (hk : ∀ k ∈ pre ++ post, GET s (HDRP W k.addr) = k.tag ∧ GET s (FTRP W s k.addr) = k.tag)
    (h : Inv W B s' (pre ++ ⟨r, T, true⟩ :: post) (r :: fl')) :
    GET s' (HDRP W r) = PACK T 0 ∧ GET s' (FTRP W s' r) = PACK T 0 ∧
      (∀ fuel, fl'.length + 1 < fuel →
        freeListWalk W s' fuel s'.free_listp = some (r :: fl')) ∧
      (∀ k ∈ pre ++ post, GET s' (HDRP W k.addr) = GET s (HDRP W k.addr) ∧
        GET s' (FTRP W s' k.addr) = GET s (FTRP W s k.addr)) := by
  have hR : (⟨r, T, true⟩ : Blk) ∈ pre ++ ⟨r, T, true⟩ :: post := by simp
  have t := h.heap.rd_tags hR
  simp only [Blk.tag_free] at t
  rw [PACK_zero]
  refine ⟨t.1, t.2, ?_, ?_⟩
  · intro fuel hf
    rw [h.freeListWalk_eq fuel, if_pos (by simpa using hf)]
  · intro k hk'
    have hk2 : k ∈ pre ++ ⟨r, T, true⟩ :: post := by
      rcases List.mem_append.1 hk' with h1 | h1
      · exact List.mem_append_left _ h1
      · exact List.mem_append_right _ (List.mem_cons_of_mem _ h1)
    have t2 := h.heap.rd_tags hk2
    have t1 := hk k hk'
    exact ⟨t2.1.trans t1.1.symm, t2.2.trans t1.2.symm⟩

/-- Claim C15: in a well-formed heap let `b` be a block whose tags say free and which is
not in the free list, let `qs` hold its predecessor when that is free and `ns` its
successor when that is free (each list is empty otherwise).  Then `coalesce` returns the
predecessor if it is free and `b` otherwise; header and footer of the returned block hold
the sum of the sizes of `b` and its free neighbours with allocated bit 0; the free list is
the returned block followed by the old list without the merged neighbours; and headers and
footers of all other blocks are unchanged. -/
theorem coalesce_merges {W B : Nat} {s : State} {pre qs ns post : List Blk} {b : Blk}
    {fl : List Nat} (h : CoPre W B s (pre ++ qs) b (ns ++ post) fl)
    (hqs : qs.length ≤ 1) (hns : ns.length ≤ 1)
    (hqf : ∀ q ∈ qs, q.free = true) (hnf : ∀ n ∈ ns, n.free = true)
    (hpre : qs = [] → ∀ q ∈ pre.getLast?, q.free = false)
    (hpost : ns = [] → ∀ n ∈ post.head?, n.free = false) :
    ∃ s', coalesce W s b.addr = ((qs.head?.map (fun q => q.addr)).getD b.addr, s') ∧
      GET s' (HDRP W ((qs.head?.map (fun q => q.addr)).getD b.addr)) =
        PACK ((qs.map (fun q => q.size)).sum + b.size + (ns.map (fun n => n.size)).sum) 0 ∧
      GET s' (FTRP W s' ((qs.head?.map (fun q => q.addr)).getD b.addr)) =
        PACK ((qs.map (fun q => q.size)).sum + b.size + (ns.map (fun n => n.size)).sum) 0 ∧
      (∀ fuel, ((qs ++ ns).foldl (fun l k => l.erase k.addr) fl).length + 1 < fuel →
        freeListWalk W s' fuel s'.free_listp =
          some ((qs.head?.map (fun q => q.addr)).getD b.addr ::
            (qs ++ ns).foldl (fun l k => l.erase k.addr) fl)) ∧
      (∀ k ∈ pre ++ post, GET s' (HDRP W k.addr) = GET s (HDRP W k.addr) ∧
        GET s' (FTRP W s' k.addr) = GET s (FTRP W s k.addr)) := by
  have hold : ∀ k ∈ pre ++ post,
      GET s (HDRP W k.addr) = k.tag ∧ GET s (FTRP W s k.addr) = k.tag := by
    intro k hk
    apply h.heap.rd_tags
    rcases List.mem_append.1 hk with h1 | h1
    · exact List.mem_append_left _ (List.mem_append_left _ h1)
    · exact List.mem_append_right _ (List.mem_cons_of_mem _ (List.mem_append_right _ h1))
  match qs, ns, hqs, hns with
  | [], [], _, _ =>
    simp only [List.append_nil, List.nil_append] at h
    obtain ⟨e, hinv⟩ := h.case1 (hpre rfl) (hpost rfl)
    rw [Blk.eta_free h.bfree] at hinv
    have hr := coalesce_result hold hinv
    refine ⟨_, e, ?_⟩
    simpa using hr
  | [], [n], _, _ =>
    simp only [List.append_nil, List.nil_append, List.singleton_append] at h
    obtain ⟨s', e, hinv, _⟩ := h.case2 (hpre rfl) (hnf n (by simp))
    have hr := coalesce_result hold hinv
    refine ⟨s', e, ?_⟩
    simpa using hr
  | [q], [], _, _ =>
    simp only [List.append_nil, List.nil_append] at h
    obtain ⟨s', e, hinv, _⟩ := h.case3 (hqf q (by simp)) (hpost rfl)
    have hr := coalesce_result hold hinv
    refine ⟨s', e, ?_⟩
    simpa using hr
  | [q], [n], _, _ =>
    simp only [List.singleton_append] at h
    obtain ⟨s', e, hinv, _⟩ := h.case4 (hqf q (by simp)) (hnf n (by simp))
    have hr := coalesce_result hold hinv
    refine ⟨s', e, ?_⟩
    simpa [Nat.add_assoc] using hr
  | _ :: _ :: _, _, hq, _ => simp at hq
  | _, _ :: _ :: _, _, hn => simp at hn

/-- Instance of `coalesce_merges`: the block at 40 of 32 bytes, first block of the heap,
followed by the free block at 72 of 4064 bytes; the result is the block at 40 of 4096
bytes. -/
theorem coalesce_merges_witness :
    CoPre 4 8 demoC ([] ++ []) (Blk.mk 40 32 true) ([Blk.mk 72 4064 true] ++ []) [72] ∧
    ∃ s', coalesce 4 demoC 40 =
        ((Option.map (fun q : Blk => q.addr) (List.head? ([] : List Blk))).getD 40, s') ∧
      GET s' (HDRP 4 ((Option.map (fun q : Blk => q.addr) (List.head? ([] : List Blk))).getD 40)) =
        PACK (List.sum (List.map (fun q : Blk => q.size) []) + 32 +
          List.sum (List.map (fun n : Blk => n.size) [Blk.mk 72 4064 true])) 0 ∧
      GET s' (FTRP 4 s'
          ((Option.map (fun q : Blk => q.addr) (List.head? ([] : List Blk))).getD 40)) =
        PACK (List.sum (List.map (fun q : Blk => q.size) []) + 32 +
          List.sum (List.map (fun n : Blk => n.size) [Blk.mk 72 4064 true])) 0 ∧
      (∀ fuel, (List.foldl (fun (l : List Nat) (k : Blk) => l.erase k.addr) [72]
            ([] ++ [Blk.mk 72 4064 true])).length + 1 < fuel →
        freeListWalk 4 s' fuel s'.free_listp =
          some ((Option.map (fun q : Blk => q.addr) (List.head? ([] : List Blk))).getD 40 ::
            List.foldl (fun (l : List Nat) (k : Blk) => l.erase k.addr) [72]
              ([] ++ [Blk.mk 72 4064 true]))) ∧
      (∀ k ∈ ([] : List Blk) ++ [], GET s' (HDRP 4 k.addr) = GET demoC (HDRP 4 k.addr) ∧
        GET s' (FTRP 4 s' k.addr) = GET demoC (FTRP 4 demoC k.addr)) :=
  ⟨demoC_pre,
    @coalesce_merges 4 8 demoC [] [] [Blk.mk 72 4064 true] [] (Blk.mk 40 32 true) [72]
      demoC_pre (by decide) (by decide) (by decide) (by decide)
      (fun _ q hq => by simp at hq) (fun e => by simp at e)⟩

/-- A word that overlaps the payload of an allocated block is neither the previous field
of the sentinel nor a link field of a free-list node. -/
theorem Inv.alloc_cell {W B : Nat} {s : State} {bs : List Blk} {fl : List Nat}
    (h : Inv W B s bs fl) {c : Blk} (hc : c ∈ allocBlks bs) (a : Nat)
    (h1 : c.addr < a + W) (h2 : a + 2 * W < c.addr + c.size) :
    a ≠ B + 2 * W ∧ ∀ y ∈ fl, a ≠ y ∧ a ≠ y + W := by
  have hW := h.heap.Wpos
  obtain ⟨hcm, hcf⟩ := mem_allocBlks.1 hc
  have hcb := h.heap.blk hcm
  refine ⟨by omega, ?_⟩
  intro y hy
  obtain ⟨f, hf, hff, rfl⟩ := h.nodes y hy
  have hfb := h.heap.blk hf
  rcases Shape_disj h.heap.shape hcm hf with e | e | e
  · rw [e, hff] at hcf
    exact Bool.noConfusion hcf
  · omega
  · omega

/-- The release of a block leaves the payload words of every other allocated block
unchanged. -/
theorem Inv.mm_free_frame {W B : Nat} {s : State} {pre post : List Blk} {k : Blk}
    {fl : List Nat} (h : Inv W B s (pre ++ k :: post) fl) (hkf : k.free = false)
    {c : Blk} (hc : c ∈ allocBlks (pre ++ k :: post)) (hck : c.addr ≠ k.addr) (a : Nat)
    (h1 : c.addr < a + W) (h2 : a + 2 * W < c.addr + c.size) :
    (mm_free W s k.addr).mem a = s.mem a := by
  have hW := h.heap.Wpos
  obtain ⟨hcell0, hcell⟩ := h.alloc_cell hc a h1 h2
  obtain ⟨r, pre', post', T, fl', f1, f2, f3, f4, f5, f6, f7, f8, f9, f10, _⟩ :=
    h.mm_free_spec hkf
  refine f10 a hcell0 ?_ hcell
  rw [allocBlks_append, allocBlks_cons_alloc k post hkf] at hc
  obtain ⟨e, g1, g2⟩ := (Shape_append _ _ _ _).1 f1.heap.shape
  have hr : r = e := g2.1
  have g6 : Shape W (e + T) post' (mm_free W s k.addr).mem_brk := g2.2.2.2
  clear g2 f1 f10 h
  rcases List.mem_append.1 hc with hc | hc
  · rw [← f4] at hc
    have := Shape_mem g1 (mem_allocBlks.1 hc).1
    left; omega
  · rcases List.mem_cons.1 hc with rfl | hc
    · exact absurd rfl hck
    · rw [← f5] at hc
      have := Shape_mem g6 (mem_allocBlks.1 hc).1
      right; omega

/-- A call of `mm_malloc` leaves the payload words of every allocated block unchanged. -/
theorem Inv.mm_malloc_frame {W B : Nat} {s : State} {bs : List Blk} {fl : List Nat}
    (h : Inv W B s bs fl) (n fuel p : Nat) (s' : State) (hnw : NoWrap W n)
    (hm : mm_malloc W fuel s n = some (p, s'))
    {c : Blk} (hc : c ∈ allocBlks bs) (a : Nat)
    (h1 : c.addr < a + W) (h2 : a + 2 * W < c.addr + c.size) :
    s'.mem a = s.mem a := by
  have hW := h.heap.Wpos
  obtain ⟨hcell0, hcell⟩ := h.alloc_cell hc a h1 h2
  obtain ⟨hcm, hcf⟩ := mem_allocBlks.1 hc
  by_cases hn0 : n = 0
  · subst hn0
    rw [mm_malloc_zero s fuel h.heap_listp_ne] at hm
    simp only [Option.some.injEq, Prod.mk.injEq] at hm
    rw [← hm.2]
  · have hm' := mm_malloc_mono s n fuel (max fuel (fl.length + 1)) _ (le_max_left _ _)
      h.heap_listp_ne hn0 hm
    have hfind := h.find_fit_eq (adjust W n) (max fuel (fl.length + 1))
      (lt_of_lt_of_le (Nat.lt_succ_self _) (le_max_right fuel _))
    obtain ⟨r, hr⟩ : ∃ r, r = (fl.find? (fun x =>
        decide (adjust W n ≤ GET_SIZE W s (HDRP W x)))).getD 0 := ⟨_, rfl⟩
    rw [← hr] at hfind
    obtain ⟨j, hj, haj, han, halt, ha8, ha4⟩ := adjust_spec h.heap.hW n hnw
    rw [mm_malloc_unfold W _ s n h.heap_listp_ne hn0, hfind] at hm'
    by_cases hr0 : r = 0
    · subst hr0
      obtain ⟨j', hj', hext, hale⟩ := extendsize_spec h.heap.hW (adjust W n) j hj haj
      simp only [ne_eq, not_true_eq_false, if_false, hext] at hm'
      by_cases hle : s.mem_brk + 2 * W * j' ≤ s.mem_max_addr
      · obtain ⟨r, s1, pre', T, fl1, x1, x2, x3, x4, x5, x6, x7, x8, x9, x10, _⟩ :=
          extend_spec h.heap h.perm h.noadj rfl rfl rfl rfl (fun _ _ => rfl) j' hj' hle
        rw [x1] at hm'
        simp only [x2, if_false, Option.some.injEq, Prod.mk.injEq] at hm'
        rw [← hm'.2]
        have hTle : adjust W n ≤ T := by omega
        obtain ⟨post', fl', sz, p1, p3, p4, p5, p6, _⟩ :=
          x3.place_spec (k := ⟨r, T, true⟩) rfl (adjust W n) ha8 ha4 hTle
        have hcp : c ∈ pre' := by
          rw [← x6] at hc
          exact (mem_allocBlks.1 hc).1
        obtain ⟨e, g1, g2⟩ := (Shape_append _ _ _ _).1 x3.heap.shape
        have hre : r = e := g2.1
        subst hre
        have hcs := Shape_mem g1 hcp
        have e1 : (place W s1 r (adjust W n)).mem a = s1.mem a := by
          refine p6 a hcell0 (Or.inl ?_) ?_
          · show a + W < r
            omega
          · intro y hy
            rcases List.mem_cons.1 hy with rfl | hy
            · constructor <;> omega
            · exact hcell y (x9 y hy)
        rw [e1]
        exact x10 a hcell0 (by omega) hcell
      · have hM := WordMod_cases h.heap.hW
        have hlim := h.heap.lim
        have hlt : 2 * W * j' < WordMod W := by
          rw [← hext]; unfold MAX; rw [CHUNKSIZE_eq]
          split <;> rcases h.heap.hW with rfl | rfl <;> omega
        rw [extend_heap_fail h.heap.hW s j' hlt hle] at hm'
        simp only [if_true, Option.some.injEq, Prod.mk.injEq] at hm'
        rw [← hm'.2]
    · simp only [ne_eq, hr0, not_false_eq_true, if_true, Option.some.injEq,
        Prod.mk.injEq] at hm'
      rw [← hm'.2]
      obtain ⟨k, hk, hkf, hka, hks⟩ := h.find_fit_some (adjust W n) hr.symm hr0
      obtain ⟨pre, post, rfl⟩ := List.append_of_mem hk
      subst hka
      obtain ⟨post', fl', sz, p1, p3, p4, p5, p6, _⟩ :=
        h.place_spec hkf (adjust W n) ha8 ha4 hks
      refine p6 a hcell0 ?_ hcell
      rcases Shape_disj h.heap.shape hcm hk with e | e | e
      · rw [e, hkf] at hcf
        exact Bool.noConfusion hcf
      · left; omega
      · right; omega

/-- Frame of the calls in runs without a wrapped request (the states of `Reach`): with a
live allocation `q` of `m` bytes, a call
`mm_malloc(n)` for a request that does not wrap, and a call `mm_free(p)` on another live
pointer, leave unchanged every word that overlaps the payload of `q`, up to its footer;
the `m` requested bytes lie in that range. -/
theorem live_payload_unchanged {W B mx : Nat} (he : Env W B mx) {s : State}
    {live : List (Nat × Nat)} (hr : Reach W B mx s live) (q m : Nat) (hq : (q, m) ∈ live) :
    m + DSIZE W ≤ GET_SIZE W s (HDRP W q) ∧
    (∀ n fuel p s', NoWrap W n → mm_malloc W fuel s n = some (p, s') →
      ∀ a, q < a + W → a + DSIZE W < q + GET_SIZE W s (HDRP W q) → s'.mem a = s.mem a) ∧
    (∀ p n, (p, n) ∈ live → p ≠ q →
      ∀ a, q < a + W → a + DSIZE W < q + GET_SIZE W s (HDRP W q) →
        (mm_free W s p).mem a = s.mem a) := by
  obtain ⟨bs, fl, hinv, _, hlive⟩ := hr.rinv he
  obtain ⟨c, hc, hca, hcs⟩ := hlive.1 _ hq
  have hcm := (mem_allocBlks.1 hc).1
  simp only at hca hcs
  subst hca
  rw [hinv.heap.rd_hdr_size hcm]
  have hD : DSIZE W = 2 * W := rfl
  refine ⟨by omega, ?_, ?_⟩
  · intro n fuel p s' hnw hm a h1 h2
    exact hinv.mm_malloc_frame n fuel p s' hnw hm hc a h1 (by omega)
  · intro p n hp hpq a h1 h2
    obtain ⟨pre, k, post, rfl, hka, hkf, hks⟩ := hlive.split hp
    subst hka
    exact hinv.mm_free_frame hkf hc (Ne.symm hpq) a h1 (by omega)

/-- Instance of `live_payload_unchanged`: the allocation at 72 in the state after two
allocations. -/
theorem live_payload_unchanged_witness :
    Env 4 8 100000 ∧ Reach 4 8 100000 demo2 [(72, 24), (40, 24)] ∧
      (72, 24) ∈ [(72, 24), (40, 24)] ∧
    (24 + DSIZE 4 ≤ GET_SIZE 4 demo2 (HDRP 4 72) ∧
    (∀ n fuel p s', NoWrap 4 n → mm_malloc 4 fuel demo2 n = some (p, s') →
      ∀ a, 72 < a + 4 → a + DSIZE 4 < 72 + GET_SIZE 4 demo2 (HDRP 4 72) →
        s'.mem a = demo2.mem a) ∧
    (∀ p n, (p, n) ∈ [(72, 24), (40, 24)] → p ≠ 72 →
      ∀ a, 72 < a + 4 → a + DSIZE 4 < 72 + GET_SIZE 4 demo2 (HDRP 4 72) →
        (mm_free 4 demo2 p).mem a = demo2.mem a)) :=
  ⟨demo_env, demo2_reach, by decide,
    live_payload_unchanged demo_env demo2_reach 72 24 (by decide)⟩

/-! ## Runs that contain a wrapped request

The size adjustment of `mm_malloc` wraps for requests of at least `2^32 - 15` bytes on the
32-bit platform.  The block handed out then is smaller than a minimum block, or stays in
the free list, and the calls that follow work on a heap that is no longer well formed.
The theorems over `Reach` exclude such runs; the ones below evaluate them. -/

theorem wrapA1_eq : mm_malloc 4 8 demo0 (2 ^ 32 - 1) = some (40, wrapA1) :=
  getD_eq_some _ _ 40 (by decide) (by decide)

theorem wrapA2_eq : mm_malloc 4 8 wrapA1 4088 = some (48, wrapA2) :=
  getD_eq_some _ _ 48 (by decide) (by decide)

theorem wrapA4_eq : mm_malloc 4 8 wrapA3 1 = some (4144, wrapA4) :=
  getD_eq_some _ _ 4144 (by decide) (by decide)

theorem wrapB2_eq : mm_malloc 4 8 wrapA1 24 = some (48, wrapB2) :=
  getD_eq_some _ _ 48 (by decide) (by decide)

theorem wrapC1_eq : mm_malloc 4 8 demo0 (2 ^ 32 - 8) = some (40, wrapC1) :=
  getD_eq_some _ _ 40 (by decide) (by decide)

theorem wrapD2_eq : mm_malloc 4 8 demo1 (2 ^ 32 - 8) = some (72, wrapD2) :=
  getD_eq_some _ _ 72 (by decide) (by decide)

theorem wrapD4_eq : mm_malloc 4 8 wrapD3 4088 = some (40, wrapD4) :=
  getD_eq_some _ _ 40 (by decide) (by decide)

theorem nowrap_one : NoWrap 4 1 := by unfold NoWrap; decide

/-- A free-list node that is too small and is its own successor is never left by the
search loop of `find_fit`. -/
theorem find_fit_loop_self (W : Nat) (s : State) (asize bp : Nat)
    (ha : GET_ALLOC s (HDRP W bp) = 0) (hs : GET_SIZE W s (HDRP W bp) < asize)
    (hn : NEXT_PTR W s bp = bp) : ∀ fuel, find_fit_loop W s asize fuel bp = none := by
  intro fuel
  induction fuel with
  | zero => rfl
  | succ k ih =>
    unfold find_fit_loop
    rw [if_pos ha, if_neg (by omega), hn]
    exact ih

/-- Claim C5 (the code departs from it): on the 32-bit platform, after
`mm_malloc(2^32 - 1)` = 40, `mm_malloc(4088)` = 48 and `mm_free(40)`, the request
`mm_malloc(1)`, which does not wrap, returns 4144; `mm_free(4144)` followed at once by
`mm_malloc(1)` returns 48 and not 4144. -/
theorem round_trip_lost_after_wrap :
    mm_malloc 4 8 demo0 (2 ^ 32 - 1) = some (40, wrapA1) ∧
    mm_malloc 4 8 wrapA1 4088 = some (48, wrapA2) ∧
    NoWrap 4 1 ∧
    mm_malloc 4 8 (mm_free 4 wrapA2 40) 1 = some (4144, wrapA4) ∧
    (∃ s', mm_malloc 4 8 (mm_free 4 wrapA4 4144) 1 = some (48, s')) ∧ 48 ≠ 4144 :=
  ⟨wrapA1_eq, wrapA2_eq, nowrap_one, wrapA4_eq,
    ⟨_, getD_eq_some _ (0, wrapA5) 48 (by decide) (by decide)⟩, by decide⟩

/-- Claim C6 (the code departs from it): on the 32-bit platform, after
`mm_malloc(24)` = 40, `mm_malloc(2^32 - 8)` = 72, `mm_free(40)` and `mm_malloc(4088)` = 40,
the pointer 72 is live, the chain of blocks is the one allocated block 40, so that no free
block lies before 72, and the adjusted size 16 of the request 1 is at most the size 4064 in
the header of 72; yet `mm_free(72)` followed at once by `mm_malloc(1)` returns 40, a
pointer that is still live, and not 72. -/
theorem freed_block_not_reused_after_wrap :
    mm_malloc 4 8 demo0 24 = some (40, demo1) ∧
    mm_malloc 4 8 demo1 (2 ^ 32 - 8) = some (72, wrapD2) ∧
    mm_malloc 4 8 (mm_free 4 wrapD2 40) 4088 = some (40, wrapD4) ∧
    chainWalk 4 wrapD4 8 (wrapD4.heap_listp + 6 * 4) = some ([40], wrapD4.mem_brk) ∧
    GET_ALLOC wrapD4 (HDRP 4 40) = 1 ∧
    adjust 4 1 = 16 ∧ GET_SIZE 4 wrapD4 (HDRP 4 72) = 4064 ∧
    (∃ s', mm_malloc 4 8 (mm_free 4 wrapD4 72) 1 = some (40, s')) ∧ 40 ≠ 72 :=
  ⟨demo1_eq, wrapD2_eq, wrapD4_eq, by decide, by decide, by decide, by decide,
    ⟨_, getD_eq_some _ (0, mm_free 4 wrapD4 72) 40 (by decide) (by decide)⟩, by decide⟩

/-- Claim C7 (the code departs from it): on the 32-bit platform, after
`mm_malloc(2^32 - 8)` = 40 and `mm_free(40)`, the only node 40 of the free list is a free
block of 4096 bytes that is its own successor.  For the request 5000, which does not wrap
and has the adjusted size 5008, no node is large enough and the provider would grant
`MAX(5008, CHUNKSIZE)` bytes, but the search of `find_fit` never ends: `mm_malloc(5000)`
returns neither null nor a block, whatever the fuel. -/
theorem mm_malloc_loops_after_wrap :
    mm_malloc 4 8 demo0 (2 ^ 32 - 8) = some (40, wrapC1) ∧
    wrapC2 = mm_free 4 wrapC1 40 ∧
    wrapC2.heap_listp ≠ 0 ∧ wrapC2.free_listp = 40 ∧
    NEXT_PTR 4 wrapC2 40 = 40 ∧ GET wrapC2 (HDRP 4 40) = PACK 4096 0 ∧
    NoWrap 4 5000 ∧ adjust 4 5000 = 5008 ∧
    (mem_sbrk 4 wrapC2 (MAX (adjust 4 5000) CHUNKSIZE)).1 ≠ SBRK_FAIL 4 ∧
    (∀ fuel, freeListWalk 4 wrapC2 fuel wrapC2.free_listp = none) ∧
    ∀ fuel, mm_malloc 4 fuel wrapC2 5000 = none := by
  have hloop := find_fit_loop_self 4 wrapC2 5008 40 (by decide) (by decide) (by decide)
  refine ⟨wrapC1_eq, rfl, by decide, by decide, by decide, by decide,
    by unfold NoWrap; decide, by decide, by decide, ?_, ?_⟩
  · intro fuel
    have e : wrapC2.free_listp = 40 := by decide
    rw [e]
    induction fuel with
    | zero => rfl
    | succ k ih =>
      unfold freeListWalk
      have h1 : GET_ALLOC wrapC2 (HDRP 4 40) = 0 := by decide
      have h2 : NEXT_PTR 4 wrapC2 40 = 40 := by decide
      simp [h1, h2, ih]
  · intro fuel
    rw [mm_malloc_unfold 4 fuel wrapC2 5000 (by decide) (by decide)]
    have e : find_fit 4 fuel wrapC2 (adjust 4 5000) = none := by
      have e1 : adjust 4 5000 = 5008 := by decide
      have e2 : wrapC2.free_listp = 40 := by decide
      unfold find_fit
      rw [e1, e2]
      exact hloop fuel
    rw [e]

/-- Claim C9 (the code departs from it): on the 32-bit platform, after
`mm_malloc(2^32 - 1)` = 40 and `mm_malloc(24)` = 48, the call `mm_free(40)` on the live
pointer 40 makes 40 the head of the free list with the header `PACK(8, 0)`, while the
footer word of that block holds 0 and not the same tag; and the successor link of the node
40 is written over the header of the live block 48, which changes from `PACK(32, 1)` to
80. -/
theorem mm_free_head_after_wrap :
    mm_malloc 4 8 demo0 (2 ^ 32 - 1) = some (40, wrapA1) ∧
    mm_malloc 4 8 wrapA1 24 = some (48, wrapB2) ∧
    (mm_free 4 wrapB2 40).free_listp = 40 ∧
    GET (mm_free 4 wrapB2 40) (HDRP 4 40) = PACK 8 0 ∧
    GET (mm_free 4 wrapB2 40) (FTRP 4 (mm_free 4 wrapB2 40) 40) = 0 ∧
    GET (mm_free 4 wrapB2 40) (FTRP 4 (mm_free 4 wrapB2 40) 40) ≠
      GET (mm_free 4 wrapB2 40) (HDRP 4 40) ∧
    GET wrapB2 (HDRP 4 48) = PACK 32 1 ∧
    GET (mm_free 4 wrapB2 40) (HDRP 4 48) = 80 :=
  ⟨wrapA1_eq, wrapB2_eq, by decide, by decide, by decide, by decide, by decide, by decide⟩

/-- Claim C17 (the code departs from it): on the 32-bit platform, after
`mm_malloc(2^32 - 1)` = 40, `mm_malloc(4088)` = 48, `mm_free(40)`, `mm_malloc(1)` = 4144
and `mm_free(4144)`, the call `mm_malloc(1)` returns 48 again: the allocations of 4088
bytes and of 1 byte at 48, neither of which wraps, are both live and their payload ranges
overlap. -/
theorem live_payloads_overlap_after_wrap :
    mm_malloc 4 8 demo0 (2 ^ 32 - 1) = some (40, wrapA1) ∧
    NoWrap 4 4088 ∧ mm_malloc 4 8 wrapA1 4088 = some (48, wrapA2) ∧
    mm_malloc 4 8 (mm_free 4 wrapA2 40) 1 = some (4144, wrapA4) ∧
    wrapA5 = mm_free 4 wrapA4 4144 ∧
    NoWrap 4 1 ∧ (∃ s', mm_malloc 4 8 wrapA5 1 = some (48, s')) ∧
    ¬ (48 + 4088 ≤ 48 ∨ 48 + 1 ≤ 48) :=
  ⟨wrapA1_eq, by unfold NoWrap; decide, wrapA2_eq, wrapA4_eq, rfl, nowrap_one,
    ⟨_, getD_eq_some _ (0, wrapA5) 48 (by decide) (by decide)⟩, by decide⟩

/-- Claim C18 (the code departs from it): on the 32-bit platform, after
`mm_malloc(2^32 - 1)` = 40, `mm_malloc(4088)` = 48, `mm_free(40)` and `mm_malloc(1)` = 4144,
the allocation of 4088 bytes at 48 is live; the call `mm_free(4144)`, on another live
pointer, changes the word at 52, inside the payload of 48, from 16 to 40. -/
theorem live_payload_changed_after_wrap :
    mm_malloc 4 8 demo0 (2 ^ 32 - 1) = some (40, wrapA1) ∧
    mm_malloc 4 8 wrapA1 4088 = some (48, wrapA2) ∧
    mm_malloc 4 8 (mm_free 4 wrapA2 40) 1 = some (4144, wrapA4) ∧
    4144 ≠ 48 ∧ 48 ≤ 52 ∧ 52 + 4 ≤ 48 + 4088 ∧
    GET wrapA4 52 = 16 ∧ GET (mm_free 4 wrapA4 4144) 52 = 40 :=
  ⟨wrapA1_eq, wrapA2_eq, wrapA4_eq, by decide, by decide, by decide, by decide, by decide⟩

end MM
